import Mathlib

/-!
# go-weblinks: the `Link` header parser of `weblinks.go`

A shallow embedding of `Parse`, `parseLink`, `parseParams`, `parseParam`,
`parseParamValue` and `parseToken`, followed by theorems about them.

Modelling choices.

* A Go string is modelled as the list of its code points (`Str`), so the
  development covers the strings that are valid UTF-8.  Every index the source
  computes is the position of an ASCII delimiter or of a rune boundary, and is
  only used to slice; positions are therefore counted in code points, and
  slices use the same unit.
* `s[0]` is a byte in Go: `byteAt0` returns the first byte of the UTF-8
  encoding of the first code point.
* An index or slice expression that is out of range makes the Go program
  panic.  Every function returns an `Option`; `none` means that no result was
  produced (a run-time panic, or the fuel of a loop model ran out).
* `url.Parse` and the Unicode letter table above ASCII belong to the Go
  standard library; they are parameters (`urlParse`, `L`).
* A Go `error` is modelled by `Option String` (`none` is `nil`), the string
  being the text of `err.Error()`.
* A Go map is modelled by an association list with unique keys.
* The calls to `log.Printf` have no effect on the results and are left out.
-/

namespace Weblinks

/-- A Go string, as the list of its code points. -/
abbrev Str := List Char

/-! ## Go standard library -/

/-- Go `unicode.IsSpace`: the code points with the Unicode White_Space property. -/
def isSpace (c : Char) : Bool :=
  (9 ≤ c.toNat && c.toNat ≤ 13) || c.toNat == 32 || c.toNat == 0x85 || c.toNat == 0xA0 ||
  c.toNat == 0x1680 || (0x2000 ≤ c.toNat && c.toNat ≤ 0x200A) || c.toNat == 0x2028 ||
  c.toNat == 0x2029 || c.toNat == 0x202F || c.toNat == 0x205F || c.toNat == 0x3000

/-- Go `unicode.IsLetter`: the ASCII letters, and above ASCII the letter table `L`. -/
def isLetter (L : Char → Bool) (c : Char) : Bool :=
  if c.toNat < 128 then c.isAlpha else L c

/-- Go `strings.TrimSpace`: removes leading and trailing white space. -/
def TrimSpace (s : Str) : Str :=
  (s.dropWhile isSpace).rdropWhile isSpace

/-- Go `strings.IndexFunc`: position of the first code point satisfying `f`;
`none` stands for Go's `-1`. -/
def IndexFunc : Str → (Char → Bool) → Option Nat
  | [], _ => none
  | c :: cs, f => if f c then some 0 else (IndexFunc cs f).map (· + 1)

/-- Go `strings.Index(s, sep)` for a separator of one ASCII character. -/
def Index (s : Str) (sep : Char) : Option Nat :=
  IndexFunc s (fun c => c == sep)

/-- Go `strings.IndexAny(s, chars)`. -/
def IndexAny (s : Str) (chars : Str) : Option Nat :=
  IndexFunc s (fun c => chars.contains c)

/-- Go `strings.HasPrefix`. -/
def HasPrefix (s pre : Str) : Bool :=
  pre.isPrefixOf s

/-- Go `strings.Split(s, " ")`: the segments between single spaces; never empty. -/
def Split : Str → List Str
  | [] => [[]]
  | c :: cs =>
    if c = ' ' then [] :: Split cs
    else
      match Split cs with
      | [] => [[c]]
      | seg :: segs => (c :: seg) :: segs

/-- First byte of the UTF-8 encoding of a code point. -/
def utf8Lead (c : Char) : Nat :=
  if c.toNat < 0x80 then c.toNat
  else if c.toNat < 0x800 then 0xC0 + c.toNat / 0x40
  else if c.toNat < 0x10000 then 0xE0 + c.toNat / 0x1000
  else 0xF0 + c.toNat / 0x40000

/-- Go `s[0]`: the first byte of the string; `none` (panic) on the empty string. -/
def byteAt0 (s : Str) : Option Nat :=
  s.head?.map utf8Lead

/-- Go `s[i:]`; `none` (panic) when `i` is out of range. -/
def sliceFrom (s : Str) (i : Nat) : Option Str :=
  if i ≤ s.length then some (s.drop i) else none

/-- Go `s[i:j]`; `none` (panic) when the bounds are out of range. -/
def slice (s : Str) (i j : Nat) : Option Str :=
  if i ≤ j ∧ j ≤ s.length then some ((s.take j).drop i) else none

/-- Go `string(b)` for a byte `b`: the string holding the code point `b`. -/
def byteToString (b : Nat) : String :=
  String.singleton (Char.ofNat b)

/-- Go `m[k]` with the comma-ok form, on an association list. -/
def mapGet {V : Type} (m : List (Str × V)) (k : Str) : Option V :=
  match m with
  | [] => none
  | (k', v) :: rest => if k' = k then some v else mapGet rest k

/-- Go `m[k] = v`: the binding of `k` is replaced, the other keys are kept. -/
def mapSet {V : Type} (m : List (Str × V)) (k : Str) (v : V) : List (Str × V) :=
  (k, v) :: m.filter (fun kv => !decide (kv.1 = k))

/-- The keys of a Go map. -/
def mapKeys {V : Type} (m : List (Str × V)) : List Str :=
  m.map Prod.fst

/-! ## Data model -/

/-- Go `type Link struct`: `U` is the type of `*url.URL` values. -/
structure Link (U : Type) where
  URI : U
  Attributes : List (Str × Str)
  rels : List Str
deriving DecidableEq, Repr

/-- Go `type Links map[string]*Link`. -/
abbrev Links (U : Type) := List (Str × Link U)

/-- Go `type params struct`. -/
structure params where
  rels : List Str
  attributes : List (Str × Str)
deriving DecidableEq, Repr

/-- Go `type param struct`. -/
structure param where
  key : Str
  value : Str
deriving DecidableEq, Repr

/-! ## The parser -/

/-- Go `parseToken`. -/
def parseToken (L : Char → Bool) (s : Str) : Option (Str × Str × Option String) :=
  match IndexFunc s (fun r => !isLetter L r) with
  | none => some ([], s, some "no token found")
  | some endToken => do
    let token ← slice s 0 endToken
    let s ← sliceFrom s endToken
    pure (token, s, none)

/-- Go `parseParamValue`. -/
def parseParamValue (s : Str) : Option (Str × Str × Option String) :=
  if HasPrefix s ['"'] then do
    -- Quoted string, look for end of quote
    let s1 ← sliceFrom s 1
    match Index s1 '"' with
    | none => pure ([], [], some "expected \" but found none")
    | some endValueIndex => do
      let value ← slice s 1 (endValueIndex + 1)
      let rest ← sliceFrom s (endValueIndex + 1)
      let rest ← sliceFrom rest 1 -- consume "
      pure (value, rest, none)
  else
    -- Nonquoted string, just look for either a space, comma, or semi
    match IndexAny s [' ', ';', ','] with
    | none => do
      let value ← sliceFrom s 0
      pure (value, [], none)
    | some endValueIndex => do
      let value ← slice s 0 endValueIndex
      let rest ← sliceFrom s (endValueIndex + 1)
      pure (value, rest, none)

/-- Go `parseParam`. -/
def parseParam (L : Char → Bool) (s : Str) : Option (Option param × Str × Option String) := do
  let s := TrimSpace s
  let (key, s, err) ← parseToken L s
  match err with
  | some e => pure (none, s, some e)
  | none =>
    if s.length = 0 then
      pure (none, s, some "expected '=' but found end of string")
    else do
      let b ← byteAt0 s
      if b ≠ '='.toNat then
        pure (none, s, some ("expected '=' but found '" ++ byteToString b ++ "'"))
      else do
        let s ← sliceFrom s 1 -- consume "="
        let (value, rest, err) ← parseParamValue s
        match err with
        | some e => pure (none, s, some ("could not parse param value: " ++ e))
        | none => pure (some { key := key, value := value }, rest, none)

/-- The `switch p.key` of `parseParams`. -/
def addParam (result : params) (p : param) : params :=
  if p.key = ['r', 'e', 'l'] then
    { result with rels := Split p.value }
  else
    { result with attributes := mapSet result.attributes p.key p.value }

/-- The `for` loop of Go `parseParams`, one iteration per unit of fuel. -/
def parseParamsLoop (L : Char → Bool) :
    Nat → params → Str → Option (params × Str × Option String)
  | 0, _, _ => none
  | fuel + 1, result, s =>
    if s.length = 0 then
      some (result, s, none)
    else do
      let b ← byteAt0 s
      -- Signals next link
      if b = ','.toNat then do
        let s ← sliceFrom s 1 -- consume ","
        let s := TrimSpace s
        pure (result, s, none)
      else if b = ';'.toNat then do
        let s ← sliceFrom s 1 -- consume ";"
        let s := TrimSpace s
        parseParamsLoop L fuel result s
      else do
        let (p, rest, err) ← parseParam L s
        match err with
        | some e => pure (result, s, some e)
        | none =>
          match p with
          | none => none
          | some p => parseParamsLoop L fuel (addParam result p) (TrimSpace rest)

/-- Go `parseParams`: the loop started on empty `rels` and `attributes`; every
iteration but the last shortens the string, so `len(s) + 1` iterations suffice. -/
def parseParams (L : Char → Bool) (s : Str) : Option (params × Str × Option String) :=
  parseParamsLoop L (s.length + 1) { rels := [], attributes := [] } s

/-- The anchor override of `parseLink`. -/
def applyAnchor {U : Type} (urlParse : Str → Except String U) (result : Link U) : Link U :=
  match mapGet result.Attributes ['a', 'n', 'c', 'h', 'o', 'r'] with
  | some anchor =>
    match urlParse anchor with
    | .ok anchorUri => { result with URI := anchorUri }
    | .error _ => result
  | none => result

/-- Go `parseLink`. -/
def parseLink {U : Type} (urlParse : Str → Except String U) (L : Char → Bool) (s : Str) :
    Option (Option (Link U) × Str × Option String) := do
  let b ← byteAt0 s
  if b ≠ '<'.toNat then
    pure (none, s, some "link does not begin with <")
  else do
    let s ← sliceFrom s 1 -- consume <
    match Index s '>' with
    | none => pure (none, s, some "link does not end with >")
    | some endUriIndex => do
      let t ← slice s 0 endUriIndex
      match urlParse t with
      | .error e => pure (none, s, some ("link could not be parsed: " ++ e))
      | .ok uri => do
        let result : Link U := { URI := uri, Attributes := [], rels := [] }
        let s ← sliceFrom s (endUriIndex + 1)
        let s := TrimSpace s
        if s.length = 0 then
          pure (some result, s, some "no params found")
        else do
          let b ← byteAt0 s
          if b ≠ ';'.toNat then
            pure (some result, s, some "no params found")
          else do
            let s ← sliceFrom s 1 -- consume ;
            let (params, rest, err) ← parseParams L s
            match err with
            | some e => pure (some result, s, some ("params could not be parsed: " ++ e))
            | none =>
              let result : Link U :=
                { result with rels := params.rels, Attributes := params.attributes }
              pure (some (applyAnchor urlParse result), rest, none)

/-- The `for _, r := range link.rels` of `Parse`. -/
def insertRels {U : Type} (result : Links U) (link : Link U) : Links U :=
  link.rels.foldl (fun m r => mapSet m r link) result

/-- The `for` loop of Go `Parse`, one iteration per unit of fuel. -/
def ParseLoop {U : Type} (urlParse : Str → Except String U) (L : Char → Bool) :
    Nat → Links U → Str → Option (Links U × Option String)
  | 0, _, _ => none
  | fuel + 1, result, s =>
    if s = [] then
      some (result, none)
    else do
      let (link, rest, err) ← parseLink urlParse L s
      match err with
      | some e => pure (result, some e)
      | none =>
        match link with
        | none => none
        | some link => ParseLoop urlParse L fuel (insertRels result link) (TrimSpace rest)

/-- Go `Parse`: every iteration but the last shortens the string, so
`len(s) + 1` iterations suffice. -/
def Parse {U : Type} (urlParse : Str → Except String U) (L : Char → Bool) (s : Str) :
    Option (Links U × Option String) :=
  ParseLoop urlParse L ((TrimSpace s).length + 1) [] (TrimSpace s)

/-! ## Test data: two URL parsers and an empty letter table -/

/-- A URL parser that accepts every string and returns it unchanged. -/
def idUrl (s : Str) : Except String Str := .ok s

/-- A URL parser that rejects the strings holding an ASCII control character, as
`url.Parse` does, and returns the other strings unchanged. -/
def ctlUrl (s : Str) : Except String Str :=
  if s.any (fun c => c.toNat < 0x20 || c.toNat == 0x7F) then
    .error "net/url: invalid control character in URL"
  else
    .ok s

/-- A letter table with no letter above ASCII. -/
def asciiOnly (_ : Char) : Bool := false

/-! ## Vocabulary of the specification -/

/-- A string that does not end in white space. -/
def EndsClean (s : Str) : Prop :=
  ∀ h : s ≠ [], isSpace (s.getLast h) = false

/-- The delimiters that end an unquoted value. -/
def isDelim (c : Char) : Bool :=
  [' ', ';', ','].contains c

/-- A link entry with one relation: the text between the brackets, the relation
and the URI that the URI parser returns for the text. -/
structure RelEntry (U : Type) where
  u : Str
  r : Str
  uri : U

/-- The text `<u>; rel="r"`. -/
def relEntry (u r : Str) : Str :=
  '<' :: (u ++ ['>', ';', ' ', 'r', 'e', 'l', '=', '"'] ++ (r ++ ['"']))

/-- The entries `<u_i>; rel="r_i"` joined by `", "`. -/
def relHeader {U : Type} (es : List (RelEntry U)) : Str :=
  List.intercalate [',', ' '] (es.map (fun e => relEntry e.u e.r))

/-- The link that `parseLink` builds for `<u>; rel="r"`. -/
def relLink {U : Type} (e : RelEntry U) : Link U :=
  { URI := e.uri, Attributes := [], rels := [e.r] }

/-- The text `<u>; rel="p"; title="v"`. -/
def titleEntry (u p v : Str) : Str :=
  '<' :: (u ++ ['>', ';', ' ', 'r', 'e', 'l', '=', '"'] ++ (p ++
    ['"', ';', ' ', 't', 'i', 't', 'l', 'e', '=', '"'] ++ (v ++ ['"'])))

/-- The relations `r1 r2 ... rn` joined by single spaces. -/
def joinRels (rs : List Str) : Str :=
  List.intercalate [' '] rs

/-- The text `k="v"` of a parameter with a quoted value. -/
def quotedParam (k v : Str) : Str :=
  k ++ '=' :: '"' :: (v ++ ['"'])

/-- The parameters `k_i="v_i"` joined by the separator `sep`. -/
def joinParams (sep : Str) (ps : List (Str × Str)) : Str :=
  List.intercalate sep (ps.map (fun kv => quotedParam kv.1 kv.2))

/-- The relations and attributes that a list of parameters gives, in order. -/
def paramsOf (ps : List (Str × Str)) : params :=
  ps.foldl (fun acc kv => addParam acc { key := kv.1, value := kv.2 })
    { rels := [], attributes := [] }

/-- Entry texts joined by `", "`. -/
def joinEntries (texts : List Str) : Str :=
  List.intercalate [',', ' '] texts

/-- The text `<u>; k="v"` of an entry with one parameter. -/
def attrEntry (u k v : Str) : Str :=
  '<' :: (u ++ ['>', ';', ' '] ++ quotedParam k v)

/-- An entry with one parameter that is not `rel`: the text between the brackets,
the key, the value, and the URI that the URI parser returns for the text. -/
structure AttrEntry (U : Type) where
  u : Str
  k : Str
  v : Str
  uri : U

/-- The entries `<u_i>; k_i="v_i"` joined by `", "`. -/
def attrHeader {U : Type} (es : List (AttrEntry U)) : Str :=
  joinEntries (es.map (fun e => attrEntry e.u e.k e.v))

/-- The parameters `k_i="v_i"`, each followed by `"; "`, and then the text `last`. -/
def paramsThen : List (Str × Str) → Str → Str
  | [], last => last
  | kv :: ps, last => quotedParam kv.1 kv.2 ++ ';' :: ' ' :: paramsThen ps last

/-- The text of an entry `<u>; `, the parameters `k_i="v_i"` each followed by
`"; "`, and a last parameter `k="v` whose quoted value is not closed. -/
def unterminatedEntry (u : Str) (ps : List (Str × Str)) (k v : Str) : Str :=
  '<' :: (u ++ ['>', ';', ' '] ++ paramsThen ps (k ++ '=' :: '"' :: v))

/-- The entry texts, each followed by `", "`, and then the text `last`. -/
def entriesThen : List Str → Str → Str
  | [], last => last
  | e :: es, last => e ++ ',' :: ' ' :: entriesThen es last

/-- The top-level loop of `Parse`, at the collection `acc` and the remaining
string `s`, arrives at the collection `acc'` and the remaining string `s'` after
zero or more iterations, each on an entry that `parseLink` accepts: an iteration
inserts the entry under its relations and goes on with the trimmed remainder. -/
inductive LoopReaches {U : Type} (urlParse : Str → Except String U) (L : Char → Bool) :
    Links U → Str → Links U → Str → Prop
  | here (acc : Links U) (s : Str) : LoopReaches urlParse L acc s acc s
  | next {acc acc' : Links U} {s s' rest : Str} {link : Link U} (hs : s ≠ [])
      (h : parseLink urlParse L s = some (some link, rest, none))
      (hr : LoopReaches urlParse L (insertRels acc link) (TrimSpace rest) acc' s') :
      LoopReaches urlParse L acc s acc' s'

/-- The text `<u>; rel="a"; rel="b"` of an entry with two `rel` parameters. -/
def twoRelEntry (u a b : Str) : Str :=
  '<' :: (u ++ ['>', ';', ' '] ++ (quotedParam ['r', 'e', 'l'] a ++ [';', ' '] ++
    quotedParam ['r', 'e', 'l'] b))

/-! ## Lemmas on the string primitives -/

theorem endsClean_nil : EndsClean [] := by
  intro h; exact absurd rfl h

theorem endsClean_append (a : Str) {b : Str} (hb : b ≠ []) (h : EndsClean b) :
    EndsClean (a ++ b) := by
  intro hne
  rw [List.getLast_append_of_ne_nil hb]
  exact h hb

theorem endsClean_cons (c : Char) {b : Str} (hb : b ≠ []) (h : EndsClean b) :
    EndsClean (c :: b) :=
  endsClean_append [c] hb h

theorem endsClean_singleton {c : Char} (hc : isSpace c = false) : EndsClean [c] := by
  intro _; simpa using hc

theorem endsClean_cons_of_clean {c : Char} (hc : isSpace c = false) {b : Str}
    (h : EndsClean b) : EndsClean (c :: b) := by
  cases b with
  | nil => exact endsClean_singleton hc
  | cons x xs => exact endsClean_cons c (by simp) h

theorem endsClean_of_append {a b : Str} (hb : b ≠ []) (h : EndsClean (a ++ b)) :
    EndsClean b := by
  intro _
  have := h (by simp [hb])
  rwa [List.getLast_append_of_ne_nil hb] at this

theorem rdropWhile_of_endsClean {s : Str} (h : EndsClean s) :
    s.rdropWhile isSpace = s := by
  rw [List.rdropWhile_eq_self_iff]
  intro hl
  simp [h hl]

theorem TrimSpace_clean {c : Char} {t : Str} (hc : isSpace c = false)
    (h : EndsClean (c :: t)) : TrimSpace (c :: t) = c :: t := by
  unfold TrimSpace
  rw [List.dropWhile_cons_of_neg (by simp [hc])]
  exact rdropWhile_of_endsClean h

theorem TrimSpace_nil : TrimSpace [] = [] := by
  simp [TrimSpace]

theorem TrimSpace_spaces_append {ws : Str} (h : ∀ x ∈ ws, isSpace x = true) (s : Str) :
    TrimSpace (ws ++ s) = TrimSpace s := by
  unfold TrimSpace
  rw [List.dropWhile_append_of_pos h]

theorem TrimSpace_spaces {ws : Str} (h : ∀ x ∈ ws, isSpace x = true) : TrimSpace ws = [] := by
  have := TrimSpace_spaces_append h []
  simpa [TrimSpace_nil] using this

theorem TrimSpace_length_le (s : Str) : (TrimSpace s).length ≤ s.length := by
  unfold TrimSpace
  have h1 : ((s.dropWhile isSpace).rdropWhile isSpace).length ≤ (s.dropWhile isSpace).length :=
    (List.rdropWhile_prefix isSpace (s.dropWhile isSpace)).length_le
  have h2 : (s.dropWhile isSpace).length ≤ s.length :=
    (List.dropWhile_suffix isSpace).length_le
  omega

theorem TrimSpace_part (s : Str) : TrimSpace s <:+: s := by
  unfold TrimSpace
  exact (List.rdropWhile_prefix isSpace (s.dropWhile isSpace)).isInfix.trans
    (List.dropWhile_suffix isSpace).isInfix

theorem TrimSpace_suffix_of_endsClean {s : Str} (h : EndsClean s) : TrimSpace s <:+ s := by
  unfold TrimSpace
  have hs : s.dropWhile isSpace <:+ s := List.dropWhile_suffix isSpace
  by_cases hne : s.dropWhile isSpace = []
  · rw [hne]; simp
  · obtain ⟨a, ha⟩ := hs
    have hc : EndsClean (s.dropWhile isSpace) := by
      apply endsClean_of_append hne (a := a)
      rw [ha]; exact h
    rw [rdropWhile_of_endsClean hc]
    exact ⟨a, ha⟩

theorem IndexFunc_append {f : Char → Bool} {a : Str} (ha : ∀ x ∈ a, f x = false)
    {c : Char} (hc : f c = true) (b : Str) :
    IndexFunc (a ++ c :: b) f = some a.length := by
  induction a with
  | nil => simp [IndexFunc, hc]
  | cons x xs ih =>
    have hx : f x = false := ha x (by simp)
    have := ih (fun y hy => ha y (by simp [hy]))
    simp [IndexFunc, hx, this]

theorem IndexFunc_none {f : Char → Bool} {s : Str} (h : ∀ x ∈ s, f x = false) :
    IndexFunc s f = none := by
  induction s with
  | nil => rfl
  | cons x xs ih =>
    have hx : f x = false := h x (by simp)
    simp [IndexFunc, hx, ih (fun y hy => h y (by simp [hy]))]

theorem IndexFunc_cases (f : Char → Bool) (s : Str) :
    (IndexFunc s f = none ∧ ∀ x ∈ s, f x = false) ∨
    (∃ a c b, s = a ++ c :: b ∧ (∀ x ∈ a, f x = false) ∧ f c = true ∧
      IndexFunc s f = some a.length) := by
  induction s with
  | nil => left; simp [IndexFunc]
  | cons x xs ih =>
    by_cases hx : f x = true
    · right
      exact ⟨[], x, xs, rfl, by simp, hx, by simp [IndexFunc, hx]⟩
    · have hx' : f x = false := by simpa using hx
      rcases ih with ⟨h1, h2⟩ | ⟨a, c, b, rfl, ha, hc, hi⟩
      · left
        refine ⟨by simp [IndexFunc, hx', h1], ?_⟩
        intro y hy
        rcases List.mem_cons.1 hy with rfl | hy
        · exact hx'
        · exact h2 y hy
      · right
        refine ⟨x :: a, c, b, rfl, ?_, hc, by simp [IndexFunc, hx', hi]⟩
        intro y hy
        rcases List.mem_cons.1 hy with rfl | hy
        · exact hx'
        · exact ha y hy

theorem sliceFrom_zero (s : Str) : sliceFrom s 0 = some s := by
  simp [sliceFrom]

theorem sliceFrom_one (c : Char) (s : Str) : sliceFrom (c :: s) 1 = some s := by
  simp [sliceFrom]

theorem sliceFrom_append (a b : Str) : sliceFrom (a ++ b) a.length = some b := by
  simp [sliceFrom]

theorem sliceFrom_append_succ (a : Str) (c : Char) (b : Str) :
    sliceFrom (a ++ c :: b) (a.length + 1) = some b := by
  have := sliceFrom_append (a ++ [c]) b
  simpa using this

theorem slice_append (a b : Str) : slice (a ++ b) 0 a.length = some a := by
  simp [slice]

theorem slice_cons_append (q : Char) (a b : Str) :
    slice (q :: (a ++ b)) 1 (a.length + 1) = some a := by
  simp [slice]

theorem byteAt0_cons (c : Char) (s : Str) : byteAt0 (c :: s) = some (utf8Lead c) := by
  simp [byteAt0]

theorem utf8Lead_ascii {c : Char} (h : c.toNat < 128) : utf8Lead c = c.toNat := by
  simp [utf8Lead, h]

theorem utf8Lead_eq_ascii {c d : Char} (hd : d.toNat < 128) :
    utf8Lead c = d.toNat ↔ c = d := by
  constructor
  · intro h
    apply Char.ext
    apply UInt32.ext
    have hn : c.toNat = d.toNat := by
      unfold utf8Lead at h
      split_ifs at h <;> omega
    exact hn
  · rintro rfl
    exact utf8Lead_ascii hd

/-! ## The token and value parsers -/

theorem parseToken_append (L : Char → Bool) {k : Str} (hk : ∀ x ∈ k, isLetter L x = true)
    {c : Char} (hc : isLetter L c = false) (rest : Str) :
    parseToken L (k ++ c :: rest) = some (k, c :: rest, none) := by
  unfold parseToken
  rw [IndexFunc_append (f := fun r => !isLetter L r) (by simpa using hk) (by simpa using hc)]
  simp [slice_append, sliceFrom_append]

theorem parseToken_letters (L : Char → Bool) {k : Str} (hk : ∀ x ∈ k, isLetter L x = true) :
    parseToken L k = some ([], k, some "no token found") := by
  unfold parseToken
  rw [IndexFunc_none (f := fun r => !isLetter L r) (by simpa using hk)]

theorem parseToken_cases (L : Char → Bool) (s : Str) :
    ((∀ x ∈ s, isLetter L x = true) ∧ parseToken L s = some ([], s, some "no token found")) ∨
    (∃ k c rest, s = k ++ c :: rest ∧ (∀ x ∈ k, isLetter L x = true) ∧ isLetter L c = false ∧
      parseToken L s = some (k, c :: rest, none)) := by
  rcases IndexFunc_cases (fun r => !isLetter L r) s with ⟨_, h⟩ | ⟨a, c, b, rfl, ha, hc, _⟩
  · have h' : ∀ x ∈ s, isLetter L x = true := by simpa using h
    exact Or.inl ⟨h', parseToken_letters L h'⟩
  · have ha' : ∀ x ∈ a, isLetter L x = true := by simpa using ha
    have hc' : isLetter L c = false := by simpa using hc
    exact Or.inr ⟨a, c, b, rfl, ha', hc', parseToken_append L ha' hc' b⟩

theorem HasPrefix_quote_cons (c : Char) (s : Str) :
    HasPrefix (c :: s) ['"'] = decide (c = '"') := by
  unfold HasPrefix
  rw [List.isPrefixOf_cons₂]
  by_cases h : c = '"'
  · subst h; cases s <;> simp [List.isPrefixOf]
  · have h2 : ¬ ('"' = c) := fun e => h e.symm
    simp [h, h2]

theorem parseParamValue_quoted {v : Str} (hv : ∀ x ∈ v, x ≠ '"') (r : Str) :
    parseParamValue ('"' :: (v ++ '"' :: r)) = some (v, r, none) := by
  unfold parseParamValue
  have hi : Index (v ++ '"' :: r) '"' = some v.length :=
    IndexFunc_append (by simpa using hv) (by simp) r
  have h3 : sliceFrom ('"' :: (v ++ '"' :: r)) (v.length + 1) = some ('"' :: r) := by
    have := sliceFrom_append ('"' :: v) ('"' :: r)
    simpa using this
  simp [HasPrefix_quote_cons, sliceFrom_one, hi, slice_cons_append, h3]

theorem parseParamValue_unterminated {v : Str} (hv : ∀ x ∈ v, x ≠ '"') :
    parseParamValue ('"' :: v) = some ([], [], some "expected \" but found none") := by
  unfold parseParamValue
  have hi : Index v '"' = none := IndexFunc_none (by simpa using hv)
  simp [HasPrefix_quote_cons, sliceFrom_one, hi]

theorem parseParamValue_unquoted_end {s : Str} (hq : s.head? ≠ some '"')
    (hs : ∀ x ∈ s, isDelim x = false) :
    parseParamValue s = some (s, [], none) := by
  unfold parseParamValue
  have hp : HasPrefix s ['"'] = false := by
    cases s with
    | nil => simp [HasPrefix, List.isPrefixOf]
    | cons c t =>
      rw [HasPrefix_quote_cons]
      simpa using hq
  have hi : IndexAny s [' ', ';', ','] = none := IndexFunc_none hs
  simp [hp, hi, sliceFrom_zero]

theorem parseParamValue_unquoted_delim {a : Str} {d : Char} (b : Str)
    (hq : (a ++ d :: b).head? ≠ some '"')
    (ha : ∀ x ∈ a, isDelim x = false) (hd : isDelim d = true) :
    parseParamValue (a ++ d :: b) = some (a, b, none) := by
  unfold parseParamValue
  have hp : HasPrefix (a ++ d :: b) ['"'] = false := by
    cases a with
    | nil =>
      rw [List.nil_append, HasPrefix_quote_cons]
      simpa using hq
    | cons c t =>
      rw [List.cons_append, HasPrefix_quote_cons]
      simpa using hq
  have hi : IndexAny (a ++ d :: b) [' ', ';', ','] = some a.length := IndexFunc_append ha hd b
  simp [hp, hi, slice_append, sliceFrom_append_succ]

/-- The outcomes of `parseParamValue`: it never panics, and what it leaves is a
proper suffix of a non-empty input. -/
theorem parseParamValue_cases (s : Str) :
    (∃ v, s = '"' :: v ∧ (∀ x ∈ v, x ≠ '"') ∧
      parseParamValue s = some ([], [], some "expected \" but found none")) ∨
    (∃ v r, s = '"' :: (v ++ '"' :: r) ∧ (∀ x ∈ v, x ≠ '"') ∧
      parseParamValue s = some (v, r, none)) ∨
    (s.head? ≠ some '"' ∧ (∀ x ∈ s, isDelim x = false) ∧
      parseParamValue s = some (s, [], none)) ∨
    (∃ a d b, s = a ++ d :: b ∧ s.head? ≠ some '"' ∧ (∀ x ∈ a, isDelim x = false) ∧
      isDelim d = true ∧ parseParamValue s = some (a, b, none)) := by
  by_cases hq : s.head? = some '"'
  · obtain ⟨t, rfl⟩ : ∃ t, s = '"' :: t := by
      cases s with
      | nil => simp at hq
      | cons c t => exact ⟨t, by simpa using hq⟩
    rcases IndexFunc_cases (fun c => c == '"') t with ⟨_, h⟩ | ⟨a, c, b, rfl, ha, hc, _⟩
    · have h' : ∀ x ∈ t, x ≠ '"' := by simpa using h
      exact Or.inl ⟨t, rfl, h', parseParamValue_unterminated h'⟩
    · have ha' : ∀ x ∈ a, x ≠ '"' := by simpa using ha
      have hc' : c = '"' := by simpa using hc
      subst hc'
      exact Or.inr (Or.inl ⟨a, b, rfl, ha', parseParamValue_quoted ha' b⟩)
  · rcases IndexFunc_cases isDelim s with ⟨_, h⟩ | ⟨a, d, b, rfl, ha, hd, _⟩
    · exact Or.inr (Or.inr (Or.inl ⟨hq, h, parseParamValue_unquoted_end hq h⟩))
    · exact Or.inr (Or.inr (Or.inr
        ⟨a, d, b, rfl, hq, ha, hd, parseParamValue_unquoted_delim b hq ha hd⟩))

theorem parseParamValue_total (s : Str) :
    ∃ v r e, parseParamValue s = some (v, r, e) ∧ r.length ≤ s.length ∧ r <:+ s := by
  rcases parseParamValue_cases s with ⟨v, rfl, _, h⟩ | ⟨v, r, rfl, _, h⟩ | ⟨_, _, h⟩ |
    ⟨a, d, b, rfl, _, _, _, h⟩
  · exact ⟨_, _, _, h, by simp, List.nil_suffix⟩
  · exact ⟨_, _, _, h, by simp; omega, ⟨'"' :: (v ++ ['"']), by simp⟩⟩
  · exact ⟨_, _, _, h, by simp, List.nil_suffix⟩
  · exact ⟨_, _, _, h, by simp; omega, ⟨a ++ [d], by simp⟩⟩

/-! ## The parameter parser -/

theorem isLetter_eq : ∀ L : Char → Bool, isLetter L '=' = false := by
  intro L; simp [isLetter]

theorem parseParam_ok (L : Char → Bool) {s k val v r : Str}
    (hs : TrimSpace s = k ++ '=' :: val) (hk : ∀ x ∈ k, isLetter L x = true)
    (hv : parseParamValue val = some (v, r, none)) :
    parseParam L s = some (some { key := k, value := v }, r, none) := by
  unfold parseParam
  simp [hs, parseToken_append L hk (isLetter_eq L) val, byteAt0_cons, utf8Lead, sliceFrom_one,
    hv]

theorem parseParam_value_error (L : Char → Bool) {s k val v r : Str} {e : String}
    (hs : TrimSpace s = k ++ '=' :: val) (hk : ∀ x ∈ k, isLetter L x = true)
    (hv : parseParamValue val = some (v, r, some e)) :
    parseParam L s = some (none, val, some ("could not parse param value: " ++ e)) := by
  unfold parseParam
  simp [hs, parseToken_append L hk (isLetter_eq L) val, byteAt0_cons, utf8Lead, sliceFrom_one,
    hv]

theorem parseParam_no_eq (L : Char → Bool) {s k rest : Str} {c : Char}
    (hs : TrimSpace s = k ++ c :: rest) (hk : ∀ x ∈ k, isLetter L x = true)
    (hc : isLetter L c = false) (hne : c ≠ '=') :
    parseParam L s = some (none, c :: rest,
      some ("expected '=' but found '" ++ byteToString (utf8Lead c) ++ "'")) := by
  unfold parseParam
  have hb : ¬ (utf8Lead c = 61) := by
    intro h
    exact hne ((utf8Lead_eq_ascii (d := '=') (by decide)).1 h)
  simp [hs, parseToken_append L hk hc rest, byteAt0_cons, hb]

theorem parseParam_no_token (L : Char → Bool) {s : Str}
    (hk : ∀ x ∈ TrimSpace s, isLetter L x = true) :
    parseParam L s = some (none, TrimSpace s, some "no token found") := by
  unfold parseParam
  simp [parseToken_letters L hk]

/-- The outcomes of `parseParam`: it never panics, it returns a parameter exactly
when it returns no error, and then what it leaves is shorter than its input. -/
theorem parseParam_cases (L : Char → Bool) (s : Str) :
    (∃ r e, parseParam L s = some (none, r, some e)) ∨
    (∃ p r, parseParam L s = some (some p, r, none) ∧ r.length < s.length ∧ r <:+: s) := by
  rcases parseToken_cases L (TrimSpace s) with ⟨hk, _⟩ | ⟨k, c, rest, hs, hk, hc, _⟩
  · exact Or.inl ⟨_, _, parseParam_no_token L hk⟩
  · by_cases hne : c = '='
    · subst hne
      obtain ⟨v, r, e, hv, hl, hsuf⟩ := parseParamValue_total rest
      have hinf : r <:+: s := by
        have h1 : rest <:+ TrimSpace s := ⟨k ++ ['='], by rw [hs]; simp⟩
        exact (hsuf.trans h1).isInfix.trans (TrimSpace_part s)
      have hlen : rest.length < s.length := by
        have h1 := TrimSpace_length_le s
        rw [hs] at h1
        simp at h1
        omega
      cases e with
      | none => exact Or.inr ⟨_, _, parseParam_ok L hs hk hv, by omega, hinf⟩
      | some e => exact Or.inl ⟨_, _, parseParam_value_error L hs hk hv⟩
    · exact Or.inl ⟨_, _, parseParam_no_eq L hs hk hc hne⟩

/-! ## The parameter list loop -/

theorem parseParamsLoop_nil (L : Char → Bool) (f : Nat) (p : params) :
    parseParamsLoop L (f + 1) p [] = some (p, [], none) := by
  simp [parseParamsLoop]

theorem parseParamsLoop_comma (L : Char → Bool) (f : Nat) (p : params) (t : Str) :
    parseParamsLoop L (f + 1) p (',' :: t) = some (p, TrimSpace t, none) := by
  simp [parseParamsLoop, byteAt0_cons, utf8Lead, sliceFrom_one]

theorem parseParamsLoop_semi (L : Char → Bool) (f : Nat) (p : params) (t : Str) :
    parseParamsLoop L (f + 1) p (';' :: t) = parseParamsLoop L f p (TrimSpace t) := by
  simp [parseParamsLoop, byteAt0_cons, utf8Lead, sliceFrom_one]

theorem lead_ne_comma {c : Char} (h : c ≠ ',') : ¬ (utf8Lead c = 44) := by
  intro e
  exact h ((utf8Lead_eq_ascii (d := ',') (by decide)).1 e)

theorem lead_ne_semi {c : Char} (h : c ≠ ';') : ¬ (utf8Lead c = 59) := by
  intro e
  exact h ((utf8Lead_eq_ascii (d := ';') (by decide)).1 e)

theorem parseParamsLoop_param (L : Char → Bool) (f : Nat) (p : params) {c : Char} {t rest : Str}
    {q : param} (h1 : c ≠ ',') (h2 : c ≠ ';')
    (h : parseParam L (c :: t) = some (some q, rest, none)) :
    parseParamsLoop L (f + 1) p (c :: t) =
      parseParamsLoop L f (addParam p q) (TrimSpace rest) := by
  simp [parseParamsLoop, byteAt0_cons, lead_ne_comma h1, lead_ne_semi h2, h]

theorem parseParamsLoop_error (L : Char → Bool) (f : Nat) (p : params) {c : Char} {t r : Str}
    {x : Option param} {e : String} (h1 : c ≠ ',') (h2 : c ≠ ';')
    (h : parseParam L (c :: t) = some (x, r, some e)) :
    parseParamsLoop L (f + 1) p (c :: t) = some (p, c :: t, some e) := by
  simp [parseParamsLoop, byteAt0_cons, lead_ne_comma h1, lead_ne_semi h2, h]

/-- More fuel does not change a result of the parameter loop. -/
theorem parseParamsLoop_succ (L : Char → Bool) :
    ∀ (f : Nat) (p : params) (s : Str) (r : params × Str × Option String),
      parseParamsLoop L f p s = some r → parseParamsLoop L (f + 1) p s = some r := by
  intro f
  induction f with
  | zero => intro p s r h; simp [parseParamsLoop] at h
  | succ f ih =>
    intro p s r h
    cases s with
    | nil => rw [parseParamsLoop_nil] at h ⊢; exact h
    | cons c t =>
      by_cases h1 : c = ','
      · subst h1; rw [parseParamsLoop_comma] at h ⊢; exact h
      · by_cases h2 : c = ';'
        · subst h2; rw [parseParamsLoop_semi] at h ⊢; exact ih _ _ _ h
        · rcases parseParam_cases L (c :: t) with ⟨r', e, hp⟩ | ⟨q, r', hp, _⟩
          · rw [parseParamsLoop_error L _ p h1 h2 hp] at h ⊢; exact h
          · rw [parseParamsLoop_param L _ p h1 h2 hp] at h ⊢; exact ih _ _ _ h

theorem parseParamsLoop_mono (L : Char → Bool) {f g : Nat} (hfg : f ≤ g) {p : params} {s : Str}
    {r : params × Str × Option String} (h : parseParamsLoop L f p s = some r) :
    parseParamsLoop L g p s = some r := by
  induction hfg with
  | refl => exact h
  | step _ ih => exact parseParamsLoop_succ L _ _ _ _ ih

/-- With more fuel than the length of the string the parameter loop returns, and
what it leaves is a part of the string. -/
theorem parseParamsLoop_total (L : Char → Bool) :
    ∀ (f : Nat) (p : params) (s : Str), s.length < f →
      ∃ p' r e, parseParamsLoop L f p s = some (p', r, e) ∧ r.length ≤ s.length ∧
        r <:+: s := by
  intro f
  induction f with
  | zero => intro p s h; omega
  | succ f ih =>
    intro p s hlen
    cases s with
    | nil => exact ⟨p, [], none, parseParamsLoop_nil L f p, by simp, List.infix_refl _⟩
    | cons c t =>
      have ht := TrimSpace_length_le t
      have hcons : t <:+: c :: t := (List.suffix_cons c t).isInfix
      simp only [List.length_cons] at hlen
      by_cases h1 : c = ','
      · subst h1
        exact ⟨p, _, none, parseParamsLoop_comma L f p t, by simp; omega,
          (TrimSpace_part t).trans hcons⟩
      · by_cases h2 : c = ';'
        · subst h2
          obtain ⟨p', r, e, hr, hl, hi⟩ := ih p (TrimSpace t) (by omega)
          exact ⟨p', r, e, by rw [parseParamsLoop_semi]; exact hr, by simp; omega,
            hi.trans ((TrimSpace_part t).trans hcons)⟩
        · rcases parseParam_cases L (c :: t) with ⟨r', e, hp⟩ | ⟨q, r', hp, hl', hi'⟩
          · exact ⟨p, _, some e, parseParamsLoop_error L f p h1 h2 hp, by simp,
              List.infix_refl _⟩
          · have hr' := TrimSpace_length_le r'
            simp only [List.length_cons] at hl'
            obtain ⟨p', r, e, hr, hl, hi⟩ := ih (addParam p q) (TrimSpace r') (by omega)
            exact ⟨p', r, e, by rw [parseParamsLoop_param L f p h1 h2 hp]; exact hr,
              by simp; omega, hi.trans ((TrimSpace_part r').trans hi')⟩

/-- A result of the parameter loop, with any fuel, is the result of `parseParams`. -/
theorem parseParams_of_loop (L : Char → Bool) {f : Nat} {s : Str}
    {r : params × Str × Option String}
    (h : parseParamsLoop L f { rels := [], attributes := [] } s = some r) :
    parseParams L s = some r := by
  unfold parseParams
  obtain ⟨p', r', e, hr, _⟩ :=
    parseParamsLoop_total L (s.length + 1) { rels := [], attributes := [] } s (by omega)
  have a := parseParamsLoop_mono L (Nat.le_max_left f (s.length + 1)) h
  have b := parseParamsLoop_mono L (Nat.le_max_right f (s.length + 1)) hr
  rw [hr]
  rw [a] at b
  exact b.symm

theorem parseParams_total (L : Char → Bool) (s : Str) :
    ∃ p r e, parseParams L s = some (p, r, e) ∧ r.length ≤ s.length ∧ r <:+: s :=
  parseParamsLoop_total L (s.length + 1) _ s (by omega)

/-! ## The link entry parser -/

section parseLinkLemmas

variable {U : Type} (urlParse : Str → Except String U) (L : Char → Bool)

theorem parseLink_nil : parseLink urlParse L [] = none := by
  simp [parseLink, byteAt0]

theorem parseLink_bad_start {c : Char} (t : Str) (hc : c ≠ '<') :
    parseLink urlParse L (c :: t) = some (none, c :: t, some "link does not begin with <") := by
  have hb : ¬ (utf8Lead c = 60) := by
    intro e
    exact hc ((utf8Lead_eq_ascii (d := '<') (by decide)).1 e)
  simp [parseLink, byteAt0_cons, hb]

theorem parseLink_no_close {t : Str} (ht : ∀ x ∈ t, x ≠ '>') :
    parseLink urlParse L ('<' :: t) = some (none, t, some "link does not end with >") := by
  have hi : Index t '>' = none := IndexFunc_none (by simpa using ht)
  simp [parseLink, byteAt0_cons, utf8Lead, sliceFrom_one, hi]

theorem parseLink_bad_uri {u : Str} (hu : ∀ x ∈ u, x ≠ '>') (tail : Str) {e : String}
    (hp : urlParse u = .error e) :
    parseLink urlParse L ('<' :: (u ++ '>' :: tail)) =
      some (none, u ++ '>' :: tail, some ("link could not be parsed: " ++ e)) := by
  have hi : Index (u ++ '>' :: tail) '>' = some u.length :=
    IndexFunc_append (by simpa using hu) (by simp) tail
  simp [parseLink, byteAt0_cons, utf8Lead, sliceFrom_one, hi, slice_append, hp]

theorem parseLink_no_params_nil {u : Str} (hu : ∀ x ∈ u, x ≠ '>') {tail : Str} {uri : U}
    (hp : urlParse u = .ok uri) (ht : TrimSpace tail = []) :
    parseLink urlParse L ('<' :: (u ++ '>' :: tail)) =
      some (some { URI := uri, Attributes := [], rels := [] }, [], some "no params found") := by
  have hi : Index (u ++ '>' :: tail) '>' = some u.length :=
    IndexFunc_append (by simpa using hu) (by simp) tail
  simp [parseLink, byteAt0_cons, utf8Lead, sliceFrom_one, hi, slice_append, hp,
    sliceFrom_append_succ, ht]

theorem parseLink_no_params_cons {u : Str} (hu : ∀ x ∈ u, x ≠ '>') {tail t : Str} {uri : U}
    {c : Char} (hp : urlParse u = .ok uri) (ht : TrimSpace tail = c :: t) (hc : c ≠ ';') :
    parseLink urlParse L ('<' :: (u ++ '>' :: tail)) =
      some (some { URI := uri, Attributes := [], rels := [] }, c :: t,
        some "no params found") := by
  have hi : Index (u ++ '>' :: tail) '>' = some u.length :=
    IndexFunc_append (by simpa using hu) (by simp) tail
  simp [parseLink, byteAt0_cons, sliceFrom_one, hi, slice_append, hp,
    sliceFrom_append_succ, ht, lead_ne_semi hc]
  simp [utf8Lead]

theorem parseLink_params_error {u : Str} (hu : ∀ x ∈ u, x ≠ '>') {tail t rest : Str} {uri : U}
    {ps : params} {e : String}
    (hp : urlParse u = .ok uri) (ht : TrimSpace tail = ';' :: t)
    (hps : parseParams L t = some (ps, rest, some e)) :
    parseLink urlParse L ('<' :: (u ++ '>' :: tail)) =
      some (some { URI := uri, Attributes := [], rels := [] }, t,
        some ("params could not be parsed: " ++ e)) := by
  have hi : Index (u ++ '>' :: tail) '>' = some u.length :=
    IndexFunc_append (by simpa using hu) (by simp) tail
  simp [parseLink, byteAt0_cons, utf8Lead, sliceFrom_one, hi, slice_append, hp,
    sliceFrom_append_succ, ht, hps]

theorem parseLink_params_ok {u : Str} (hu : ∀ x ∈ u, x ≠ '>') {tail t rest : Str} {uri : U}
    {ps : params}
    (hp : urlParse u = .ok uri) (ht : TrimSpace tail = ';' :: t)
    (hps : parseParams L t = some (ps, rest, none)) :
    parseLink urlParse L ('<' :: (u ++ '>' :: tail)) =
      some (some (applyAnchor urlParse
        { URI := uri, Attributes := ps.attributes, rels := ps.rels }), rest, none) := by
  have hi : Index (u ++ '>' :: tail) '>' = some u.length :=
    IndexFunc_append (by simpa using hu) (by simp) tail
  simp [parseLink, byteAt0_cons, utf8Lead, sliceFrom_one, hi, slice_append, hp,
    sliceFrom_append_succ, ht, hps]

/-- The outcomes of `parseLink` on a non-empty string: it does not panic, it
returns an error or a link, and with a link and no error what it leaves is
shorter than its input. -/
theorem parseLink_cases (s : Str) (hs : s ≠ []) :
    (∃ x r e, parseLink urlParse L s = some (x, r, some e)) ∨
    (∃ u tail t uri ps rest, s = '<' :: (u ++ '>' :: tail) ∧ (∀ x ∈ u, x ≠ '>') ∧
      urlParse u = .ok uri ∧ TrimSpace tail = ';' :: t ∧
      parseParams L t = some (ps, rest, none) ∧
      parseLink urlParse L s = some (some (applyAnchor urlParse
        { URI := uri, Attributes := ps.attributes, rels := ps.rels }), rest, none) ∧
      rest.length < s.length ∧ rest <:+: s) := by
  cases s with
  | nil => exact absurd rfl hs
  | cons c s =>
    by_cases hc : c = '<'
    · subst hc
      rcases IndexFunc_cases (fun c => c == '>') s with ⟨_, h⟩ | ⟨u, c, tail, rfl, hu, hc, _⟩
      · exact Or.inl ⟨_, _, _, parseLink_no_close urlParse L (by simpa using h)⟩
      · have hu' : ∀ x ∈ u, x ≠ '>' := by simpa using hu
        have hc' : c = '>' := by simpa using hc
        subst hc'
        cases hp : urlParse u with
        | error e => exact Or.inl ⟨_, _, _, parseLink_bad_uri urlParse L hu' tail hp⟩
        | ok uri =>
          cases ht : TrimSpace tail with
          | nil => exact Or.inl ⟨_, _, _, parseLink_no_params_nil urlParse L hu' hp ht⟩
          | cons d t =>
            by_cases hd : d = ';'
            · subst hd
              obtain ⟨ps, rest, e, hps, hl, hi⟩ := parseParams_total L t
              cases e with
              | some e =>
                exact Or.inl ⟨_, _, _, parseLink_params_error urlParse L hu' hp ht hps⟩
              | none =>
                refine Or.inr ⟨u, tail, t, uri, ps, rest, rfl, hu', hp, ht, hps,
                  parseLink_params_ok urlParse L hu' hp ht hps, ?_, ?_⟩
                · have h1 := TrimSpace_length_le tail
                  rw [ht] at h1
                  simp at h1 ⊢
                  omega
                · have h2 : t <:+: TrimSpace tail := by
                    rw [ht]; exact (List.suffix_cons _ t).isInfix
                  have h3 : tail <:+: '<' :: (u ++ '>' :: tail) :=
                    List.IsSuffix.isInfix ⟨'<' :: (u ++ ['>']), by simp⟩
                  exact hi.trans (h2.trans ((TrimSpace_part tail).trans h3))
            · exact Or.inl ⟨_, _, _, parseLink_no_params_cons urlParse L hu' hp ht hd⟩
    · exact Or.inl ⟨_, _, _, parseLink_bad_start urlParse L s hc⟩

/-! ## The top-level loop -/

theorem ParseLoop_nil (f : Nat) (acc : Links U) :
    ParseLoop urlParse L (f + 1) acc [] = some (acc, none) := by
  simp [ParseLoop]

theorem ParseLoop_ok (f : Nat) (acc : Links U) {s rest : Str} {link : Link U} (hs : s ≠ [])
    (h : parseLink urlParse L s = some (some link, rest, none)) :
    ParseLoop urlParse L (f + 1) acc s =
      ParseLoop urlParse L f (insertRels acc link) (TrimSpace rest) := by
  simp [ParseLoop, hs, h]

theorem ParseLoop_error (f : Nat) (acc : Links U) {s r : Str} {x : Option (Link U)}
    {e : String} (hs : s ≠ []) (h : parseLink urlParse L s = some (x, r, some e)) :
    ParseLoop urlParse L (f + 1) acc s = some (acc, some e) := by
  simp [ParseLoop, hs, h]

/-- More fuel does not change a result of the top-level loop. -/
theorem ParseLoop_succ :
    ∀ (f : Nat) (acc : Links U) (s : Str) (r : Links U × Option String),
      ParseLoop urlParse L f acc s = some r → ParseLoop urlParse L (f + 1) acc s = some r := by
  intro f
  induction f with
  | zero => intro acc s r h; simp [ParseLoop] at h
  | succ f ih =>
    intro acc s r h
    by_cases hs : s = []
    · subst hs; rw [ParseLoop_nil] at h ⊢; exact h
    · rcases parseLink_cases urlParse L s hs with ⟨x, r', e, hp⟩ |
        ⟨_, _, _, _, _, rest, _, _, _, _, _, hp, _⟩
      · rw [ParseLoop_error urlParse L _ acc hs hp] at h ⊢; exact h
      · rw [ParseLoop_ok urlParse L _ acc hs hp] at h ⊢; exact ih _ _ _ h

theorem ParseLoop_mono {f g : Nat} (hfg : f ≤ g) {acc : Links U} {s : Str}
    {r : Links U × Option String} (h : ParseLoop urlParse L f acc s = some r) :
    ParseLoop urlParse L g acc s = some r := by
  induction hfg with
  | refl => exact h
  | step _ ih => exact ParseLoop_succ urlParse L _ _ _ _ ih

/-- With more fuel than the length of the string the top-level loop returns. -/
theorem ParseLoop_total :
    ∀ (f : Nat) (acc : Links U) (s : Str), s.length < f →
      ∃ r, ParseLoop urlParse L f acc s = some r := by
  intro f
  induction f with
  | zero => intro acc s h; omega
  | succ f ih =>
    intro acc s hlen
    by_cases hs : s = []
    · subst hs; exact ⟨_, ParseLoop_nil urlParse L f acc⟩
    · rcases parseLink_cases urlParse L s hs with ⟨x, r', e, hp⟩ |
        ⟨_, _, _, _, _, rest, _, _, _, _, _, hp, hl, _⟩
      · exact ⟨_, ParseLoop_error urlParse L f acc hs hp⟩
      · have h1 := TrimSpace_length_le rest
        obtain ⟨r, hr⟩ := ih (insertRels acc _) (TrimSpace rest) (by omega)
        exact ⟨r, by rw [ParseLoop_ok urlParse L f acc hs hp]; exact hr⟩

/-- A result of the top-level loop on the trimmed input, with any fuel, is the
result of `Parse`. -/
theorem Parse_of_loop {f : Nat} {s : Str} {r : Links U × Option String}
    (h : ParseLoop urlParse L f [] (TrimSpace s) = some r) :
    Parse urlParse L s = some r := by
  unfold Parse
  obtain ⟨r', hr⟩ :=
    ParseLoop_total urlParse L ((TrimSpace s).length + 1) [] (TrimSpace s) (by omega)
  have a := ParseLoop_mono urlParse L (Nat.le_max_left f ((TrimSpace s).length + 1)) h
  have b := ParseLoop_mono urlParse L (Nat.le_max_right f ((TrimSpace s).length + 1)) hr
  rw [hr]
  rw [a] at b
  exact b.symm

end parseLinkLemmas

/-! ## One parameter at the head of the parameter loop -/

theorem TrimSpace_eq_self {s : Str} (hh : ∀ c, s.head? = some c → isSpace c = false)
    (he : EndsClean s) : TrimSpace s = s := by
  cases s with
  | nil => exact TrimSpace_nil
  | cons c t => exact TrimSpace_clean (hh c rfl) he

theorem isSpace_ne_comma {c : Char} (h : isSpace c = true) : c ≠ ',' := by
  rintro rfl; revert h; decide

theorem isSpace_ne_semi {c : Char} (h : isSpace c = true) : c ≠ ';' := by
  rintro rfl; revert h; decide

theorem isLetter_ne_comma {L : Char → Bool} {c : Char} (h : isLetter L c = true) : c ≠ ',' := by
  rintro rfl; simp [isLetter] at h

theorem isLetter_ne_semi {L : Char → Bool} {c : Char} (h : isLetter L c = true) : c ≠ ';' := by
  rintro rfl; simp [isLetter] at h

/-- The first character of `ws ++ k ++ "=" ++ rest`, for white space `ws` and
letters `k`, is neither a comma nor a semicolon. -/
theorem head_param (L : Char → Bool) {ws k : Str} (rest : Str)
    (hws : ∀ x ∈ ws, isSpace x = true) (hk : ∀ x ∈ k, isLetter L x = true) :
    ∃ c t, ws ++ (k ++ '=' :: rest) = c :: t ∧ c ≠ ',' ∧ c ≠ ';' := by
  cases ws with
  | cons c ws' =>
    have hc := hws c (by simp)
    exact ⟨c, _, rfl, isSpace_ne_comma hc, isSpace_ne_semi hc⟩
  | nil =>
    cases k with
    | cons c k' =>
      have hc := hk c (by simp)
      exact ⟨c, _, rfl, isLetter_ne_comma hc, isLetter_ne_semi hc⟩
    | nil => exact ⟨'=', rest, rfl, by decide, by decide⟩

theorem TrimSpace_param {ws k : Str} {rest : Str}
    (hws : ∀ x ∈ ws, isSpace x = true) (hks : ∀ x ∈ k, isSpace x = false)
    (he : EndsClean (k ++ '=' :: rest)) :
    TrimSpace (ws ++ (k ++ '=' :: rest)) = k ++ '=' :: rest := by
  rw [TrimSpace_spaces_append hws]
  apply TrimSpace_eq_self _ he
  intro c hc
  cases k with
  | nil =>
    simp at hc
    subst hc
    decide
  | cons d k' =>
    simp at hc
    subst hc
    exact hks _ (by simp)

/-- One iteration of the parameter loop on a parameter with a quoted value. -/
theorem parseParamsLoop_quoted (L : Char → Bool) (f : Nat) (p : params) {ws k v tail : Str}
    (hws : ∀ x ∈ ws, isSpace x = true) (hk : ∀ x ∈ k, isLetter L x = true)
    (hks : ∀ x ∈ k, isSpace x = false) (hv : ∀ x ∈ v, x ≠ '"') (ht : EndsClean tail) :
    parseParamsLoop L (f + 1) p (ws ++ (k ++ '=' :: '"' :: (v ++ '"' :: tail))) =
      parseParamsLoop L f (addParam p { key := k, value := v }) (TrimSpace tail) := by
  obtain ⟨c, t, hct, h1, h2⟩ := head_param L ('"' :: (v ++ '"' :: tail)) hws hk
  have he : EndsClean (k ++ '=' :: '"' :: (v ++ '"' :: tail)) := by
    have : k ++ '=' :: '"' :: (v ++ '"' :: tail) = (k ++ '=' :: '"' :: v) ++ '"' :: tail := by
      simp
    rw [this]
    exact endsClean_append _ (by simp) (endsClean_cons_of_clean (by decide) ht)
  have hp := parseParam_ok L (TrimSpace_param hws hks he) hk (parseParamValue_quoted hv tail)
  rw [hct] at hp ⊢
  exact parseParamsLoop_param L f p h1 h2 hp

/-- One iteration of the parameter loop on a parameter with an unquoted value
that is followed by a delimiter: the delimiter is consumed with the value. -/
theorem parseParamsLoop_unquoted (L : Char → Bool) (f : Nat) (p : params) {ws k a tail : Str}
    {d : Char}
    (hws : ∀ x ∈ ws, isSpace x = true) (hk : ∀ x ∈ k, isLetter L x = true)
    (hks : ∀ x ∈ k, isSpace x = false) (hq : (a ++ d :: tail).head? ≠ some '"')
    (ha : ∀ x ∈ a, isDelim x = false) (hd : isDelim d = true)
    (ht : EndsClean (d :: tail)) :
    parseParamsLoop L (f + 1) p (ws ++ (k ++ '=' :: (a ++ d :: tail))) =
      parseParamsLoop L f (addParam p { key := k, value := a }) (TrimSpace tail) := by
  obtain ⟨c, t, hct, h1, h2⟩ := head_param L (a ++ d :: tail) hws hk
  have he : EndsClean (k ++ '=' :: (a ++ d :: tail)) := by
    have : k ++ '=' :: (a ++ d :: tail) = (k ++ '=' :: a) ++ d :: tail := by simp
    rw [this]
    exact endsClean_append _ (by simp) ht
  have hp := parseParam_ok L (TrimSpace_param hws hks he) hk
    (parseParamValue_unquoted_delim tail hq ha hd)
  rw [hct] at hp ⊢
  exact parseParamsLoop_param L f p h1 h2 hp

theorem Split_no_space {r : Str} (h : ∀ x ∈ r, x ≠ ' ') : Split r = [r] := by
  induction r with
  | nil => rfl
  | cons c cs ih =>
    have hc : c ≠ ' ' := h c (by simp)
    simp [Split, hc, ih (fun x hx => h x (by simp [hx]))]

theorem Split_append_space {r : Str} (h : ∀ x ∈ r, x ≠ ' ') (rest : Str) :
    Split (r ++ ' ' :: rest) = r :: Split rest := by
  induction r with
  | nil => simp [Split]
  | cons c cs ih =>
    have hc : c ≠ ' ' := h c (by simp)
    simp [Split, hc, ih (fun x hx => h x (by simp [hx]))]

/-! ## Maps -/

theorem mapGet_mapSet_same {V : Type} (m : List (Str × V)) (k : Str) (v : V) :
    mapGet (mapSet m k v) k = some v := by
  simp [mapSet, mapGet]

theorem mapGet_filter_ne {V : Type} (m : List (Str × V)) {k k' : Str} (h : k' ≠ k) :
    mapGet (m.filter (fun kv => !decide (kv.1 = k))) k' = mapGet m k' := by
  induction m with
  | nil => rfl
  | cons kv m ih =>
    obtain ⟨a, b⟩ := kv
    by_cases ha : a = k
    · subst ha
      have : ¬ (a = k') := fun e => h e.symm
      simpa [mapGet, this] using ih
    · by_cases hb : a = k'
      · subst hb
        simp [mapGet, ha]
      · simpa [mapGet, ha, hb] using ih

theorem mapGet_mapSet_ne {V : Type} (m : List (Str × V)) {k k' : Str} (v : V) (h : k' ≠ k) :
    mapGet (mapSet m k v) k' = mapGet m k' := by
  have hk : ¬ (k = k') := fun e => h e.symm
  simp [mapSet, mapGet, hk, mapGet_filter_ne m h]

theorem mapSet_fresh {V : Type} {m : List (Str × V)} {k : Str} (h : k ∉ mapKeys m) (v : V) :
    mapSet m k v = (k, v) :: m := by
  unfold mapSet
  congr 1
  rw [List.filter_eq_self]
  intro kv hkv
  have : kv.1 ≠ k := by
    rintro rfl
    exact h (List.mem_map_of_mem Prod.fst hkv)
  simpa using this

theorem mem_mapKeys_mapSet {V : Type} (m : List (Str × V)) (k x : Str) (v : V) :
    x ∈ mapKeys (mapSet m k v) ↔ x = k ∨ x ∈ mapKeys m := by
  simp only [mapKeys, mapSet, List.map_cons, List.mem_cons, List.mem_map, List.mem_filter]
  constructor
  · rintro (h | ⟨kv, ⟨hkv, _⟩, rfl⟩)
    · exact Or.inl h
    · exact Or.inr ⟨kv, hkv, rfl⟩
  · rintro (h | ⟨kv, hkv, rfl⟩)
    · exact Or.inl h
    · by_cases hk : kv.1 = k
      · exact Or.inl hk
      · exact Or.inr ⟨kv, ⟨hkv, by simpa using hk⟩, rfl⟩

theorem mapGet_eq_none {V : Type} {m : List (Str × V)} {k : Str} (h : k ∉ mapKeys m) :
    mapGet m k = none := by
  induction m with
  | nil => rfl
  | cons kv m ih =>
    obtain ⟨a, b⟩ := kv
    simp only [mapKeys, List.map_cons, List.mem_cons, not_or] at h
    have ha : ¬ (a = k) := fun e => h.1 e.symm
    simp only [mapGet, ha, if_false]
    exact ih h.2

theorem mapGet_of_mem {V : Type} {m : List (Str × V)} (hn : (mapKeys m).Nodup) {k : Str} {v : V}
    (h : (k, v) ∈ m) : mapGet m k = some v := by
  induction m with
  | nil => simp at h
  | cons kv m ih =>
    obtain ⟨a, b⟩ := kv
    simp only [mapKeys, List.map_cons, List.nodup_cons] at hn
    rcases List.mem_cons.1 h with e | h'
    · cases e
      simp [mapGet]
    · have ha : ¬ (a = k) := by
        rintro rfl
        exact hn.1 (List.mem_map_of_mem Prod.fst h')
      simp only [mapGet, ha, if_false]
      exact ih hn.2 h'

/-! ## Headers of entries `<u>; rel="r"` -/

/-- The end of the parameter list: at the end of the string, or at the comma that
starts the next entry. -/
theorem parseParamsLoop_tail (L : Char → Bool) (f : Nat) (p : params) {tail : Str}
    (ht : EndsClean tail) (hc : tail = [] ∨ ∃ t, tail = ',' :: t) :
    parseParamsLoop L (f + 1) p (TrimSpace tail) = some (p, TrimSpace (tail.drop 1), none) := by
  rcases hc with rfl | ⟨t, rfl⟩
  · simp [TrimSpace_nil, parseParamsLoop_nil]
  · rw [TrimSpace_clean (by decide) ht, parseParamsLoop_comma]
    simp

section relHeaders

variable {U : Type} (urlParse : Str → Except String U) (L : Char → Bool)

theorem applyAnchor_nil (uri : U) (rels : List Str) :
    applyAnchor urlParse { URI := uri, Attributes := [], rels := rels } =
      { URI := uri, Attributes := [], rels := rels } := by
  simp [applyAnchor, mapGet]

theorem parseLink_relEntry {u r tail : Str} {uri : U} (hu : ∀ x ∈ u, x ≠ '>')
    (hp : urlParse u = .ok uri) (hr : ∀ x ∈ r, x ≠ ' ' ∧ x ≠ '"')
    (ht : EndsClean tail) (hc : tail = [] ∨ ∃ t, tail = ',' :: t) :
    parseLink urlParse L (relEntry u r ++ tail) =
      some (some { URI := uri, Attributes := [], rels := [r] }, TrimSpace (tail.drop 1),
        none) := by
  have hshape : relEntry u r ++ tail =
      '<' :: (u ++ '>' :: (';' :: ([' '] ++ (['r', 'e', 'l'] ++ '=' :: '"' :: (r ++ '"' :: tail))))) := by
    simp [relEntry]
  have hq : EndsClean ('"' :: tail) := endsClean_cons_of_clean (by decide) ht
  have htrim : TrimSpace (';' :: ([' '] ++ (['r', 'e', 'l'] ++ '=' :: '"' :: (r ++ '"' :: tail)))) =
      ';' :: ([' '] ++ (['r', 'e', 'l'] ++ '=' :: '"' :: (r ++ '"' :: tail))) := by
    apply TrimSpace_clean (by decide)
    have : ';' :: ([' '] ++ (['r', 'e', 'l'] ++ '=' :: '"' :: (r ++ '"' :: tail))) =
        (';' :: ' ' :: 'r' :: 'e' :: 'l' :: '=' :: '"' :: r) ++ '"' :: tail := by simp
    rw [this]
    exact endsClean_append _ (by simp) hq
  have hloop : parseParamsLoop L 2 { rels := [], attributes := [] }
      ([' '] ++ (['r', 'e', 'l'] ++ '=' :: '"' :: (r ++ '"' :: tail))) =
      some ({ rels := [r], attributes := [] }, TrimSpace (tail.drop 1), none) := by
    rw [parseParamsLoop_quoted L 1 _ (by decide) (by simp [isLetter]) (by decide)
      (fun x hx => (hr x hx).2) ht]
    rw [parseParamsLoop_tail L 0 _ ht hc]
    simp [addParam, Split_no_space (fun x hx => (hr x hx).1)]
  rw [hshape, parseLink_params_ok urlParse L hu hp htrim (parseParams_of_loop L hloop)]
  simp [applyAnchor_nil]

/-- What follows the first entry of a header: nothing, or `", "` and the
other entries. -/
theorem relHeader_cons (e : RelEntry U) (es : List (RelEntry U)) :
    ∃ tail, relHeader (e :: es) = relEntry e.u e.r ++ tail ∧
      (tail = [] ∨ ∃ t, tail = ',' :: t) ∧
      (es = [] → tail = []) ∧ (es ≠ [] → tail = ',' :: ' ' :: relHeader es) := by
  cases es with
  | nil => exact ⟨[], by simp [relHeader, List.intercalate], Or.inl rfl, by simp, by simp⟩
  | cons e' es' =>
    refine ⟨',' :: ' ' :: relHeader (e' :: es'), ?_, Or.inr ⟨_, rfl⟩, by simp, by simp⟩
    simp [relHeader, List.intercalate]

theorem relEntry_endsClean (u r : Str) : EndsClean (relEntry u r) := by
  have : relEntry u r = ('<' :: (u ++ ['>', ';', ' ', 'r', 'e', 'l', '=', '"'] ++ r)) ++ ['"'] := by
    simp [relEntry]
  rw [this]
  exact endsClean_append _ (by simp) (endsClean_singleton (by decide))

theorem relHeader_endsClean : ∀ es : List (RelEntry U), EndsClean (relHeader es) := by
  intro es
  induction es with
  | nil => exact endsClean_nil
  | cons e es ih =>
    obtain ⟨tail, h, _, h0, h1⟩ := relHeader_cons e es
    rw [h]
    by_cases hes : es = []
    · rw [h0 hes, List.append_nil]
      exact relEntry_endsClean _ _
    · have hne : relHeader es ≠ [] := by
        obtain ⟨e', es', rfl⟩ := List.exists_cons_of_ne_nil hes
        obtain ⟨tail', h', _⟩ := relHeader_cons e' es'
        rw [h']
        simp [relEntry]
      rw [h1 hes]
      exact endsClean_append _ (by simp)
        (endsClean_cons _ (by simp) (endsClean_cons _ hne ih))

theorem TrimSpace_relHeader (es : List (RelEntry U)) :
    TrimSpace (relHeader es) = relHeader es := by
  apply TrimSpace_eq_self _ (relHeader_endsClean es)
  intro c hc
  cases es with
  | nil => simp [relHeader, List.intercalate] at hc
  | cons e es =>
    obtain ⟨tail, h, _⟩ := relHeader_cons e es
    rw [h] at hc
    simp [relEntry] at hc
    subst hc
    decide

/-- The top-level loop on a header of entries `<u_i>; rel="r_i"` whose relations
are distinct and not yet in the collection: every entry adds its key. -/
theorem ParseLoop_relHeader :
    ∀ (es : List (RelEntry U)) (acc : Links U),
      (∀ e ∈ es, (∀ x ∈ e.u, x ≠ '>') ∧ urlParse e.u = .ok e.uri ∧
        ∀ x ∈ e.r, x ≠ ' ' ∧ x ≠ '"') →
      (∀ e ∈ es, e.r ∉ mapKeys acc) → (es.map (fun e => e.r)).Nodup →
      ParseLoop urlParse L (es.length + 1) acc (relHeader es) =
        some ((es.reverse.map (fun e => (e.r, relLink e))) ++ acc, none) := by
  intro es
  induction es with
  | nil =>
    intro acc _ _ _
    simp [relHeader, List.intercalate, ParseLoop_nil]
  | cons e es ih =>
    intro acc hes hfresh hnd
    obtain ⟨tail, h, hc, h0, h1⟩ := relHeader_cons e es
    obtain ⟨hu, hp, hr⟩ := hes e (by simp)
    have hclean : EndsClean tail := by
      by_cases hne : es = []
      · rw [h0 hne]; exact endsClean_nil
      · have := relHeader_endsClean (e :: es)
        rw [h] at this
        apply endsClean_of_append _ this
        rw [h1 hne]; simp
    have hnext : TrimSpace (TrimSpace (tail.drop 1)) = relHeader es := by
      by_cases hne : es = []
      · rw [h0 hne, hne]
        simp [TrimSpace_nil, relHeader, List.intercalate]
      · rw [h1 hne]
        have : List.drop 1 (',' :: ' ' :: relHeader es) = [' '] ++ relHeader es := by simp
        rw [this, TrimSpace_spaces_append (by decide), TrimSpace_relHeader, TrimSpace_relHeader]
    have hlink := parseLink_relEntry urlParse L hu hp hr hclean hc
    have hne : relHeader (e :: es) ≠ [] := by rw [h]; simp [relEntry]
    rw [h] at hne ⊢
    rw [List.length_cons, ParseLoop_ok urlParse L _ acc hne hlink, hnext]
    have hins : insertRels acc { URI := e.uri, Attributes := [], rels := [e.r] } =
        (e.r, relLink e) :: acc := by
      simp only [insertRels, List.foldl_cons, List.foldl_nil]
      exact mapSet_fresh (hfresh e (by simp)) _
    rw [hins]
    simp only [List.map_cons, List.nodup_cons] at hnd
    rw [ih ((e.r, relLink e) :: acc) (fun e' he' => hes e' (by simp [he']))
      (fun e' he' => by
        simp only [mapKeys, List.map_cons, List.mem_cons, not_or]
        refine ⟨?_, hfresh e' (by simp [he'])⟩
        intro heq
        exact hnd.1 (heq ▸ List.mem_map_of_mem (fun e => e.r) he'))
      hnd.2]
    simp

end relHeaders

/-! ## Insertion of an entry under its relations -/

section insertion

variable {U : Type}

theorem foldl_mapSet_keys (link : Link U) :
    ∀ (rs : List Str) (acc : Links U) (x : Str),
      x ∈ mapKeys (rs.foldl (fun m r => mapSet m r link) acc) ↔ x ∈ rs ∨ x ∈ mapKeys acc := by
  intro rs
  induction rs with
  | nil => intro acc x; simp
  | cons r rs ih =>
    intro acc x
    rw [List.foldl_cons, ih, mem_mapKeys_mapSet]
    simp only [List.mem_cons]
    tauto

theorem foldl_mapSet_get_mem (link : Link U) :
    ∀ (rs : List Str) (acc : Links U) (k : Str),
      (k ∈ rs ∨ mapGet acc k = some link) →
      mapGet (rs.foldl (fun m r => mapSet m r link) acc) k = some link := by
  intro rs
  induction rs with
  | nil => intro acc k h; simpa using h
  | cons r rs ih =>
    intro acc k h
    rw [List.foldl_cons]
    apply ih
    by_cases hk : k = r
    · subst hk
      exact Or.inr (mapGet_mapSet_same _ _ _)
    · rcases h with h | h
      · rcases List.mem_cons.1 h with e | h'
        · exact absurd e hk
        · exact Or.inl h'
      · right
        rw [mapGet_mapSet_ne _ _ hk]
        exact h

theorem foldl_mapSet_get_not_mem (link : Link U) :
    ∀ (rs : List Str) (acc : Links U) (k : Str), k ∉ rs →
      mapGet (rs.foldl (fun m r => mapSet m r link) acc) k = mapGet acc k := by
  intro rs
  induction rs with
  | nil => intro acc k _; rfl
  | cons r rs ih =>
    intro acc k h
    simp only [List.mem_cons, not_or] at h
    rw [List.foldl_cons, ih _ _ h.2, mapGet_mapSet_ne _ _ h.1]

theorem mem_mapKeys_insertRels (acc : Links U) (link : Link U) (x : Str) :
    x ∈ mapKeys (insertRels acc link) ↔ x ∈ link.rels ∨ x ∈ mapKeys acc :=
  foldl_mapSet_keys link link.rels acc x

theorem mapGet_insertRels_mem (acc : Links U) (link : Link U) {k : Str} (h : k ∈ link.rels) :
    mapGet (insertRels acc link) k = some link :=
  foldl_mapSet_get_mem link link.rels acc k (Or.inl h)

theorem mapGet_insertRels_not_mem (acc : Links U) (link : Link U) {k : Str}
    (h : k ∉ link.rels) : mapGet (insertRels acc link) k = mapGet acc k :=
  foldl_mapSet_get_not_mem link link.rels acc k h

end insertion

/-! ## Headers of one entry -/

section single

variable {U : Type} (urlParse : Str → Except String U) (L : Char → Bool)

/-- A header that is one entry: when `parseLink` accepts it and leaves only white
space, `Parse` returns the entry under each of its relations. -/
theorem Parse_single {s rest : Str} {link : Link U} (hs : TrimSpace s = s) (hne : s ≠ [])
    (h : parseLink urlParse L s = some (some link, rest, none))
    (hrest : TrimSpace rest = []) :
    Parse urlParse L s = some (insertRels [] link, none) := by
  have hloop : ParseLoop urlParse L 2 [] (TrimSpace s) = some (insertRels [] link, none) := by
    rw [hs, ParseLoop_ok urlParse L 1 [] hne h, hrest, ParseLoop_nil]
  exact Parse_of_loop urlParse L hloop

/-- A header whose first entry is rejected by `parseLink`: `Parse` returns the
error and the empty collection. -/
theorem Parse_first_error {s r : Str} {x : Option (Link U)} {e : String}
    (hne : TrimSpace s ≠ [])
    (h : parseLink urlParse L (TrimSpace s) = some (x, r, some e)) :
    Parse urlParse L s = some ([], some e) := by
  have hloop : ParseLoop urlParse L 1 [] (TrimSpace s) = some ([], some e) :=
    ParseLoop_error urlParse L 0 [] hne h
  exact Parse_of_loop urlParse L hloop

theorem Split_joinRels (r : Str) (rs : List Str) (h : ∀ q ∈ r :: rs, ∀ x ∈ q, x ≠ ' ') :
    Split (joinRels (r :: rs)) = r :: rs := by
  induction rs generalizing r with
  | nil =>
    simpa [joinRels, List.intercalate] using Split_no_space (h r (by simp))
  | cons q qs ih =>
    have e : joinRels (r :: q :: qs) = r ++ ' ' :: joinRels (q :: qs) := by
      simp [joinRels, List.intercalate]
    rw [e, Split_append_space (h r (by simp)), ih q (fun a ha => h a (by simp [ha]))]

theorem joinRels_no_quote (rs : List Str) (h : ∀ q ∈ rs, ∀ x ∈ q, x ≠ '"') :
    ∀ x ∈ joinRels rs, x ≠ '"' := by
  induction rs with
  | nil => intro x hx; simp [joinRels, List.intercalate] at hx
  | cons r rs ih =>
    cases rs with
    | nil =>
      intro x hx
      have hx' : x ∈ r := by simpa [joinRels, List.intercalate] using hx
      exact h r (by simp) x hx'
    | cons q qs =>
      intro x hx
      have e : joinRels (r :: q :: qs) = r ++ ' ' :: joinRels (q :: qs) := by
        simp [joinRels, List.intercalate]
      rw [e] at hx
      rcases List.mem_append.1 hx with hx | hx
      · exact h r (by simp) x hx
      · rcases List.mem_cons.1 hx with rfl | hx
        · decide
        · exact ih (fun a ha => h a (by simp [ha])) x hx

/-- The entry parser on `<u>; rel="v"` at the end of the string, for any quoted
value `v`: the relations are the segments of `v`. -/
theorem parseLink_relEntry_split {u v : Str} {uri : U} (hu : ∀ x ∈ u, x ≠ '>')
    (hp : urlParse u = .ok uri) (hv : ∀ x ∈ v, x ≠ '"') :
    parseLink urlParse L (relEntry u v) =
      some (some { URI := uri, Attributes := [], rels := Split v }, [], none) := by
  have hshape : relEntry u v =
      '<' :: (u ++ '>' :: (';' :: ([' '] ++ (['r', 'e', 'l'] ++ '=' :: '"' :: (v ++ '"' :: []))))) := by
    simp [relEntry]
  have htrim : TrimSpace (';' :: ([' '] ++ (['r', 'e', 'l'] ++ '=' :: '"' :: (v ++ '"' :: [])))) =
      ';' :: ([' '] ++ (['r', 'e', 'l'] ++ '=' :: '"' :: (v ++ '"' :: []))) := by
    apply TrimSpace_clean (by decide)
    have : ';' :: ([' '] ++ (['r', 'e', 'l'] ++ '=' :: '"' :: (v ++ '"' :: []))) =
        (';' :: ' ' :: 'r' :: 'e' :: 'l' :: '=' :: '"' :: v) ++ ['"'] := by simp
    rw [this]
    exact endsClean_append _ (by simp) (endsClean_singleton (by decide))
  have hloop : parseParamsLoop L 2 { rels := [], attributes := [] }
      ([' '] ++ (['r', 'e', 'l'] ++ '=' :: '"' :: (v ++ '"' :: []))) =
      some ({ rels := Split v, attributes := [] }, [], none) := by
    rw [parseParamsLoop_quoted L 1 _ (by decide) (by simp [isLetter]) (by decide) hv
      endsClean_nil]
    simp [TrimSpace_nil, parseParamsLoop_nil, addParam]
  rw [hshape, parseLink_params_ok urlParse L hu hp htrim (parseParams_of_loop L hloop)]
  simp [applyAnchor_nil]

theorem TrimSpace_relEntry (u r : Str) : TrimSpace (relEntry u r) = relEntry u r :=
  TrimSpace_clean (by decide) (relEntry_endsClean u r)

/-- One iteration of the parameter loop on a trimmed string that then starts
with a parameter with a quoted value. -/
theorem parseParamsLoop_trim_quoted (f : Nat) (p : params) {ws k v tail : Str}
    (hws : ∀ x ∈ ws, isSpace x = true) (hk : ∀ x ∈ k, isLetter L x = true)
    (hks : ∀ x ∈ k, isSpace x = false) (hv : ∀ x ∈ v, x ≠ '"') (ht : EndsClean tail) :
    parseParamsLoop L (f + 1) p (TrimSpace (ws ++ (k ++ '=' :: '"' :: (v ++ '"' :: tail)))) =
      parseParamsLoop L f (addParam p { key := k, value := v }) (TrimSpace tail) := by
  have he : EndsClean (k ++ '=' :: '"' :: (v ++ '"' :: tail)) := by
    have : k ++ '=' :: '"' :: (v ++ '"' :: tail) = (k ++ '=' :: '"' :: v) ++ '"' :: tail := by
      simp
    rw [this]
    exact endsClean_append _ (by simp) (endsClean_cons_of_clean (by decide) ht)
  rw [TrimSpace_param hws hks he]
  have := @parseParamsLoop_quoted L f p [] k v tail (by simp) hk hks hv ht
  simpa using this

/-- The entry parser on `<u>; rel="p"; title="v"`. -/
theorem parseLink_titleEntry {u p v : Str} {uri : U} (hu : ∀ x ∈ u, x ≠ '>')
    (hp : urlParse u = .ok uri) (hr : ∀ x ∈ p, x ≠ ' ' ∧ x ≠ '"') (hv : ∀ x ∈ v, x ≠ '"') :
    parseLink urlParse L (titleEntry u p v) =
      some (some { URI := uri, Attributes := [(['t', 'i', 't', 'l', 'e'], v)], rels := [p] },
        [], none) := by
  have hshape : titleEntry u p v =
      '<' :: (u ++ '>' :: (';' :: ([' '] ++ (['r', 'e', 'l'] ++ '=' :: '"' :: (p ++ '"' ::
        (';' :: ([' '] ++ (['t', 'i', 't', 'l', 'e'] ++ '=' :: '"' :: (v ++ '"' :: []))))))))) := by
    simp [titleEntry]
  have ht1 : EndsClean
      (';' :: ([' '] ++ (['t', 'i', 't', 'l', 'e'] ++ '=' :: '"' :: (v ++ '"' :: [])))) := by
    have : ';' :: ([' '] ++ (['t', 'i', 't', 'l', 'e'] ++ '=' :: '"' :: (v ++ '"' :: []))) =
        (';' :: ' ' :: 't' :: 'i' :: 't' :: 'l' :: 'e' :: '=' :: '"' :: v) ++ ['"'] := by simp
    rw [this]
    exact endsClean_append _ (by simp) (endsClean_singleton (by decide))
  have htrim : TrimSpace (';' :: ([' '] ++ (['r', 'e', 'l'] ++ '=' :: '"' :: (p ++ '"' ::
      (';' :: ([' '] ++ (['t', 'i', 't', 'l', 'e'] ++ '=' :: '"' :: (v ++ '"' :: []))))))))  =
      ';' :: ([' '] ++ (['r', 'e', 'l'] ++ '=' :: '"' :: (p ++ '"' ::
      (';' :: ([' '] ++ (['t', 'i', 't', 'l', 'e'] ++ '=' :: '"' :: (v ++ '"' :: []))))))) := by
    apply TrimSpace_clean (by decide)
    have : ';' :: ([' '] ++ (['r', 'e', 'l'] ++ '=' :: '"' :: (p ++ '"' ::
        (';' :: ([' '] ++ (['t', 'i', 't', 'l', 'e'] ++ '=' :: '"' :: (v ++ '"' :: []))))))) =
        (';' :: ' ' :: 'r' :: 'e' :: 'l' :: '=' :: '"' :: p ++ ['"']) ++
        (';' :: ([' '] ++ (['t', 'i', 't', 'l', 'e'] ++ '=' :: '"' :: (v ++ '"' :: [])))) := by
      simp
    rw [this]
    exact endsClean_append _ (by simp) ht1
  have hloop : parseParamsLoop L 4 { rels := [], attributes := [] }
      ([' '] ++ (['r', 'e', 'l'] ++ '=' :: '"' :: (p ++ '"' ::
        (';' :: ([' '] ++ (['t', 'i', 't', 'l', 'e'] ++ '=' :: '"' :: (v ++ '"' :: []))))))) =
      some ({ rels := [p], attributes := [(['t', 'i', 't', 'l', 'e'], v)] }, [], none) := by
    rw [parseParamsLoop_quoted L 3 _ (by decide) (by simp [isLetter]) (by decide)
      (fun x hx => (hr x hx).2) ht1]
    rw [TrimSpace_clean (by decide) ht1, parseParamsLoop_semi]
    rw [parseParamsLoop_trim_quoted L 1 _ (by decide) (by simp [isLetter]) (by decide) hv
      endsClean_nil]
    simp [TrimSpace_nil, parseParamsLoop_nil, addParam, mapSet,
      Split_no_space (fun x hx => (hr x hx).1)]
  rw [hshape, parseLink_params_ok urlParse L hu hp htrim (parseParams_of_loop L hloop)]
  simp [applyAnchor, mapGet]

theorem titleEntry_endsClean (u p v : Str) : EndsClean (titleEntry u p v) := by
  have : titleEntry u p v = ('<' :: (u ++ ['>', ';', ' ', 'r', 'e', 'l', '=', '"'] ++ (p ++
      ['"', ';', ' ', 't', 'i', 't', 'l', 'e', '=', '"'] ++ v))) ++ ['"'] := by
    simp [titleEntry]
  rw [this]
  exact endsClean_append _ (by simp) (endsClean_singleton (by decide))

end single

/-! ## An invariant of the top-level loop -/

section invariant

variable {U : Type} (urlParse : Str → Except String U) (L : Char → Bool)

theorem mapGet_insertRels_cases (acc : Links U) (link : Link U) {k : Str} {v : Link U}
    (h : mapGet (insertRels acc link) k = some v) :
    (k ∈ link.rels ∧ v = link) ∨ (k ∉ link.rels ∧ mapGet acc k = some v) := by
  by_cases hk : k ∈ link.rels
  · rw [mapGet_insertRels_mem acc link hk] at h
    exact Or.inl ⟨hk, (Option.some.inj h).symm⟩
  · rw [mapGet_insertRels_not_mem acc link hk] at h
    exact Or.inr ⟨hk, h⟩

/-- A property `P` of the bindings that every accepted entry establishes for its
relations, while the loop stays on strings satisfying `S`, holds of every binding
of the collection the loop returns. -/
theorem ParseLoop_inv (S : Str → Prop) (P : Str → Link U → Prop)
    (hstep : ∀ s link rest, S s → s ≠ [] →
      parseLink urlParse L s = some (some link, rest, none) →
      S (TrimSpace rest) ∧ ∀ k ∈ link.rels, P k link) :
    ∀ (f : Nat) (acc : Links U) (s : Str) (r : Links U × Option String), S s →
      (∀ k v, mapGet acc k = some v → P k v) →
      ParseLoop urlParse L f acc s = some r → ∀ k v, mapGet r.1 k = some v → P k v := by
  intro f
  induction f with
  | zero => intro acc s r _ _ h; simp [ParseLoop] at h
  | succ f ih =>
    intro acc s r hS hacc h
    by_cases hs : s = []
    · subst hs
      rw [ParseLoop_nil] at h
      cases h
      exact hacc
    · rcases parseLink_cases urlParse L s hs with ⟨x, r', e, hp⟩ |
        ⟨_, _, _, _, _, rest, _, _, _, _, _, hp, _⟩
      · rw [ParseLoop_error urlParse L _ acc hs hp] at h
        cases h
        exact hacc
      · rw [ParseLoop_ok urlParse L _ acc hs hp] at h
        obtain ⟨hS', hP⟩ := hstep s _ rest hS hs hp
        refine ih _ _ r hS' ?_ h
        intro k v hkv
        rcases mapGet_insertRels_cases acc _ hkv with ⟨hk, rfl⟩ | ⟨_, hk⟩
        · exact hP k hk
        · exact hacc k v hk

/-- Every entry of the collection that `Parse` returns was returned, without an
error, by `parseLink` on a part of the header, and is stored under one of its
relations. -/
theorem Parse_entries {s : Str} {links : Links U} {err : Option String}
    (h : Parse urlParse L s = some (links, err)) {k : Str} {link : Link U}
    (hk : mapGet links k = some link) :
    k ∈ link.rels ∧
      ∃ e rest, e ≠ [] ∧ e <:+: s ∧ parseLink urlParse L e = some (some link, rest, none) := by
  refine ParseLoop_inv urlParse L (fun t => t <:+: s)
    (fun k link => k ∈ link.rels ∧
      ∃ e rest, e ≠ [] ∧ e <:+: s ∧ parseLink urlParse L e = some (some link, rest, none))
    ?_ _ [] (TrimSpace s) (links, err) (TrimSpace_part s) ?_ h k link hk
  · intro t link rest ht hne hp
    rcases parseLink_cases urlParse L t hne with ⟨x, r', e, hp'⟩ |
      ⟨_, _, _, _, _, rest', _, _, _, _, _, hp', _, hi⟩
    · rw [hp] at hp'
      simp at hp'
    · rw [hp] at hp'
      have hr : rest = rest' := by
        have := Option.some.inj hp'
        exact (Prod.mk.inj (Prod.mk.inj this).2).1
      subst hr
      exact ⟨(TrimSpace_part rest).trans (hi.trans ht),
        fun k hk => ⟨hk, t, rest, hne, ht, hp⟩⟩
  · intro k v hkv
    simp [mapGet] at hkv

theorem applyAnchor_Attributes (result : Link U) :
    (applyAnchor urlParse result).Attributes = result.Attributes := by
  unfold applyAnchor
  split
  · split <;> rfl
  · rfl

theorem applyAnchor_rels (result : Link U) :
    (applyAnchor urlParse result).rels = result.rels := by
  unfold applyAnchor
  split
  · split <;> rfl
  · rfl

end invariant

/-! ## Trailing white space, and letters -/

theorem rdropWhile_append_of_ne_nil (p : Char → Bool) (a : Str) :
    ∀ b : Str, b.rdropWhile p ≠ [] → (a ++ b).rdropWhile p = a ++ b.rdropWhile p := by
  intro b
  induction b using List.reverseRecOn with
  | nil => intro h; simp at h
  | append_singleton b x ih =>
    intro h
    by_cases hx : p x = true
    · rw [List.rdropWhile_concat_pos _ _ _ hx] at h ⊢
      rw [← List.append_assoc, List.rdropWhile_concat_pos _ _ _ hx]
      exact ih h
    · rw [List.rdropWhile_concat_neg _ _ _ hx]
      rw [← List.append_assoc, List.rdropWhile_concat_neg _ _ _ hx]

theorem rdropWhile_append_spaces (p : Char → Bool) (a : Str) :
    ∀ ws : Str, (∀ x ∈ ws, p x = true) → (a ++ ws).rdropWhile p = a.rdropWhile p := by
  intro ws
  induction ws using List.reverseRecOn with
  | nil => intro _; simp
  | append_singleton ws x ih =>
    intro h
    rw [← List.append_assoc, List.rdropWhile_concat_pos _ _ _ (h x (by simp))]
    exact ih (fun y hy => h y (by simp [hy]))

/-- Trimming on the right keeps a character that is not white space, or that is
followed by one that is not. -/
theorem rdropWhile_keep {c : Char} {rest : Str}
    (h : isSpace c = false ∨ ∃ x ∈ rest, isSpace x = false) :
    ∃ r, (c :: rest).rdropWhile isSpace = c :: r ∧ EndsClean (c :: r) := by
  have hne : (c :: rest).rdropWhile isSpace ≠ [] := by
    rw [Ne, List.rdropWhile_eq_nil_iff]
    intro hall
    rcases h with h | ⟨x, hx, h⟩
    · have := hall c (by simp)
      simp [h] at this
    · have := hall x (by simp [hx])
      simp [h] at this
  have hpre : (c :: rest).rdropWhile isSpace <+: c :: rest := List.rdropWhile_prefix _ _
  cases hr : (c :: rest).rdropWhile isSpace with
  | nil => exact absurd hr hne
  | cons d r =>
    rw [hr] at hpre
    obtain ⟨t, ht⟩ := hpre
    have hd : d = c := by
      simp at ht
      exact ht.1
    subst hd
    refine ⟨r, rfl, ?_⟩
    intro hl
    have hidem := List.rdropWhile_idempotent isSpace (d :: rest)
    rw [hr, List.rdropWhile_eq_self_iff] at hidem
    simpa using hidem hl

theorem isAlpha_range {c : Char} (h : c.isAlpha = true) :
    (65 ≤ c.toNat ∧ c.toNat ≤ 90) ∨ (97 ≤ c.toNat ∧ c.toNat ≤ 122) := by
  simp only [Char.isAlpha, Char.isUpper, Char.isLower, Bool.or_eq_true, Bool.and_eq_true,
    decide_eq_true_eq] at h
  rcases h with ⟨h1, h2⟩ | ⟨h1, h2⟩
  · exact Or.inl ⟨h1, h2⟩
  · exact Or.inr ⟨h1, h2⟩

/-- A letter is not white space, when this holds of the letter table above ASCII. -/
theorem isLetter_not_space {L : Char → Bool} (hL : ∀ x, L x = true → isSpace x = false)
    {c : Char} (h : isLetter L c = true) : isSpace c = false := by
  unfold isLetter at h
  split at h
  · have := isAlpha_range h
    simp only [isSpace, Bool.or_eq_false_iff, Bool.and_eq_false_iff, decide_eq_false_iff_not,
      beq_eq_false_iff_ne]
    omega
  · exact hL c h

theorem byteToString_ascii {c : Char} (h : c.toNat < 128) :
    byteToString (utf8Lead c) = String.singleton c := by
  rw [utf8Lead_ascii h, byteToString, Char.ofNat_toNat]

/-! ## Lists of parameters with quoted values -/

section paramLists

variable (L : Char → Bool)

theorem joinParams_cons (sep : Str) (kv : Str × Str) (ps : List (Str × Str)) :
    ∃ tail, joinParams sep (kv :: ps) = kv.1 ++ '=' :: '"' :: (kv.2 ++ '"' :: tail) ∧
      (ps = [] → tail = []) ∧ (ps ≠ [] → tail = sep ++ joinParams sep ps) := by
  cases ps with
  | nil => exact ⟨[], by simp [joinParams, List.intercalate, quotedParam], by simp, by simp⟩
  | cons kv' ps' =>
    refine ⟨sep ++ joinParams sep (kv' :: ps'), ?_, by simp, by simp⟩
    simp [joinParams, List.intercalate, quotedParam]

theorem joinParams_ne_nil (sep : Str) (kv : Str × Str) (ps : List (Str × Str)) :
    joinParams sep (kv :: ps) ≠ [] := by
  obtain ⟨tail, h, _⟩ := joinParams_cons sep kv ps
  rw [h]
  simp

theorem joinParams_endsClean (sep : Str) :
    ∀ ps : List (Str × Str), EndsClean (joinParams sep ps) := by
  intro ps
  induction ps with
  | nil => exact endsClean_nil
  | cons kv ps ih =>
    obtain ⟨tail, h, h0, h1⟩ := joinParams_cons sep kv ps
    have e : kv.1 ++ '=' :: '"' :: (kv.2 ++ '"' :: tail) =
        (kv.1 ++ '=' :: '"' :: kv.2) ++ '"' :: tail := by simp
    rw [h, e]
    apply endsClean_append _ (by simp)
    apply endsClean_cons_of_clean (by decide)
    by_cases hps : ps = []
    · rw [h0 hps]; exact endsClean_nil
    · obtain ⟨kv', ps', rfl⟩ := List.exists_cons_of_ne_nil hps
      rw [h1 hps]
      exact endsClean_append _ (joinParams_ne_nil sep kv' ps') ih

theorem TrimSpace_joinParams (hL : ∀ x, L x = true → isSpace x = false) (sep : Str)
    (ps : List (Str × Str)) (hk : ∀ kv ∈ ps, ∀ x ∈ kv.1, isLetter L x = true) :
    TrimSpace (joinParams sep ps) = joinParams sep ps := by
  apply TrimSpace_eq_self _ (joinParams_endsClean sep ps)
  intro c hc
  cases ps with
  | nil => simp [joinParams, List.intercalate] at hc
  | cons kv ps =>
    obtain ⟨tail, h, _⟩ := joinParams_cons sep kv ps
    rw [h] at hc
    cases hk1 : kv.1 with
    | nil =>
      rw [hk1] at hc
      simp at hc
      subst hc
      decide
    | cons d k' =>
      rw [hk1] at hc
      simp at hc
      subst hc
      exact isLetter_not_space hL (hk kv (by simp) d (by rw [hk1]; simp))

/-- The parameter loop on parameters separated by white space only. -/
theorem parseParamsLoop_spaces (hL : ∀ x, L x = true → isSpace x = false) {ws : Str}
    (hws : ∀ x ∈ ws, isSpace x = true) :
    ∀ (ps : List (Str × Str)) (p : params),
      (∀ kv ∈ ps, ∀ x ∈ kv.1, isLetter L x = true) → (∀ kv ∈ ps, ∀ x ∈ kv.2, x ≠ '"') →
      ∃ f, parseParamsLoop L f p (TrimSpace (joinParams ws ps)) =
        some (ps.foldl (fun acc kv => addParam acc { key := kv.1, value := kv.2 }) p, [],
          none) := by
  intro ps
  induction ps with
  | nil =>
    intro p _ _
    exact ⟨1, by simp [joinParams, List.intercalate, TrimSpace_nil, parseParamsLoop_nil]⟩
  | cons kv ps ih =>
    intro p hk hv
    obtain ⟨tail, h, h0, h1⟩ := joinParams_cons ws kv ps
    obtain ⟨f, hf⟩ := ih (addParam p { key := kv.1, value := kv.2 })
      (fun a ha => hk a (by simp [ha])) (fun a ha => hv a (by simp [ha]))
    have hks : ∀ x ∈ kv.1, isSpace x = false :=
      fun x hx => isLetter_not_space hL (hk kv (by simp) x hx)
    have htail : EndsClean tail ∧ TrimSpace tail = TrimSpace (joinParams ws ps) := by
      by_cases hps : ps = []
      · rw [h0 hps, hps]
        exact ⟨endsClean_nil, by simp [joinParams, List.intercalate]⟩
      · obtain ⟨kv', ps', rfl⟩ := List.exists_cons_of_ne_nil hps
        rw [h1 hps]
        exact ⟨endsClean_append _ (joinParams_ne_nil ws kv' ps') (joinParams_endsClean ws _),
          TrimSpace_spaces_append hws _⟩
    refine ⟨f + 1, ?_⟩
    have hstep := @parseParamsLoop_trim_quoted L f p [] kv.1 kv.2 tail (by simp)
      (hk kv (by simp)) hks (hv kv (by simp)) htail.1
    rw [List.nil_append] at hstep
    rw [h, hstep, htail.2, List.foldl_cons]
    exact hf

/-- The parameter loop on parameters separated by `"; "`. -/
theorem parseParamsLoop_semis (hL : ∀ x, L x = true → isSpace x = false) :
    ∀ (ps : List (Str × Str)) (p : params),
      (∀ kv ∈ ps, ∀ x ∈ kv.1, isLetter L x = true) → (∀ kv ∈ ps, ∀ x ∈ kv.2, x ≠ '"') →
      ∃ f, parseParamsLoop L f p (TrimSpace (joinParams [';', ' '] ps)) =
        some (ps.foldl (fun acc kv => addParam acc { key := kv.1, value := kv.2 }) p, [],
          none) := by
  intro ps
  induction ps with
  | nil =>
    intro p _ _
    exact ⟨1, by simp [joinParams, List.intercalate, TrimSpace_nil, parseParamsLoop_nil]⟩
  | cons kv ps ih =>
    intro p hk hv
    obtain ⟨tail, h, h0, h1⟩ := joinParams_cons [';', ' '] kv ps
    obtain ⟨f, hf⟩ := ih (addParam p { key := kv.1, value := kv.2 })
      (fun a ha => hk a (by simp [ha])) (fun a ha => hv a (by simp [ha]))
    have hks : ∀ x ∈ kv.1, isSpace x = false :=
      fun x hx => isLetter_not_space hL (hk kv (by simp) x hx)
    by_cases hps : ps = []
    · subst hps
      refine ⟨2, ?_⟩
      have hstep := @parseParamsLoop_trim_quoted L 1 p [] kv.1 kv.2 [] (by simp)
        (hk kv (by simp)) hks (hv kv (by simp)) endsClean_nil
      rw [List.nil_append] at hstep
      rw [h, h0 rfl, hstep]
      simp [TrimSpace_nil, parseParamsLoop_nil]
    · obtain ⟨kv', ps', rfl⟩ := List.exists_cons_of_ne_nil hps
      have hclean : EndsClean ([';', ' '] ++ joinParams [';', ' '] (kv' :: ps')) :=
        endsClean_append _ (joinParams_ne_nil _ kv' ps') (joinParams_endsClean _ _)
      refine ⟨f + 2, ?_⟩
      have hstep := @parseParamsLoop_trim_quoted L (f + 1) p [] kv.1 kv.2
        ([';', ' '] ++ joinParams [';', ' '] (kv' :: ps')) (by simp)
        (hk kv (by simp)) hks (hv kv (by simp)) hclean
      rw [List.nil_append] at hstep
      rw [h, h1 hps, hstep]
      have e : [';', ' '] ++ joinParams [';', ' '] (kv' :: ps') =
          ';' :: ([' '] ++ joinParams [';', ' '] (kv' :: ps')) := by simp
      rw [e] at hclean ⊢
      rw [TrimSpace_clean (by decide) hclean, parseParamsLoop_semi,
        TrimSpace_spaces_append (by decide), List.foldl_cons]
      exact hf

end paramLists

/-! ## Headers of several entries -/

section entries

variable {U : Type} (urlParse : Str → Except String U) (L : Char → Bool)

theorem joinEntries_cons (e : Str) (es : List Str) :
    ∃ tail, joinEntries (e :: es) = e ++ tail ∧
      (tail = [] ∨ ∃ t, tail = ',' :: t) ∧
      (es = [] → tail = []) ∧ (es ≠ [] → tail = ',' :: ' ' :: joinEntries es) := by
  cases es with
  | nil => exact ⟨[], by simp [joinEntries, List.intercalate], Or.inl rfl, by simp, by simp⟩
  | cons e' es' =>
    refine ⟨',' :: ' ' :: joinEntries (e' :: es'), ?_, Or.inr ⟨_, rfl⟩, by simp, by simp⟩
    simp [joinEntries, List.intercalate]

theorem joinEntries_endsClean :
    ∀ es : List Str, (∀ e ∈ es, e ≠ [] ∧ EndsClean e) → EndsClean (joinEntries es) := by
  intro es
  induction es with
  | nil => intro _; exact endsClean_nil
  | cons e es ih =>
    intro h
    obtain ⟨tail, he, _, h0, h1⟩ := joinEntries_cons e es
    rw [he]
    by_cases hes : es = []
    · rw [h0 hes, List.append_nil]
      exact (h e (by simp)).2
    · have hne : joinEntries es ≠ [] := by
        obtain ⟨e', es', rfl⟩ := List.exists_cons_of_ne_nil hes
        obtain ⟨tail', h', _⟩ := joinEntries_cons e' es'
        rw [h']
        have := (h e' (by simp)).1
        simp [this]
      rw [h1 hes]
      exact endsClean_append _ (by simp)
        (endsClean_cons _ (by simp) (endsClean_cons _ hne
          (ih (fun a ha => h a (by simp [ha])))))

theorem TrimSpace_joinEntries (es : List Str)
    (h : ∀ e ∈ es, (∃ t, e = '<' :: t) ∧ EndsClean e) :
    TrimSpace (joinEntries es) = joinEntries es := by
  apply TrimSpace_eq_self _
    (joinEntries_endsClean es (fun e he => by
      obtain ⟨⟨t, rfl⟩, hc⟩ := h e he
      exact ⟨by simp, hc⟩))
  intro c hc
  cases es with
  | nil => simp [joinEntries, List.intercalate] at hc
  | cons e es =>
    obtain ⟨tail, he, _⟩ := joinEntries_cons e es
    obtain ⟨⟨t, rfl⟩, _⟩ := h e (by simp)
    rw [he] at hc
    simp at hc
    subst hc
    decide

/-- The top-level loop on entries joined by `", "`, each of which `parseLink`
accepts whatever follows it: the entries are inserted in order. -/
theorem ParseLoop_joinEntries :
    ∀ (es : List (Str × Link U)) (acc : Links U),
      (∀ e ∈ es, (∃ t, e.1 = '<' :: t) ∧ EndsClean e.1 ∧
        ∀ tail, EndsClean tail → (tail = [] ∨ ∃ t, tail = ',' :: t) →
          parseLink urlParse L (e.1 ++ tail) = some (some e.2, TrimSpace (tail.drop 1), none)) →
      ParseLoop urlParse L (es.length + 1) acc (joinEntries (es.map Prod.fst)) =
        some (es.foldl (fun m e => insertRels m e.2) acc, none) := by
  intro es
  induction es with
  | nil =>
    intro acc _
    simp [joinEntries, List.intercalate, ParseLoop_nil]
  | cons e es ih =>
    intro acc hes
    have hclean' : ∀ a ∈ es.map Prod.fst, (∃ t, a = '<' :: t) ∧ EndsClean a := by
      intro a ha
      obtain ⟨x, hx, rfl⟩ := List.mem_map.1 ha
      exact ⟨(hes x (by simp [hx])).1, (hes x (by simp [hx])).2.1⟩
    obtain ⟨tail, h, hc, h0, h1⟩ := joinEntries_cons e.1 (es.map Prod.fst)
    obtain ⟨⟨t0, ht0⟩, hce, hpl⟩ := hes e (by simp)
    have hall : EndsClean (joinEntries (es.map Prod.fst)) :=
      joinEntries_endsClean _ (fun a ha => by
        obtain ⟨⟨t, rfl⟩, hc⟩ := hclean' a ha
        exact ⟨by simp, hc⟩)
    have hclean : EndsClean tail := by
      by_cases hne : es.map Prod.fst = []
      · rw [h0 hne]; exact endsClean_nil
      · rw [h1 hne]
        have hj : joinEntries (es.map Prod.fst) ≠ [] := by
          obtain ⟨e', es', he'⟩ := List.exists_cons_of_ne_nil hne
          obtain ⟨tail', h', _⟩ := joinEntries_cons e' es'
          obtain ⟨⟨t, rfl⟩, _⟩ := hclean' e' (by rw [he']; simp)
          rw [he', h']
          simp
        exact endsClean_cons _ (by simp) (endsClean_cons _ hj hall)
    have hnext : TrimSpace (TrimSpace (tail.drop 1)) = joinEntries (es.map Prod.fst) := by
      by_cases hne : es.map Prod.fst = []
      · rw [h0 hne, hne]
        simp [TrimSpace_nil, joinEntries, List.intercalate]
      · rw [h1 hne]
        have : List.drop 1 (',' :: ' ' :: joinEntries (es.map Prod.fst)) =
            [' '] ++ joinEntries (es.map Prod.fst) := by simp
        rw [this, TrimSpace_spaces_append (by decide), TrimSpace_joinEntries _ hclean',
          TrimSpace_joinEntries _ hclean']
    have hlink := hpl tail hclean hc
    have hne : e.1 ++ tail ≠ [] := by rw [ht0]; simp
    rw [List.map_cons, h, List.length_cons, ParseLoop_ok urlParse L _ acc hne hlink, hnext,
      List.foldl_cons]
    exact ih _ (fun a ha => hes a (by simp [ha]))

/-- The entry `<u>; rel="r"` is accepted whatever follows it. -/
theorem relEntry_accepted {u r : Str} {uri : U} (hu : ∀ x ∈ u, x ≠ '>')
    (hp : urlParse u = .ok uri) (hr : ∀ x ∈ r, x ≠ ' ' ∧ x ≠ '"') :
    (∃ t, relEntry u r = '<' :: t) ∧ EndsClean (relEntry u r) ∧
      ∀ tail, EndsClean tail → (tail = [] ∨ ∃ t, tail = ',' :: t) →
        parseLink urlParse L (relEntry u r ++ tail) =
          some (some { URI := uri, Attributes := [], rels := [r] },
            TrimSpace (tail.drop 1), none) :=
  ⟨⟨_, rfl⟩, relEntry_endsClean u r,
    fun _ ht hc => parseLink_relEntry urlParse L hu hp hr ht hc⟩

theorem attrEntry_endsClean (u k v : Str) : EndsClean (attrEntry u k v) := by
  have : attrEntry u k v = ('<' :: (u ++ ['>', ';', ' '] ++ (k ++ '=' :: '"' :: v))) ++ ['"'] := by
    simp [attrEntry, quotedParam]
  rw [this]
  exact endsClean_append _ (by simp) (endsClean_singleton (by decide))

/-- The entry `<u>; k="v"`, followed by the end of the header or by `,`. -/
theorem parseLink_attrEntry (hL : ∀ x, L x = true → isSpace x = false) {u k v tail : Str}
    {uri : U} (hu : ∀ x ∈ u, x ≠ '>') (hp : urlParse u = .ok uri)
    (hk : ∀ x ∈ k, isLetter L x = true) (hv : ∀ x ∈ v, x ≠ '"')
    (ht : EndsClean tail) (hc : tail = [] ∨ ∃ t, tail = ',' :: t) :
    parseLink urlParse L (attrEntry u k v ++ tail) =
      some (some (applyAnchor urlParse
        { URI := uri,
          Attributes := (addParam { rels := [], attributes := [] }
            { key := k, value := v }).attributes,
          rels := (addParam { rels := [], attributes := [] }
            { key := k, value := v }).rels }),
        TrimSpace (tail.drop 1), none) := by
  have hshape : attrEntry u k v ++ tail =
      '<' :: (u ++ '>' :: (';' :: ([' '] ++ (k ++ '=' :: '"' :: (v ++ '"' :: tail))))) := by
    simp [attrEntry, quotedParam]
  have hq : EndsClean ('"' :: tail) := endsClean_cons_of_clean (by decide) ht
  have htrim : TrimSpace (';' :: ([' '] ++ (k ++ '=' :: '"' :: (v ++ '"' :: tail)))) =
      ';' :: ([' '] ++ (k ++ '=' :: '"' :: (v ++ '"' :: tail))) := by
    apply TrimSpace_clean (by decide)
    have : ';' :: ([' '] ++ (k ++ '=' :: '"' :: (v ++ '"' :: tail))) =
        (';' :: ' ' :: (k ++ '=' :: '"' :: v)) ++ '"' :: tail := by simp
    rw [this]
    exact endsClean_append _ (by simp) hq
  have hloop : parseParamsLoop L 2 { rels := [], attributes := [] }
      ([' '] ++ (k ++ '=' :: '"' :: (v ++ '"' :: tail))) =
      some (addParam { rels := [], attributes := [] } { key := k, value := v },
        TrimSpace (tail.drop 1), none) := by
    rw [parseParamsLoop_quoted L 1 _ (by decide) hk
      (fun x hx => isLetter_not_space hL (hk x hx)) hv ht]
    exact parseParamsLoop_tail L 0 _ ht hc
  rw [hshape, parseLink_params_ok urlParse L hu hp htrim (parseParams_of_loop L hloop)]

theorem entriesThen_append (es : List Str) (a b : Str) :
    entriesThen es (a ++ b) = entriesThen es a ++ b := by
  induction es with
  | nil => rfl
  | cons e es ih => simp [entriesThen, ih]

theorem entriesThen_head (es : List Str) {X : Str} (hes : ∀ e ∈ es, ∃ t, e = '<' :: t)
    (hX : ∃ t, X = '<' :: t) : ∃ t, entriesThen es X = '<' :: t := by
  cases es with
  | nil => exact hX
  | cons e es =>
    obtain ⟨t, rfl⟩ := hes e (by simp)
    exact ⟨_, rfl⟩

theorem entriesThen_endsClean :
    ∀ (es : List Str) {X : Str}, X ≠ [] → EndsClean X →
      entriesThen es X ≠ [] ∧ EndsClean (entriesThen es X) := by
  intro es
  induction es with
  | nil => intro X h1 h2; exact ⟨h1, h2⟩
  | cons e es ih =>
    intro X h1 h2
    obtain ⟨hne, hc⟩ := ih h1 h2
    refine ⟨by simp [entriesThen], ?_⟩
    simp only [entriesThen]
    exact endsClean_append _ (by simp) (endsClean_cons _ (by simp) (endsClean_cons _ hne hc))

/-- Trimming a string that starts with `<` and does not end in white space, with
white space added at its end, gives the string back. -/
theorem TrimSpace_append_spaces {A ws : Str} (hA : ∃ t, A = '<' :: t) (hc : EndsClean A)
    (hws : ∀ x ∈ ws, isSpace x = true) : TrimSpace (A ++ ws) = A := by
  obtain ⟨t, rfl⟩ := hA
  unfold TrimSpace
  rw [List.cons_append, List.dropWhile_cons_of_neg (by decide), ← List.cons_append,
    rdropWhile_append_spaces isSpace _ ws hws]
  exact rdropWhile_of_endsClean hc

/-- The top-level loop arrives, through entries that `parseLink` accepts whatever
follows them and that are each followed by `", "`, at the text after them, with
the entries inserted in order. -/
theorem LoopReaches_entriesThen :
    ∀ (es : List (Str × Link U)) (acc : Links U) {X : Str},
      (∀ e ∈ es, (∃ t, e.1 = '<' :: t) ∧ EndsClean e.1 ∧
        ∀ tail, EndsClean tail → (tail = [] ∨ ∃ t, tail = ',' :: t) →
          parseLink urlParse L (e.1 ++ tail) = some (some e.2, TrimSpace (tail.drop 1), none)) →
      (∃ t, X = '<' :: t) → EndsClean X →
      LoopReaches urlParse L acc (entriesThen (es.map Prod.fst) X)
        (es.foldl (fun m e => insertRels m e.2) acc) X := by
  intro es
  induction es with
  | nil => intro acc X _ _ _; exact LoopReaches.here acc X
  | cons e es ih =>
    intro acc X hes hX hXc
    obtain ⟨⟨t0, ht0⟩, _, hpl⟩ := hes e (by simp)
    have hXne : X ≠ [] := by
      obtain ⟨t, rfl⟩ := hX
      simp
    obtain ⟨hne, hc⟩ := entriesThen_endsClean (es.map Prod.fst) hXne hXc
    have hhead : ∃ t, entriesThen (es.map Prod.fst) X = '<' :: t := by
      apply entriesThen_head _ _ hX
      intro a ha
      obtain ⟨x, hx, rfl⟩ := List.mem_map.1 ha
      exact (hes x (by simp [hx])).1
    have htail : EndsClean (',' :: ' ' :: entriesThen (es.map Prod.fst) X) :=
      endsClean_cons _ (by simp) (endsClean_cons _ hne hc)
    have hlink := hpl _ htail (Or.inr ⟨_, rfl⟩)
    have hnext : TrimSpace (TrimSpace (List.drop 1
        (',' :: ' ' :: entriesThen (es.map Prod.fst) X))) = entriesThen (es.map Prod.fst) X := by
      have e1 : List.drop 1 (',' :: ' ' :: entriesThen (es.map Prod.fst) X) =
          [' '] ++ entriesThen (es.map Prod.fst) X := by simp
      obtain ⟨t, ht⟩ := hhead
      rw [e1, TrimSpace_spaces_append (by decide), ht]
      rw [ht] at hc
      rw [TrimSpace_clean (by decide) hc, TrimSpace_clean (by decide) hc]
    have hstart : e.1 ++ ',' :: ' ' :: entriesThen (es.map Prod.fst) X ≠ [] := by
      rw [ht0]; simp
    have hrec := ih (insertRels acc e.2) (fun a ha => hes a (by simp [ha])) hX hXc
    rw [← hnext] at hrec
    simp only [List.map_cons, entriesThen, List.foldl_cons]
    exact LoopReaches.next hstart hlink hrec

/-- A result of the top-level loop at a state that the loop arrives at is its
result at the state it started from, with enough fuel. -/
theorem ParseLoop_of_reaches {acc acc' : Links U} {s s' : Str}
    (h : LoopReaches urlParse L acc s acc' s') :
    ∀ (f : Nat) (r : Links U × Option String), ParseLoop urlParse L f acc' s' = some r →
      ∃ g, ParseLoop urlParse L g acc s = some r := by
  induction h with
  | here acc s => intro f r hr; exact ⟨f, hr⟩
  | next hs hl _ ih =>
    intro f r hr
    obtain ⟨g, hg⟩ := ih f r hr
    exact ⟨g + 1, by rw [ParseLoop_ok urlParse L g _ hs hl]; exact hg⟩

theorem Parse_of_reaches {s s' : Str} {acc' : Links U}
    (h : LoopReaches urlParse L [] (TrimSpace s) acc' s') {f : Nat}
    {r : Links U × Option String} (hr : ParseLoop urlParse L f acc' s' = some r) :
    Parse urlParse L s = some r := by
  obtain ⟨g, hg⟩ := ParseLoop_of_reaches urlParse L h f r hr
  exact Parse_of_loop urlParse L hg

theorem foldl_insertRels_nil :
    ∀ (es : List (Str × Link U)) (acc : Links U), (∀ e ∈ es, e.2.rels = []) →
      es.foldl (fun m e => insertRels m e.2) acc = acc := by
  intro es
  induction es with
  | nil => intro acc _; rfl
  | cons e es ih =>
    intro acc h
    rw [List.foldl_cons]
    have he : insertRels acc e.2 = acc := by
      simp [insertRels, h e (by simp)]
    rw [he]
    exact ih acc (fun a ha => h a (by simp [ha]))

end entries

/-! ## The errors of the token and parameter parsers -/

/-- A string that starts with a character that is not a letter: `IndexFunc`
returns `0`, not `-1`, and `parseToken` returns the empty token and no error. -/
theorem parseToken_nonletter_first (L : Char → Bool) {c : Char} (hc : isLetter L c = false)
    (rest : Str) : parseToken L (c :: rest) = some ([], c :: rest, none) := by
  have := @parseToken_append L [] (by simp) c hc rest
  simpa using this

/-- The error `no token found` is returned exactly on the strings of letters. -/
theorem parseToken_error_iff (L : Char → Bool) (s : Str) :
    (∃ t r e, parseToken L s = some (t, r, some e)) ↔ ∀ x ∈ s, isLetter L x = true := by
  rcases parseToken_cases L s with ⟨hall, h⟩ | ⟨k, c, rest, rfl, _, hc, h⟩
  · exact ⟨fun _ => hall, fun _ => ⟨_, _, _, h⟩⟩
  · constructor
    · rintro ⟨t, r, e, he⟩
      rw [h] at he
      simp at he
    · intro hall
      have := hall c (by simp)
      rw [hc] at this
      cases this

/-- The errors that `parseParam` returns. -/
theorem parseParam_errors (L : Char → Bool) {s r : Str} {x : Option param} {e : String}
    (h : parseParam L s = some (x, r, some e)) :
    e = "no token found" ∨
    (∃ c, e = "expected '=' but found '" ++ byteToString (utf8Lead c) ++ "'") ∨
    (∃ e', e = "could not parse param value: " ++ e') := by
  rcases parseToken_cases L (TrimSpace s) with ⟨hk, _⟩ | ⟨k, c, rest, hs, hk, hc, _⟩
  · rw [parseParam_no_token L hk] at h
    simp at h
    exact Or.inl h.2.2.symm
  · by_cases hne : c = '='
    · subst hne
      obtain ⟨v, r', e', hv, _⟩ := parseParamValue_total rest
      cases e' with
      | none =>
        rw [parseParam_ok L hs hk hv] at h
        simp at h
      | some e' =>
        rw [parseParam_value_error L hs hk hv] at h
        simp at h
        exact Or.inr (Or.inr ⟨e', h.2.2.symm⟩)
    · rw [parseParam_no_eq L hs hk hc hne] at h
      simp at h
      exact Or.inr (Or.inl ⟨c, h.2.2.symm⟩)

/-- The error `expected '=' but found end of string` of `parseParam` is never
returned: `parseToken` does not return an empty remainder without an error. -/
theorem parseParam_never_end_of_string (L : Char → Bool) (s r : Str) (x : Option param) :
    parseParam L s ≠ some (x, r, some "expected '=' but found end of string") := by
  intro h
  rcases parseParam_errors L h with h1 | ⟨c, h1⟩ | ⟨e', h1⟩
  · revert h1
    decide
  · have h2 := congrArg String.length h1
    simp [String.length_append, byteToString] at h2
    revert h2
    decide
  · have h2 := congrArg String.data h1
    rw [String.data_append] at h2
    have h3 := congrArg List.head? h2
    revert h3
    simp

/-! ## Parameters followed by more text -/

section chains

variable (L : Char → Bool)

theorem paramsThen_append (ps : List (Str × Str)) (a b : Str) :
    paramsThen ps (a ++ b) = paramsThen ps a ++ b := by
  induction ps with
  | nil => rfl
  | cons kv ps ih => simp [paramsThen, ih]

theorem paramsThen_clean :
    ∀ (ps : List (Str × Str)) {X : Str}, X ≠ [] → EndsClean X →
      paramsThen ps X ≠ [] ∧ EndsClean (paramsThen ps X) := by
  intro ps
  induction ps with
  | nil => intro X h1 h2; exact ⟨h1, h2⟩
  | cons kv ps ih =>
    intro X h1 h2
    obtain ⟨hne, hc⟩ := ih h1 h2
    refine ⟨by simp [paramsThen, quotedParam], ?_⟩
    simp only [paramsThen]
    exact endsClean_append _ (by simp) (endsClean_cons _ (by simp) (endsClean_cons _ hne hc))

theorem paramsThen_cons (kv : Str × Str) (ps : List (Str × Str)) (X : Str) :
    paramsThen (kv :: ps) X =
      kv.1 ++ '=' :: '"' :: (kv.2 ++ '"' :: (';' :: ([' '] ++ paramsThen ps X))) := by
  simp [paramsThen, quotedParam]

/-- The parameter loop consumes the parameters `k_i="v_i"` that are each followed
by `"; "`, two iterations for each, and goes on with the text after them. -/
theorem parseParamsLoop_paramsThen (hL : ∀ x, L x = true → isSpace x = false) :
    ∀ (ps : List (Str × Str)) (p : params) (f : Nat) {X : Str},
      (∀ kv ∈ ps, ∀ x ∈ kv.1, isLetter L x = true) → (∀ kv ∈ ps, ∀ x ∈ kv.2, x ≠ '"') →
      X ≠ [] → EndsClean X →
      parseParamsLoop L (f + 2 * ps.length) p (TrimSpace (paramsThen ps X)) =
        parseParamsLoop L f
          (ps.foldl (fun acc kv => addParam acc { key := kv.1, value := kv.2 }) p)
          (TrimSpace X) := by
  intro ps
  induction ps with
  | nil => intro p f X _ _ _ _; simp [paramsThen]
  | cons kv ps ih =>
    intro p f X hk hv h1 h2
    obtain ⟨hne, hc⟩ := paramsThen_clean ps h1 h2
    have hks : ∀ x ∈ kv.1, isSpace x = false :=
      fun x hx => isLetter_not_space hL (hk kv (by simp) x hx)
    have htail : EndsClean (';' :: ([' '] ++ paramsThen ps X)) :=
      endsClean_cons _ (by simp) (endsClean_append _ hne hc)
    have hstep := @parseParamsLoop_trim_quoted L (f + 2 * ps.length + 1) p [] kv.1 kv.2
      (';' :: ([' '] ++ paramsThen ps X)) (by simp) (hk kv (by simp)) hks
      (hv kv (by simp)) htail
    rw [List.nil_append] at hstep
    have e : f + 2 * (kv :: ps).length = f + 2 * ps.length + 1 + 1 := by
      simp only [List.length_cons]; omega
    rw [e, paramsThen_cons, hstep, TrimSpace_clean (by decide) htail, parseParamsLoop_semi,
      TrimSpace_spaces_append (by decide), List.foldl_cons]
    exact ih _ f (fun a ha => hk a (by simp [ha])) (fun a ha => hv a (by simp [ha])) h1 h2

/-- The same with white space in front of the first parameter. -/
theorem parseParamsLoop_lead_paramsThen (hL : ∀ x, L x = true → isSpace x = false)
    {ws : Str} (hws : ∀ x ∈ ws, isSpace x = true) (kv : Str × Str) (ps : List (Str × Str))
    (p : params) (f : Nat) {X : Str}
    (hk : ∀ a ∈ kv :: ps, ∀ x ∈ a.1, isLetter L x = true)
    (hv : ∀ a ∈ kv :: ps, ∀ x ∈ a.2, x ≠ '"') (h1 : X ≠ []) (h2 : EndsClean X) :
    parseParamsLoop L (f + 2 * ps.length + 2) p (ws ++ paramsThen (kv :: ps) X) =
      parseParamsLoop L f
        ((kv :: ps).foldl (fun acc a => addParam acc { key := a.1, value := a.2 }) p)
        (TrimSpace X) := by
  obtain ⟨hne, hc⟩ := paramsThen_clean ps h1 h2
  have hks : ∀ x ∈ kv.1, isSpace x = false :=
    fun x hx => isLetter_not_space hL (hk kv (by simp) x hx)
  have htail : EndsClean (';' :: ([' '] ++ paramsThen ps X)) :=
    endsClean_cons _ (by simp) (endsClean_append _ hne hc)
  rw [paramsThen_cons, parseParamsLoop_quoted L _ p hws (hk kv (by simp)) hks
    (hv kv (by simp)) htail, TrimSpace_clean (by decide) htail, parseParamsLoop_semi,
    TrimSpace_spaces_append (by decide), List.foldl_cons]
  exact parseParamsLoop_paramsThen L hL ps _ f (fun a ha => hk a (by simp [ha]))
    (fun a ha => hv a (by simp [ha])) h1 h2

/-- One iteration of the parameter loop on a parameter whose quoted value is not
closed. -/
theorem parseParamsLoop_unterminated (f : Nat) (p : params) {ws k v : Str}
    (hws : ∀ x ∈ ws, isSpace x = true) (hk : ∀ x ∈ k, isLetter L x = true)
    (hks : ∀ x ∈ k, isSpace x = false) (hv : ∀ x ∈ v, x ≠ '"')
    (hc : EndsClean ('"' :: v)) :
    parseParamsLoop L (f + 1) p (ws ++ (k ++ '=' :: '"' :: v)) =
      some (p, ws ++ (k ++ '=' :: '"' :: v),
        some ("could not parse param value: " ++ "expected \" but found none")) := by
  obtain ⟨c, t, hct, h1, h2⟩ := head_param L ('"' :: v) hws hk
  have he : EndsClean (k ++ '=' :: '"' :: v) := by
    have : k ++ '=' :: '"' :: v = (k ++ ['=']) ++ '"' :: v := by simp
    rw [this]
    exact endsClean_append _ (by simp) hc
  have hp := parseParam_value_error L (TrimSpace_param hws hks he) hk
    (parseParamValue_unterminated hv)
  rw [hct] at hp ⊢
  exact parseParamsLoop_error L f p h1 h2 hp

end chains

/-! ## The attributes never hold the key `rel` -/

theorem addParam_no_rel {p : params} (q : param)
    (h : ['r', 'e', 'l'] ∉ mapKeys p.attributes) :
    ['r', 'e', 'l'] ∉ mapKeys (addParam p q).attributes := by
  unfold addParam
  split
  · exact h
  · rename_i hq
    intro hmem
    rcases (mem_mapKeys_mapSet _ _ _ _).1 hmem with e | e
    · exact hq e.symm
    · exact h e

theorem parseParamsLoop_no_rel (L : Char → Bool) :
    ∀ (f : Nat) (p : params) (s : Str) (r : params × Str × Option String),
      ['r', 'e', 'l'] ∉ mapKeys p.attributes → parseParamsLoop L f p s = some r →
      ['r', 'e', 'l'] ∉ mapKeys r.1.attributes := by
  intro f
  induction f with
  | zero => intro p s r _ h; simp [parseParamsLoop] at h
  | succ f ih =>
    intro p s r hp h
    cases s with
    | nil =>
      rw [parseParamsLoop_nil] at h
      cases h
      exact hp
    | cons c t =>
      by_cases h1 : c = ','
      · subst h1
        rw [parseParamsLoop_comma] at h
        cases h
        exact hp
      · by_cases h2 : c = ';'
        · subst h2
          rw [parseParamsLoop_semi] at h
          exact ih _ _ _ hp h
        · rcases parseParam_cases L (c :: t) with ⟨r', e, hpp⟩ | ⟨q, r', hpp, _⟩
          · rw [parseParamsLoop_error L _ p h1 h2 hpp] at h
            cases h
            exact hp
          · rw [parseParamsLoop_param L _ p h1 h2 hpp] at h
            exact ih _ _ _ (addParam_no_rel q hp) h

theorem parseParams_no_rel (L : Char → Bool) {s r : Str} {p : params} {e : Option String}
    (h : parseParams L s = some (p, r, e)) : ['r', 'e', 'l'] ∉ mapKeys p.attributes :=
  parseParamsLoop_no_rel L _ _ s (p, r, e) (by simp [mapKeys]) h

/-! ## Unique keys -/

theorem nodup_mapKeys_mapSet {V : Type} {m : List (Str × V)} (h : (mapKeys m).Nodup) (k : Str)
    (v : V) : (mapKeys (mapSet m k v)).Nodup := by
  have hsub : (mapKeys (m.filter (fun kv => !decide (kv.1 = k)))).Sublist (mapKeys m) :=
    List.Sublist.map _ (List.filter_sublist m)
  simp only [mapSet, mapKeys, List.map_cons, List.nodup_cons]
  refine ⟨?_, h.sublist hsub⟩
  simp only [List.mem_map, List.mem_filter, not_exists, not_and]
  rintro ⟨a, b⟩ ⟨_, hne⟩ heq
  simp at hne heq
  exact hne heq

theorem nodup_mapKeys_insertRels {U : Type} (link : Link U) :
    ∀ (rs : List Str) (acc : Links U), (mapKeys acc).Nodup →
      (mapKeys (rs.foldl (fun m r => mapSet m r link) acc)).Nodup := by
  intro rs
  induction rs with
  | nil => intro acc h; exact h
  | cons r rs ih =>
    intro acc h
    rw [List.foldl_cons]
    exact ih _ (nodup_mapKeys_mapSet h r link)

/-! ## Theorems of the claims -/

section claims

variable {U : Type} (urlParse : Str → Except String U) (L : Char → Bool)

/-- C1: for every list of entries `<u_i>; rel="r_i"` joined by `", "`, where no
`u_i` contains `>`, the URI parser returns `uri_i` for `u_i`, and the `r_i` are
pairwise distinct and contain neither a space nor a double quote, `Parse` returns
no error, the keys of the collection are the `r_i`, one key each, and the entry
under `r_i` has the target `uri_i`. -/
theorem Parse_relHeader (es : List (RelEntry U))
    (hes : ∀ e ∈ es, (∀ x ∈ e.u, x ≠ '>') ∧ urlParse e.u = .ok e.uri ∧
      ∀ x ∈ e.r, x ≠ ' ' ∧ x ≠ '"')
    (hnd : (es.map (fun e => e.r)).Nodup) :
    ∃ links, Parse urlParse L (relHeader es) = some (links, none) ∧
      (mapKeys links).Perm (es.map (fun e => e.r)) ∧
      ∀ e ∈ es, ∃ link, mapGet links e.r = some link ∧ link.URI = e.uri := by
  have hloop := ParseLoop_relHeader urlParse L es [] hes (by simp [mapKeys]) hnd
  rw [← TrimSpace_relHeader es] at hloop
  have hkeys : mapKeys (es.reverse.map (fun e => (e.r, relLink e)) ++ []) =
      (es.map (fun e => e.r)).reverse := by
    simp [mapKeys, List.map_reverse, Function.comp_def]
  refine ⟨_, Parse_of_loop urlParse L hloop, ?_, ?_⟩
  · rw [hkeys]
    exact List.reverse_perm _
  · intro e he
    refine ⟨relLink e, ?_, rfl⟩
    apply mapGet_of_mem
    · rw [hkeys]
      exact List.nodup_reverse.2 hnd
    · simp only [List.append_nil, List.mem_map, List.mem_reverse]
      exact ⟨e, he, rfl⟩

/-- The header of the test "parses multiple links", cut to two entries. -/
theorem relHeader_example :
    relHeader [({ u := "http://example.com/2".toList, r := "previous".toList,
                  uri := "http://example.com/2".toList } : RelEntry Str),
               { u := "http://example.com/4".toList, r := "next".toList,
                 uri := "http://example.com/4".toList }] =
      "<http://example.com/2>; rel=\"previous\", <http://example.com/4>; rel=\"next\"".toList := by
  decide

/-- C1 at the two-entry header `<a>; rel="x", <b>; rel="y"`. -/
theorem Parse_relHeader_witness :
    ∃ links, Parse idUrl asciiOnly (relHeader
        [({ u := ['a'], r := ['x'], uri := ['a'] } : RelEntry Str),
         { u := ['b'], r := ['y'], uri := ['b'] }]) = some (links, none) ∧
      (mapKeys links).Perm [['x'], ['y']] ∧
      ∀ e ∈ [({ u := ['a'], r := ['x'], uri := ['a'] } : RelEntry Str),
             { u := ['b'], r := ['y'], uri := ['b'] }],
        ∃ link, mapGet links e.r = some link ∧ link.URI = e.uri :=
  Parse_relHeader idUrl asciiOnly
    [{ u := ['a'], r := ['x'], uri := ['a'] }, { u := ['b'], r := ['y'], uri := ['b'] }]
    (by simp [idUrl]) (by decide)

/-- C2: for every string `v` without a double quote and every string `r`,
`parseParamValue` on `"v"` followed by `r` returns the value `v` and the remainder
`r` with no error; and `Parse` of `<u>; rel="p"; title="v"` (no `>` in `u`, `u`
accepted by the URI parser, `p` one relation) returns the single key `p`, whose
entry has the attribute `title` equal to `v`. -/
theorem parseParamValue_quoted_verbatim (v r : Str) (hv : ∀ x ∈ v, x ≠ '"') :
    parseParamValue ('"' :: (v ++ '"' :: r)) = some (v, r, none) ∧
    ∀ (u p : Str) (uri : U), (∀ x ∈ u, x ≠ '>') → urlParse u = .ok uri →
      (∀ x ∈ p, x ≠ ' ' ∧ x ≠ '"') →
      ∃ links link, Parse urlParse L (titleEntry u p v) = some (links, none) ∧
        mapKeys links = [p] ∧ mapGet links p = some link ∧
        mapGet link.Attributes ['t', 'i', 't', 'l', 'e'] = some v := by
  refine ⟨parseParamValue_quoted hv r, ?_⟩
  intro u p uri hu hp hr
  have hlink := parseLink_titleEntry urlParse L hu hp hr hv
  have hparse := Parse_single urlParse L
    (TrimSpace_clean (by decide) (titleEntry_endsClean u p v)) (by simp [titleEntry]) hlink
    TrimSpace_nil
  refine ⟨_, { URI := uri, Attributes := [(['t', 'i', 't', 'l', 'e'], v)], rels := [p] },
    hparse, ?_, ?_, ?_⟩
  · simp [insertRels, mapSet, mapKeys]
  · simp [insertRels, mapSet, mapGet]
  · simp [mapGet]

/-- The header of the test "commas and semis within quoted strings". -/
theorem titleEntry_example :
    titleEntry "http://example.com/TheBook/chapter2".toList "previous".toList
        "hello, God; it's me, margaret".toList =
      ("<http://example.com/TheBook/chapter2>; rel=\"previous\"; " ++
        "title=\"hello, God; it's me, margaret\"").toList := by
  decide

/-- C2 at a value with a comma and a semicolon, as in the test "commas and semis
within quoted strings". -/
theorem parseParamValue_quoted_verbatim_witness :
    (∀ x ∈ "hello, God; it is me".toList, x ≠ '"') ∧
    (parseParamValue ('"' :: ("hello, God; it is me".toList ++ '"' :: [';'])) =
      some ("hello, God; it is me".toList, [';'], none) ∧
    ∀ (u p : Str) (uri : Str), (∀ x ∈ u, x ≠ '>') → idUrl u = .ok uri →
      (∀ x ∈ p, x ≠ ' ' ∧ x ≠ '"') →
      ∃ links link, Parse idUrl asciiOnly (titleEntry u p "hello, God; it is me".toList) =
          some (links, none) ∧
        mapKeys links = [p] ∧ mapGet links p = some link ∧
        mapGet link.Attributes ['t', 'i', 't', 'l', 'e'] = some "hello, God; it is me".toList) :=
  ⟨by decide, parseParamValue_quoted_verbatim idUrl asciiOnly "hello, God; it is me".toList [';']
    (by decide)⟩

/-- C3: for every header `<u>; rel="r1 r2 ... rn"` of one entry (no `>` in `u`,
`u` accepted by the URI parser, no space or double quote in the `r_i`), `Parse`
returns no error, the keys of the collection are exactly the `r_i`, and all of
them map to one entry, whose target is the URI parsed from `u`. -/
theorem Parse_multiple_rels (u : Str) (uri : U) (r : Str) (rs : List Str)
    (hu : ∀ x ∈ u, x ≠ '>') (hp : urlParse u = .ok uri)
    (hr : ∀ q ∈ r :: rs, ∀ x ∈ q, x ≠ ' ' ∧ x ≠ '"') :
    ∃ links link, Parse urlParse L (relEntry u (joinRels (r :: rs))) = some (links, none) ∧
      (mapKeys links).Nodup ∧ (∀ k, k ∈ mapKeys links ↔ k ∈ r :: rs) ∧
      (∀ k ∈ r :: rs, mapGet links k = some link) ∧
      link.URI = uri ∧ link.Attributes = [] ∧ link.rels = r :: rs := by
  have hq := joinRels_no_quote (r :: rs) (fun q hq x hx => (hr q hq x hx).2)
  have hsplit := Split_joinRels r rs (fun q hq x hx => (hr q hq x hx).1)
  have hlink := parseLink_relEntry_split urlParse L hu hp hq
  rw [hsplit] at hlink
  have hparse := Parse_single urlParse L (TrimSpace_relEntry u _) (by simp [relEntry]) hlink
    TrimSpace_nil
  refine ⟨_, { URI := uri, Attributes := [], rels := r :: rs }, hparse, ?_, ?_, ?_,
    rfl, rfl, rfl⟩
  · exact nodup_mapKeys_insertRels _ _ _ (by simp [mapKeys])
  · intro k
    rw [mem_mapKeys_insertRels]
    simp [mapKeys]
  · intro k hk
    exact mapGet_insertRels_mem _ _ hk

/-- C3 at the header of the test "parses multiple rels". -/
theorem Parse_multiple_rels_witness :
    ∃ links link, Parse idUrl asciiOnly (relEntry "http://example.com/TheBook/chapter31".toList
        (joinRels ["last".toList, "http://example.com/rel-ext/bonus".toList])) =
        some (links, none) ∧
      (mapKeys links).Nodup ∧
      (∀ k, k ∈ mapKeys links ↔
        k ∈ ["last".toList, "http://example.com/rel-ext/bonus".toList]) ∧
      (∀ k ∈ ["last".toList, "http://example.com/rel-ext/bonus".toList],
        mapGet links k = some link) ∧
      link.URI = "http://example.com/TheBook/chapter31".toList ∧ link.Attributes = [] ∧
      link.rels = ["last".toList, "http://example.com/rel-ext/bonus".toList] :=
  Parse_multiple_rels idUrl asciiOnly "http://example.com/TheBook/chapter31".toList
    "http://example.com/TheBook/chapter31".toList "last".toList
    ["http://example.com/rel-ext/bonus".toList] (by decide) rfl (by decide)

/-- C4: an entry that `parseLink` accepts has the form `<u>...` with `u` accepted
by the URI parser; when its attribute `anchor` has the value `a`, its target is
the URI parsed from `a` if the URI parser accepts `a` and the URI parsed from `u`
otherwise, and no error is raised; without an attribute `anchor` its target is the
URI parsed from `u`.  Every entry of a collection returned by `Parse` is such an
entry, parsed from its own part of the header. -/
theorem parseLink_anchor (s : Str) :
    (∀ link rest, parseLink urlParse L s = some (some link, rest, none) →
      ∃ u tail uri, s = '<' :: (u ++ '>' :: tail) ∧ (∀ x ∈ u, x ≠ '>') ∧
        urlParse u = .ok uri ∧
        (∀ a au, mapGet link.Attributes ['a', 'n', 'c', 'h', 'o', 'r'] = some a →
          urlParse a = .ok au → link.URI = au) ∧
        (∀ a e, mapGet link.Attributes ['a', 'n', 'c', 'h', 'o', 'r'] = some a →
          urlParse a = .error e → link.URI = uri) ∧
        (mapGet link.Attributes ['a', 'n', 'c', 'h', 'o', 'r'] = none → link.URI = uri)) ∧
    (∀ links err k link, Parse urlParse L s = some (links, err) →
      mapGet links k = some link →
      ∃ e rest, e <:+: s ∧ parseLink urlParse L e = some (some link, rest, none)) := by
  constructor
  · intro link rest h
    have hne : s ≠ [] := by
      rintro rfl
      rw [parseLink_nil] at h
      cases h
    rcases parseLink_cases urlParse L s hne with ⟨x, r', e, hp'⟩ |
      ⟨u, tail, t, uri, ps, rest', hs, hu, hp, _, _, hp', _, _⟩
    · rw [h] at hp'
      simp at hp'
    · rw [h] at hp'
      have hl : link = applyAnchor urlParse
          { URI := uri, Attributes := ps.attributes, rels := ps.rels } := by
        have := Option.some.inj hp'
        exact Option.some.inj (Prod.mk.inj this).1
      refine ⟨u, tail, uri, hs, hu, hp, ?_, ?_, ?_⟩
      · intro a au ha hau
        rw [hl, applyAnchor_Attributes] at ha
        rw [hl]
        simp only [applyAnchor] at ha ⊢
        simp [ha, hau]
      · intro a e ha hae
        rw [hl, applyAnchor_Attributes] at ha
        rw [hl]
        simp only [applyAnchor] at ha ⊢
        simp [ha, hae]
      · intro ha
        rw [hl, applyAnchor_Attributes] at ha
        rw [hl]
        simp only [applyAnchor] at ha ⊢
        simp [ha]
  · intro links err k link h hk
    obtain ⟨_, e, rest, _, hi, hp⟩ := Parse_entries urlParse L h hk
    exact ⟨e, rest, hi, hp⟩

/-- C4 at the header of the test "overrides URI with anchor param" (with a shorter
anchor) and at an anchor that the URL parser rejects. -/
theorem parseLink_anchor_witness :
    (∃ u tail uri, "<>; rel=\"last\"; anchor=\"http://x/\"".toList = '<' :: (u ++ '>' :: tail) ∧
      (∀ x ∈ u, x ≠ '>') ∧ ctlUrl u = .ok uri ∧
      (∀ a au, mapGet [("anchor".toList, "http://x/".toList)] ['a', 'n', 'c', 'h', 'o', 'r'] =
          some a → ctlUrl a = .ok au → "http://x/".toList = au) ∧
      (∀ a e, mapGet [("anchor".toList, "http://x/".toList)] ['a', 'n', 'c', 'h', 'o', 'r'] =
          some a → ctlUrl a = .error e → "http://x/".toList = uri) ∧
      (mapGet [("anchor".toList, "http://x/".toList)] ['a', 'n', 'c', 'h', 'o', 'r'] = none →
        "http://x/".toList = uri)) ∧
    parseLink ctlUrl asciiOnly "<u>; rel=\"last\"; anchor=\"\t\"".toList =
      some (some { URI := ['u'], Attributes := [("anchor".toList, ['\t'])],
                   rels := ["last".toList] }, [], none) :=
  ⟨(parseLink_anchor ctlUrl asciiOnly "<>; rel=\"last\"; anchor=\"http://x/\"".toList).1
      { URI := "http://x/".toList, Attributes := [("anchor".toList, "http://x/".toList)],
        rels := ["last".toList] } [] (by decide),
    by decide⟩

/-- C5, as stated, fails when the character after the key is white space at the
end of the header: `Parse` trims the header first, the key then runs to the end of
the string, and the error is that of `parseToken`. -/
theorem Parse_expected_eq_counterexample :
    isLetter asciiOnly ' ' = false ∧ ' ' ≠ '=' ∧
    Parse idUrl asciiOnly "<u>; rel ".toList =
      some ([], some "params could not be parsed: no token found") ∧
    Parse idUrl asciiOnly "<u>; rel ".toList ≠
      some ([], some "params could not be parsed: expected '=' but found ' '") := by
  have h : Parse idUrl asciiOnly "<u>; rel ".toList =
      some ([], some "params could not be parsed: no token found") := by decide
  refine ⟨by decide, by decide, h, ?_⟩
  rw [h]
  decide

/-- C5, amended: for every header `<u>;`, white space, a key `k` that is a
non-empty run of letters, an ASCII character `c` that is neither a letter nor `=`,
and any text `rest`, where `c` is not white space or `rest` holds a character that
is not white space, `Parse` returns the empty collection and the error
`params could not be parsed: expected '=' but found 'c'`. -/
theorem Parse_expected_eq (u ws k rest : Str) (c : Char) (uri : U)
    (hL : ∀ x, L x = true → isSpace x = false)
    (hu : ∀ x ∈ u, x ≠ '>') (hp : urlParse u = .ok uri)
    (hws : ∀ x ∈ ws, isSpace x = true) (hk0 : k ≠ [])
    (hk : ∀ x ∈ k, isLetter L x = true) (hascii : c.toNat < 128)
    (hc : isLetter L c = false) (hne : c ≠ '=')
    (hkeep : isSpace c = false ∨ ∃ x ∈ rest, isSpace x = false) :
    Parse urlParse L ('<' :: (u ++ '>' :: ';' :: (ws ++ (k ++ c :: rest)))) =
      some ([], some ("params could not be parsed: expected '=' but found '" ++
        String.singleton c ++ "'")) := by
  obtain ⟨r, hr, hclean⟩ := rdropWhile_keep hkeep
  obtain ⟨k0, k', rfl⟩ := List.exists_cons_of_ne_nil hk0
  have hk0l : isLetter L k0 = true := hk k0 (by simp)
  have htrim : TrimSpace ('<' :: (u ++ '>' :: ';' :: (ws ++ (k0 :: k' ++ c :: rest)))) =
      '<' :: (u ++ '>' :: ';' :: (ws ++ (k0 :: k' ++ c :: r))) := by
    unfold TrimSpace
    rw [List.dropWhile_cons_of_neg (by decide)]
    have e1 : '<' :: (u ++ '>' :: ';' :: (ws ++ (k0 :: k' ++ c :: rest))) =
        ('<' :: (u ++ '>' :: ';' :: (ws ++ k0 :: k'))) ++ (c :: rest) := by simp
    rw [e1, rdropWhile_append_of_ne_nil _ _ _ (by rw [hr]; simp), hr]
    simp
  have hkc : EndsClean (k0 :: k' ++ c :: r) := endsClean_append _ (by simp) hclean
  have htail : TrimSpace (';' :: (ws ++ (k0 :: k' ++ c :: r))) =
      ';' :: (ws ++ (k0 :: k' ++ c :: r)) :=
    TrimSpace_clean (by decide)
      (endsClean_cons _ (by simp) (endsClean_append ws (by simp) hkc))
  have hparam : TrimSpace (ws ++ (k0 :: k' ++ c :: r)) = k0 :: k' ++ c :: r := by
    rw [TrimSpace_spaces_append hws]
    exact TrimSpace_clean (isLetter_not_space hL hk0l) hkc
  have hhead : ∃ c0 t, ws ++ (k0 :: k' ++ c :: r) = c0 :: t ∧ c0 ≠ ',' ∧ c0 ≠ ';' := by
    cases ws with
    | cons w ws' =>
      have hw := hws w (by simp)
      exact ⟨w, _, rfl, isSpace_ne_comma hw, isSpace_ne_semi hw⟩
    | nil => exact ⟨k0, _, rfl, isLetter_ne_comma hk0l, isLetter_ne_semi hk0l⟩
  obtain ⟨c0, t, hct, h1, h2⟩ := hhead
  have hpp := parseParam_no_eq L hparam hk hc hne
  rw [byteToString_ascii hascii] at hpp
  have hloop : parseParamsLoop L 1 { rels := [], attributes := [] }
      (ws ++ (k0 :: k' ++ c :: r)) =
      some ({ rels := [], attributes := [] }, ws ++ (k0 :: k' ++ c :: r),
        some ("expected '=' but found '" ++ String.singleton c ++ "'")) := by
    rw [hct] at hpp ⊢
    exact parseParamsLoop_error L 0 _ h1 h2 hpp
  have hlink := parseLink_params_error urlParse L hu hp htail (parseParams_of_loop L hloop)
  rw [← htrim] at hlink
  have hparse := Parse_first_error urlParse L (by rw [htrim]; simp) hlink
  rw [hparse]
  have hmsg : "params could not be parsed: " ++
      ("expected '=' but found '" ++ String.singleton c ++ "'") =
      "params could not be parsed: expected '=' but found '" ++ String.singleton c ++ "'" := by
    rw [← String.append_assoc, ← String.append_assoc]
    rfl
  rw [hmsg]

/-- C5 amended, at a header with the parameter `title*=x` of the test "does not
parse title* attribute". -/
theorem Parse_expected_eq_witness :
    Parse idUrl asciiOnly "<http://example.com/TheBook/chapter31>; title*=x".toList =
      some ([], some "params could not be parsed: expected '=' but found '*'") :=
  Parse_expected_eq idUrl asciiOnly "http://example.com/TheBook/chapter31".toList [' ']
    "title".toList "=x".toList '*' "http://example.com/TheBook/chapter31".toList
    (by simp [asciiOnly]) (by decide) rfl (by decide) (by decide) (by decide) (by decide)
    (by decide) (by decide) (by decide)

/-- C6: for every string `s` that does not start with a double quote,
`parseParamValue` returns no error; the value is the longest prefix of `s` without
a space, `;` or `,`; when `s` has none of these the value is `s` and the remainder
is empty, and otherwise `s` is the value, one delimiter, and the remainder. -/
theorem parseParamValue_nonquoted (s : Str) (hq : s.head? ≠ some '"') :
    ∃ value rest, parseParamValue s = some (value, rest, none) ∧
      value <+: s ∧ (∀ x ∈ value, isDelim x = false) ∧
      (∀ q, q <+: s → (∀ x ∈ q, isDelim x = false) → q.length ≤ value.length) ∧
      ((∀ x ∈ s, isDelim x = false) → value = s ∧ rest = []) ∧
      ((∃ x ∈ s, isDelim x = true) → ∃ d, isDelim d = true ∧ s = value ++ d :: rest) := by
  rcases IndexFunc_cases isDelim s with ⟨_, h⟩ | ⟨a, d, b, rfl, ha, hd, _⟩
  · refine ⟨s, [], parseParamValue_unquoted_end hq h, List.prefix_refl s, h, ?_, ?_, ?_⟩
    · intro q hq' _
      exact hq'.length_le
    · intro _
      exact ⟨rfl, rfl⟩
    · rintro ⟨x, hx, hxd⟩
      rw [h x hx] at hxd
      cases hxd
  · refine ⟨a, b, parseParamValue_unquoted_delim b hq ha hd, List.prefix_append a _, ha,
      ?_, ?_, ?_⟩
    · intro q hq' hqd
      have hp2 : a ++ [d] <+: a ++ d :: b := ⟨b, by simp⟩
      rcases List.prefix_or_prefix_of_prefix hq' hp2 with h1 | h1
      · by_contra hlt
        have hlen : q.length = (a ++ [d]).length := by
          have := h1.length_le
          simp at this ⊢
          omega
        have heq := h1.eq_of_length hlen
        have := hqd d (by rw [heq]; simp)
        rw [hd] at this
        cases this
      · obtain ⟨t, ht⟩ := h1
        have := hqd d (by rw [← ht]; simp)
        rw [hd] at this
        cases this
    · intro hall
      have := hall d (by simp)
      rw [hd] at this
      cases this
    · intro _
      exact ⟨d, hd, rfl⟩

/-- C6 at the value `text/html; media=screen` of the test "parses nonquoted
params". -/
theorem parseParamValue_nonquoted_witness :
    ∃ value rest, parseParamValue "text/html; media=screen".toList = some (value, rest, none) ∧
      value <+: "text/html; media=screen".toList ∧ (∀ x ∈ value, isDelim x = false) ∧
      (∀ q, q <+: "text/html; media=screen".toList → (∀ x ∈ q, isDelim x = false) →
        q.length ≤ value.length) ∧
      ((∀ x ∈ "text/html; media=screen".toList, isDelim x = false) →
        value = "text/html; media=screen".toList ∧ rest = []) ∧
      ((∃ x ∈ "text/html; media=screen".toList, isDelim x = true) →
        ∃ d, isDelim d = true ∧ "text/html; media=screen".toList = value ++ d :: rest) :=
  parseParamValue_nonquoted "text/html; media=screen".toList (by decide)

/-- C7: for every list of parameters `k_i="v_i"` (the `k_i` runs of letters, the
`v_i` without a double quote), `parseParams` on the parameters separated by white
space only returns no error and the same relations and attributes as on the
parameters separated by `"; "`: those of the parameters taken in order. -/
theorem parseParams_optional_semicolon (hL : ∀ x, L x = true → isSpace x = false)
    (ws : Str) (hws : ∀ x ∈ ws, isSpace x = true) (ps : List (Str × Str))
    (hk : ∀ kv ∈ ps, ∀ x ∈ kv.1, isLetter L x = true)
    (hv : ∀ kv ∈ ps, ∀ x ∈ kv.2, x ≠ '"') :
    parseParams L (joinParams ws ps) = some (paramsOf ps, [], none) ∧
    parseParams L (joinParams [';', ' '] ps) = some (paramsOf ps, [], none) := by
  constructor
  · obtain ⟨f, hf⟩ := parseParamsLoop_spaces L hL hws ps { rels := [], attributes := [] } hk hv
    rw [TrimSpace_joinParams L hL ws ps hk] at hf
    exact parseParams_of_loop L hf
  · obtain ⟨f, hf⟩ := parseParamsLoop_semis L hL ps { rels := [], attributes := [] } hk hv
    rw [TrimSpace_joinParams L hL _ ps hk] at hf
    exact parseParams_of_loop L hf

/-- The texts of C7 for the parameters of the test "when semicolon missing". -/
theorem joinParams_example :
    joinParams [' '] [("rel".toList, "previous".toList), ("title".toList, "Chapter Two".toList)] =
      "rel=\"previous\" title=\"Chapter Two\"".toList ∧
    joinParams [';', ' ']
        [("rel".toList, "previous".toList), ("title".toList, "Chapter Two".toList)] =
      "rel=\"previous\"; title=\"Chapter Two\"".toList ∧
    paramsOf [("rel".toList, "previous".toList), ("title".toList, "Chapter Two".toList)] =
      { rels := ["previous".toList],
        attributes := [("title".toList, "Chapter Two".toList)] } := by
  decide

/-- C7 at the parameters of the test "when semicolon missing". -/
theorem parseParams_optional_semicolon_witness :
    parseParams asciiOnly (joinParams [' ']
        [("rel".toList, "previous".toList), ("title".toList, "Chapter Two".toList)]) =
      some (paramsOf
        [("rel".toList, "previous".toList), ("title".toList, "Chapter Two".toList)], [], none) ∧
    parseParams asciiOnly (joinParams [';', ' ']
        [("rel".toList, "previous".toList), ("title".toList, "Chapter Two".toList)]) =
      some (paramsOf
        [("rel".toList, "previous".toList), ("title".toList, "Chapter Two".toList)], [], none) :=
  parseParams_optional_semicolon asciiOnly (by simp [asciiOnly]) [' '] (by decide)
    [("rel".toList, "previous".toList), ("title".toList, "Chapter Two".toList)]
    (by decide) (by decide)

/-- C8: for every string that holds only white space, the empty string included,
`Parse` returns the empty collection and no error. -/
theorem Parse_blank (s : Str) (h : ∀ x ∈ s, isSpace x = true) :
    Parse urlParse L s = some ([], none) := by
  unfold Parse
  rw [TrimSpace_spaces h]
  exact ParseLoop_nil urlParse L 0 []

/-- C8 at the empty string of the test "returns empty map for empty string" and at
a string of a space, a tab and a line feed. -/
theorem Parse_blank_witness :
    Parse idUrl asciiOnly [] = some ([], none) ∧
    Parse idUrl asciiOnly [' ', '\t', '\n'] = some ([], none) :=
  ⟨Parse_blank idUrl asciiOnly [] (by decide),
    Parse_blank idUrl asciiOnly [' ', '\t', '\n'] (by decide)⟩

/-- C9, as stated, fails: on the header `<u>` of one entry without parameters
`Parse` returns the error `no params found`. -/
theorem Parse_no_params_counterexample :
    Parse idUrl asciiOnly "<u>".toList = some ([], some "no params found") ∧
    ¬ ∃ links, Parse idUrl asciiOnly "<u>".toList = some (links, none) := by
  have h : Parse idUrl asciiOnly "<u>".toList = some ([], some "no params found") := by decide
  refine ⟨h, ?_⟩
  rintro ⟨links, hl⟩
  rw [h] at hl
  cases hl

/-- C9, amended: an entry `<u>` without parameters (no `>` in `u`, `u` accepted
by the URI parser, only white space after `>`) is an error also as the last entry
of the header.  `Parse` of the header that is this entry alone returns the error
`no params found` and the empty collection.  The top-level loop, when the
remaining string is this entry, returns the error with the collection accumulated
so far.  For every header on which the loop arrives at this entry, every entry
before it being accepted, `Parse` returns the error with the collection built from
the entries before it.  Such are the headers of entries `<u_i>; rel="r_i"`, each
followed by `", "`, and then this entry: `Parse` returns the error with exactly the
collection that it returns, without an error, for the entries before it. -/
theorem Parse_no_params (u ws : Str) (uri : U) (hu : ∀ x ∈ u, x ≠ '>')
    (hp : urlParse u = .ok uri) (hws : ∀ x ∈ ws, isSpace x = true) :
    Parse urlParse L ('<' :: (u ++ '>' :: ws)) = some ([], some "no params found") ∧
    (∀ (f : Nat) (acc : Links U),
      ParseLoop urlParse L (f + 1) acc ('<' :: (u ++ '>' :: ws)) =
        some (acc, some "no params found")) ∧
    (∀ (s : Str) (acc : Links U),
      LoopReaches urlParse L [] (TrimSpace s) acc ('<' :: (u ++ ['>'])) →
      Parse urlParse L s = some (acc, some "no params found")) ∧
    (∀ es : List (RelEntry U),
      (∀ e ∈ es, (∀ x ∈ e.u, x ≠ '>') ∧ urlParse e.u = .ok e.uri ∧
        ∀ x ∈ e.r, x ≠ ' ' ∧ x ≠ '"') →
      ∃ links, Parse urlParse L (relHeader es) = some (links, none) ∧
        Parse urlParse L (entriesThen (es.map (fun e => relEntry e.u e.r))
          ('<' :: (u ++ '>' :: ws))) = some (links, some "no params found")) := by
  have hlink := parseLink_no_params_nil urlParse L hu hp (TrimSpace_spaces hws)
  have hlink0 : parseLink urlParse L ('<' :: (u ++ ['>'])) =
      some (some { URI := uri, Attributes := [], rels := [] }, [], some "no params found") :=
    parseLink_no_params_nil urlParse L hu hp TrimSpace_nil
  have hX : ∃ t, '<' :: (u ++ ['>']) = '<' :: t := ⟨_, rfl⟩
  have hXc : EndsClean ('<' :: (u ++ ['>'])) := by
    have e : '<' :: (u ++ ['>']) = ('<' :: u) ++ ['>'] := rfl
    rw [e]
    exact endsClean_append _ (by simp) (endsClean_singleton (by decide))
  have hlast : ∀ acc : Links U, ParseLoop urlParse L 1 acc ('<' :: (u ++ ['>'])) =
      some (acc, some "no params found") :=
    fun acc => ParseLoop_error urlParse L 0 acc (by simp) hlink0
  refine ⟨?_, ?_, ?_, ?_⟩
  · have htrim : TrimSpace ('<' :: (u ++ '>' :: ws)) = '<' :: (u ++ ['>']) := by
      have e : '<' :: (u ++ '>' :: ws) = ('<' :: (u ++ ['>'])) ++ ws := by simp
      rw [e]
      exact TrimSpace_append_spaces hX hXc hws
    rw [← htrim] at hlink0
    exact Parse_first_error urlParse L (by rw [htrim]; simp) hlink0
  · intro f acc
    exact ParseLoop_error urlParse L f acc (by simp) hlink
  · intro s acc hreach
    exact Parse_of_reaches urlParse L hreach (hlast acc)
  · intro es hes
    have hgood : ∀ a ∈ es.map (fun e => (relEntry e.u e.r, relLink e)),
        (∃ t, a.1 = '<' :: t) ∧ EndsClean a.1 ∧
        ∀ tail, EndsClean tail → (tail = [] ∨ ∃ t, tail = ',' :: t) →
          parseLink urlParse L (a.1 ++ tail) =
            some (some a.2, TrimSpace (tail.drop 1), none) := by
      intro a ha
      obtain ⟨e, he, rfl⟩ := List.mem_map.1 ha
      obtain ⟨hu', hp', hr'⟩ := hes e he
      exact relEntry_accepted urlParse L hu' hp' hr'
    have hfst : (es.map (fun e => (relEntry e.u e.r, relLink e))).map Prod.fst =
        es.map (fun e => relEntry e.u e.r) := by
      simp [Function.comp_def]
    refine ⟨(es.map (fun e => (relEntry e.u e.r, relLink e))).foldl
      (fun m e => insertRels m e.2) [], ?_, ?_⟩
    · have hloop := ParseLoop_joinEntries urlParse L _ [] hgood
      rw [hfst] at hloop
      have hhead : relHeader es = joinEntries (es.map (fun e => relEntry e.u e.r)) := rfl
      rw [← hhead, ← TrimSpace_relHeader] at hloop
      exact Parse_of_loop urlParse L hloop
    · have hreach := LoopReaches_entriesThen urlParse L _ [] hgood hX hXc
      rw [hfst] at hreach
      have hA : ∃ t, entriesThen (es.map (fun e => relEntry e.u e.r)) ('<' :: (u ++ ['>'])) =
          '<' :: t := by
        apply entriesThen_head _ _ hX
        intro a ha
        obtain ⟨e, _, rfl⟩ := List.mem_map.1 ha
        exact ⟨_, rfl⟩
      have htrim : TrimSpace (entriesThen (es.map (fun e => relEntry e.u e.r))
          ('<' :: (u ++ '>' :: ws))) =
          entriesThen (es.map (fun e => relEntry e.u e.r)) ('<' :: (u ++ ['>'])) := by
        have e : '<' :: (u ++ '>' :: ws) = ('<' :: (u ++ ['>'])) ++ ws := by simp
        rw [e, entriesThen_append]
        exact TrimSpace_append_spaces hA (entriesThen_endsClean _ (by simp) hXc).2 hws
      rw [← htrim] at hreach
      exact Parse_of_reaches urlParse L hreach (hlast _)

/-- The header of C9 with one entry before the entry without parameters, and what
`Parse` returns for it and for the entry before alone. -/
theorem entriesThen_example :
    entriesThen [relEntry "/x".toList "next".toList] "<http://example.com/a> ".toList =
      "</x>; rel=\"next\", <http://example.com/a> ".toList ∧
    Parse idUrl asciiOnly "</x>; rel=\"next\", <http://example.com/a> ".toList =
      some ([("next".toList,
              { URI := "/x".toList, Attributes := [], rels := ["next".toList] })],
        some "no params found") ∧
    Parse idUrl asciiOnly "</x>; rel=\"next\"".toList =
      some ([("next".toList,
              { URI := "/x".toList, Attributes := [], rels := ["next".toList] })],
        none) := by
  refine ⟨by decide, by decide, by decide⟩

/-- A header outside the amended C9: the entry before the entry without parameters
is not accepted, because its unquoted value takes the comma, and `Parse` returns
the error of that entry. -/
theorem Parse_bare_entry_after_unquoted_example :
    Parse idUrl asciiOnly "<a>; rel=x, <b>".toList =
      some ([], some "params could not be parsed: expected '=' but found '<'") := by
  decide

/-- On the header `</x>; rel="next", <b> ` the top-level loop arrives, after the
first entry, at the entry `<b>` with the key `next` in the collection. -/
theorem LoopReaches_example :
    LoopReaches idUrl asciiOnly [] (TrimSpace "</x>; rel=\"next\", <b> ".toList)
      [("next".toList, { URI := "/x".toList, Attributes := [], rels := ["next".toList] })]
      ('<' :: (['b'] ++ ['>'])) := by
  have ht : TrimSpace "</x>; rel=\"next\", <b> ".toList = "</x>; rel=\"next\", <b>".toList := by
    decide
  have hl : parseLink idUrl asciiOnly "</x>; rel=\"next\", <b>".toList =
      some (some { URI := "/x".toList, Attributes := [], rels := ["next".toList] },
        "<b>".toList, none) := by
    decide
  have hr : TrimSpace "<b>".toList = '<' :: (['b'] ++ ['>']) := by decide
  have hi : insertRels ([] : Links Str)
      { URI := "/x".toList, Attributes := [], rels := ["next".toList] } =
      [("next".toList, { URI := "/x".toList, Attributes := [], rels := ["next".toList] })] := by
    decide
  rw [ht]
  refine LoopReaches.next (by decide) hl ?_
  rw [hr, hi]
  exact LoopReaches.here _ _

/-- C9 amended, at the header `<http://example.com/a>` followed by a space, alone
and after the entry `</x>; rel="next"`, and at the header `</x>; rel="next", <b> `
on which the loop arrives at `<b>`. -/
theorem Parse_no_params_witness :
    Parse idUrl asciiOnly "<http://example.com/a> ".toList =
      some ([], some "no params found") ∧
    (∀ (f : Nat) (acc : Links Str),
      ParseLoop idUrl asciiOnly (f + 1) acc "<http://example.com/a> ".toList =
        some (acc, some "no params found")) ∧
    (∃ links,
      Parse idUrl asciiOnly (relHeader
        [({ u := "/x".toList, r := "next".toList, uri := "/x".toList } : RelEntry Str)]) =
        some (links, none) ∧
      Parse idUrl asciiOnly (entriesThen
        ([({ u := "/x".toList, r := "next".toList, uri := "/x".toList } : RelEntry Str)].map
          (fun e => relEntry e.u e.r)) "<http://example.com/a> ".toList) =
        some (links, some "no params found")) ∧
    Parse idUrl asciiOnly "</x>; rel=\"next\", <b> ".toList =
      some ([("next".toList, { URI := "/x".toList, Attributes := [], rels := ["next".toList] })],
        some "no params found") :=
  ⟨(Parse_no_params idUrl asciiOnly "http://example.com/a".toList [' ']
      "http://example.com/a".toList (by decide) rfl (by decide)).1,
    (Parse_no_params idUrl asciiOnly "http://example.com/a".toList [' ']
      "http://example.com/a".toList (by decide) rfl (by decide)).2.1,
    (Parse_no_params idUrl asciiOnly "http://example.com/a".toList [' ']
      "http://example.com/a".toList (by decide) rfl (by decide)).2.2.2
      [{ u := "/x".toList, r := "next".toList, uri := "/x".toList }]
      (by simp [idUrl]),
    (Parse_no_params idUrl asciiOnly ['b'] [] ['b'] (by decide) rfl (by decide)).2.2.1
      "</x>; rel=\"next\", <b> ".toList _ LoopReaches_example⟩

/-- The defect behind C10, in general: when the first entry ends in an unquoted
relation directly followed by `,` and the next entry, the value parser consumes
the comma, the parameter loop goes on into the next entry, and `Parse` returns
the error `expected '=' but found '<'` and the empty collection. -/
theorem Parse_unquoted_rel_comma (u r t : Str) (uri : U) (hu : ∀ x ∈ u, x ≠ '>')
    (hp : urlParse u = .ok uri) (hr : ∀ x ∈ r, isDelim x = false)
    (hq : r.head? ≠ some '"') (ht : EndsClean ('<' :: t)) :
    Parse urlParse L ('<' :: (u ++ '>' :: (';' :: ([' '] ++ (['r', 'e', 'l'] ++ '=' ::
        (r ++ ',' :: (' ' :: '<' :: t))))))) =
      some ([], some "params could not be parsed: expected '=' but found '<'") := by
  have hc1 : EndsClean (',' :: (' ' :: '<' :: t)) :=
    endsClean_cons _ (by simp) (endsClean_cons _ (by simp) ht)
  have hq' : (r ++ ',' :: (' ' :: '<' :: t)).head? ≠ some '"' := by
    cases r with
    | nil => simp
    | cons c r' => simpa using hq
  have hparam : parseParam L ('<' :: t) = some (none, '<' :: t,
      some ("expected '=' but found '" ++ byteToString (utf8Lead '<') ++ "'")) :=
    @parseParam_no_eq L ('<' :: t) [] t '<' (by rw [TrimSpace_clean (by decide) ht]; rfl)
      (by simp) (by simp [isLetter]) (by decide)
  have hloop : parseParamsLoop L 2 { rels := [], attributes := [] }
      ([' '] ++ (['r', 'e', 'l'] ++ '=' :: (r ++ ',' :: (' ' :: '<' :: t)))) =
      some (addParam { rels := [], attributes := [] } { key := ['r', 'e', 'l'], value := r },
        '<' :: t, some ("expected '=' but found '" ++ byteToString (utf8Lead '<') ++ "'")) := by
    rw [parseParamsLoop_unquoted L 1 _ (by decide) (by simp [isLetter]) (by decide) hq' hr
      (by decide) hc1]
    have e : ' ' :: '<' :: t = [' '] ++ '<' :: t := rfl
    rw [e, TrimSpace_spaces_append (by decide), TrimSpace_clean (by decide) ht]
    exact parseParamsLoop_error L 0 _ (by decide) (by decide) hparam
  have hclean : EndsClean (';' :: ([' '] ++ (['r', 'e', 'l'] ++ '=' ::
      (r ++ ',' :: (' ' :: '<' :: t))))) := by
    have e : ';' :: ([' '] ++ (['r', 'e', 'l'] ++ '=' :: (r ++ ',' :: (' ' :: '<' :: t)))) =
        (';' :: ' ' :: 'r' :: 'e' :: 'l' :: '=' :: r) ++ (',' :: (' ' :: '<' :: t)) := by simp
    rw [e]
    exact endsClean_append _ (by simp) hc1
  have hlink := parseLink_params_error urlParse L hu hp (TrimSpace_clean (by decide) hclean)
    (parseParams_of_loop L hloop)
  have hwhole : TrimSpace ('<' :: (u ++ '>' :: (';' :: ([' '] ++ (['r', 'e', 'l'] ++ '=' ::
      (r ++ ',' :: (' ' :: '<' :: t))))))) =
      '<' :: (u ++ '>' :: (';' :: ([' '] ++ (['r', 'e', 'l'] ++ '=' ::
      (r ++ ',' :: (' ' :: '<' :: t)))))) := by
    apply TrimSpace_clean (by decide)
    have e : '<' :: (u ++ '>' :: (';' :: ([' '] ++ (['r', 'e', 'l'] ++ '=' ::
        (r ++ ',' :: (' ' :: '<' :: t)))))) =
        ('<' :: (u ++ ['>'])) ++ (';' :: ([' '] ++ (['r', 'e', 'l'] ++ '=' ::
        (r ++ ',' :: (' ' :: '<' :: t))))) := by simp
    rw [e]
    exact endsClean_append _ (by simp) hclean
  rw [← hwhole] at hlink
  rw [Parse_first_error urlParse L (by rw [hwhole]; simp) hlink]
  rfl

/-- C10, the code at the failing input `<a>; rel=x, <b>; rel=y`: `Parse` returns
an error and the empty collection, where the claim has the keys `x` and `y`. -/
theorem Parse_unquoted_rel_comma_example :
    Parse idUrl asciiOnly "<a>; rel=x, <b>; rel=y".toList =
      some ([], some "params could not be parsed: expected '=' but found '<'") ∧
    parseParamValue "x, <b>; rel=y".toList = some (['x'], " <b>; rel=y".toList, none) ∧
    Parse idUrl asciiOnly "<a>; rel=\"x\", <b>; rel=\"y\"".toList =
      some ([(['y'], { URI := ['b'], Attributes := [], rels := [['y']] }),
             (['x'], { URI := ['a'], Attributes := [], rels := [['x']] })], none) := by
  refine ⟨by decide, by decide, by decide⟩

/-- C11: for every header `<u1>; rel="r", <u2>; rel="r"` of two entries with the
same relation (no `>` in `u1`, `u2`, both accepted by the URI parser, no space or
double quote in `r`), `Parse` returns no error and a collection with the single key
`r`, whose entry is the second one: its target is the URI parsed from `u2`.  In
general, an entry inserted later replaces, under each of its relations, what was
stored before. -/
theorem Parse_last_write_wins (u1 u2 r : Str) (uri1 uri2 : U)
    (hu1 : ∀ x ∈ u1, x ≠ '>') (hp1 : urlParse u1 = .ok uri1)
    (hu2 : ∀ x ∈ u2, x ≠ '>') (hp2 : urlParse u2 = .ok uri2)
    (hr : ∀ x ∈ r, x ≠ ' ' ∧ x ≠ '"') :
    (∃ links link,
      Parse urlParse L (relHeader [{ u := u1, r := r, uri := uri1 },
        { u := u2, r := r, uri := uri2 }]) = some (links, none) ∧
      mapKeys links = [r] ∧ mapGet links r = some link ∧
      link.URI = uri2 ∧ link.Attributes = [] ∧ link.rels = [r]) ∧
    ∀ (acc : Links U) (link1 link2 : Link U) (k : Str), k ∈ link2.rels →
      mapGet (insertRels (insertRels acc link1) link2) k = some link2 := by
  constructor
  · have hloop := ParseLoop_joinEntries urlParse L
      [(relEntry u1 r, { URI := uri1, Attributes := [], rels := [r] }),
       (relEntry u2 r, { URI := uri2, Attributes := [], rels := [r] })] []
      (by
        intro e he
        simp only [List.mem_cons, List.mem_singleton, List.not_mem_nil, or_false] at he
        rcases he with rfl | rfl
        · exact relEntry_accepted urlParse L hu1 hp1 hr
        · exact relEntry_accepted urlParse L hu2 hp2 hr)
    have hhead : relHeader [({ u := u1, r := r, uri := uri1 } : RelEntry U),
        { u := u2, r := r, uri := uri2 }] =
        joinEntries ([(relEntry u1 r, ({ URI := uri1, Attributes := [], rels := [r] } : Link U)),
          (relEntry u2 r, { URI := uri2, Attributes := [], rels := [r] })].map Prod.fst) := by
      simp [relHeader, joinEntries]
    rw [← hhead, ← TrimSpace_relHeader] at hloop
    refine ⟨_, { URI := uri2, Attributes := [], rels := [r] },
      Parse_of_loop urlParse L hloop, ?_, ?_, rfl, rfl, rfl⟩
    · simp [insertRels, mapSet, mapKeys]
    · simp [insertRels, mapSet, mapGet]
  · intro acc link1 link2 k hk
    exact mapGet_insertRels_mem _ _ hk

/-- C11 at the header `<a>; rel="next", <b>; rel="next"`. -/
theorem Parse_last_write_wins_witness :
    (∃ links link,
      Parse idUrl asciiOnly (relHeader [{ u := ['a'], r := "next".toList, uri := ['a'] },
        { u := ['b'], r := "next".toList, uri := ['b'] }]) = some (links, none) ∧
      mapKeys links = ["next".toList] ∧ mapGet links "next".toList = some link ∧
      link.URI = ['b'] ∧ link.Attributes = [] ∧ link.rels = ["next".toList]) ∧
    ∀ (acc : Links Str) (link1 link2 : Link Str) (k : Str), k ∈ link2.rels →
      mapGet (insertRels (insertRels acc link1) link2) k = some link2 :=
  Parse_last_write_wins idUrl asciiOnly ['a'] ['b'] "next".toList ['a'] ['b']
    (by decide) rfl (by decide) rfl (by decide)

/-- C12: for every header of entries `<u_i>; k_i="v_i"` joined by `", "` (no `>`
in `u_i`, `u_i` accepted by the URI parser, `k_i` a run of letters other than
`rel`, no double quote in `v_i`), `Parse` returns no error and the empty
collection; the top-level loop returns the collection it started with, so these
entries add no key. -/
theorem Parse_no_rel (hL : ∀ x, L x = true → isSpace x = false) (es : List (AttrEntry U))
    (hes : ∀ e ∈ es, (∀ x ∈ e.u, x ≠ '>') ∧ urlParse e.u = .ok e.uri ∧
      (∀ x ∈ e.k, isLetter L x = true) ∧ e.k ≠ ['r', 'e', 'l'] ∧ ∀ x ∈ e.v, x ≠ '"') :
    Parse urlParse L (attrHeader es) = some ([], none) ∧
    ∀ acc : Links U,
      ParseLoop urlParse L (es.length + 1) acc (attrHeader es) = some (acc, none) := by
  have hloop : ∀ acc : Links U,
      ParseLoop urlParse L (es.length + 1) acc (attrHeader es) = some (acc, none) := by
    intro acc
    have h := ParseLoop_joinEntries urlParse L
      (es.map (fun e => (attrEntry e.u e.k e.v, applyAnchor urlParse
        { URI := e.uri,
          Attributes := (addParam { rels := [], attributes := [] }
            { key := e.k, value := e.v }).attributes,
          rels := (addParam { rels := [], attributes := [] }
            { key := e.k, value := e.v }).rels }))) acc
      (by
        intro a ha
        obtain ⟨e, he, rfl⟩ := List.mem_map.1 ha
        obtain ⟨hu, hp, hk, _, hv⟩ := hes e he
        exact ⟨⟨_, rfl⟩, attrEntry_endsClean _ _ _,
          fun _ ht hc => parseLink_attrEntry urlParse L hL hu hp hk hv ht hc⟩)
    rw [foldl_insertRels_nil] at h
    · simpa [attrHeader, Function.comp_def] using h
    · intro a ha
      obtain ⟨e, he, rfl⟩ := List.mem_map.1 ha
      obtain ⟨_, _, _, hne, _⟩ := hes e he
      simp [applyAnchor_rels, addParam, hne]
  refine ⟨?_, hloop⟩
  have htrim : TrimSpace (attrHeader es) = attrHeader es := by
    apply TrimSpace_joinEntries
    intro a ha
    obtain ⟨e, _, rfl⟩ := List.mem_map.1 ha
    exact ⟨⟨_, rfl⟩, attrEntry_endsClean _ _ _⟩
  have h := hloop []
  rw [← htrim] at h
  exact Parse_of_loop urlParse L h

/-- The header of C12 for two entries. -/
theorem attrHeader_example :
    attrHeader [({ u := "/a".toList, k := "title".toList, v := "x, y".toList,
                   uri := "/a".toList } : AttrEntry Str),
                { u := "/b".toList, k := "anchor".toList, v := "/c".toList,
                  uri := "/b".toList }] =
      "</a>; title=\"x, y\", </b>; anchor=\"/c\"".toList := by
  decide

/-- C12 at the header `</a>; title="x, y", </b>; anchor="/c"`. -/
theorem Parse_no_rel_witness :
    Parse idUrl asciiOnly (attrHeader
      [{ u := "/a".toList, k := "title".toList, v := "x, y".toList, uri := "/a".toList },
       { u := "/b".toList, k := "anchor".toList, v := "/c".toList, uri := "/b".toList }]) =
      some ([], none) ∧
    ∀ acc : Links Str,
      ParseLoop idUrl asciiOnly (2 + 1) acc (attrHeader
        [{ u := "/a".toList, k := "title".toList, v := "x, y".toList, uri := "/a".toList },
         { u := "/b".toList, k := "anchor".toList, v := "/c".toList, uri := "/b".toList }]) =
        some (acc, none) :=
  Parse_no_rel idUrl asciiOnly (by simp [asciiOnly])
    [{ u := "/a".toList, k := "title".toList, v := "x, y".toList, uri := "/a".toList },
     { u := "/b".toList, k := "anchor".toList, v := "/c".toList, uri := "/b".toList }]
    (by simp [idUrl, isLetter])

/-- C13: in the top-level loop, when `parseLink` returns an error on the
remaining string, the loop returns that error with the collection accumulated so
far, unchanged; when the first entry fails the collection is empty; and for
`<u1>; rel="r", <u2` the result is the single key `r` with the error of the second
entry. -/
theorem Parse_error_keeps_entries :
    (∀ (f : Nat) (acc : Links U) (s r : Str) (x : Option (Link U)) (e : String),
      s ≠ [] → parseLink urlParse L s = some (x, r, some e) →
      ParseLoop urlParse L (f + 1) acc s = some (acc, some e)) ∧
    (∀ (s r : Str) (x : Option (Link U)) (e : String), TrimSpace s ≠ [] →
      parseLink urlParse L (TrimSpace s) = some (x, r, some e) →
      Parse urlParse L s = some ([], some e)) ∧
    (∀ (u1 r u2 : Str) (uri1 : U), (∀ x ∈ u1, x ≠ '>') → urlParse u1 = .ok uri1 →
      (∀ x ∈ r, x ≠ ' ' ∧ x ≠ '"') → (∀ x ∈ u2, x ≠ '>') → EndsClean ('<' :: u2) →
      Parse urlParse L (relEntry u1 r ++ ',' :: ' ' :: '<' :: u2) =
        some ([(r, { URI := uri1, Attributes := [], rels := [r] })],
          some "link does not end with >")) := by
  refine ⟨?_, ?_, ?_⟩
  · intro f acc s r x e hs h
    exact ParseLoop_error urlParse L f acc hs h
  · intro s r x e hs h
    exact Parse_first_error urlParse L hs h
  · intro u1 r u2 uri1 hu1 hp1 hr hu2 hc2
    have htail : EndsClean (',' :: ' ' :: '<' :: u2) :=
      endsClean_cons _ (by simp) (endsClean_cons _ (by simp) hc2)
    have hlink := parseLink_relEntry urlParse L hu1 hp1 hr htail (Or.inr ⟨_, rfl⟩)
    have hwhole : TrimSpace (relEntry u1 r ++ ',' :: ' ' :: '<' :: u2) =
        relEntry u1 r ++ ',' :: ' ' :: '<' :: u2 := by
      have e : relEntry u1 r ++ ',' :: ' ' :: '<' :: u2 =
          '<' :: ((u1 ++ ['>', ';', ' ', 'r', 'e', 'l', '=', '"'] ++ (r ++ ['"'])) ++
            ',' :: ' ' :: '<' :: u2) := by simp [relEntry]
      rw [e]
      exact TrimSpace_clean (by decide) (endsClean_cons _ (by simp)
        (endsClean_append _ (by simp) htail))
    have hrest : TrimSpace (TrimSpace (List.drop 1 (',' :: ' ' :: '<' :: u2))) = '<' :: u2 := by
      have e : List.drop 1 (',' :: ' ' :: '<' :: u2) = [' '] ++ '<' :: u2 := by simp
      rw [e, TrimSpace_spaces_append (by decide), TrimSpace_clean (by decide) hc2,
        TrimSpace_clean (by decide) hc2]
    have hloop : ParseLoop urlParse L 2 [] (TrimSpace (relEntry u1 r ++ ',' :: ' ' :: '<' :: u2)) =
        some ([(r, { URI := uri1, Attributes := [], rels := [r] })],
          some "link does not end with >") := by
      rw [hwhole, ParseLoop_ok urlParse L 1 [] (by simp [relEntry]) hlink, hrest,
        ParseLoop_error urlParse L 0 _ (by simp) (parseLink_no_close urlParse L hu2)]
      simp [insertRels, mapSet]
    exact Parse_of_loop urlParse L hloop

/-- C13 at the header `<a>; rel="next", <b` and at `<b`. -/
theorem Parse_error_keeps_entries_witness :
    Parse idUrl asciiOnly (relEntry ['a'] "next".toList ++ ',' :: ' ' :: '<' :: ['b']) =
      some ([("next".toList, { URI := ['a'], Attributes := [], rels := ["next".toList] })],
        some "link does not end with >") ∧
    Parse idUrl asciiOnly "<b".toList = some ([], some "link does not end with >") :=
  ⟨(Parse_error_keeps_entries idUrl asciiOnly).2.2 ['a'] "next".toList ['b'] ['a']
      (by decide) rfl (by decide) (by decide) (endsClean_cons _ (by simp)
        (endsClean_singleton (by decide))),
    (Parse_error_keeps_entries idUrl asciiOnly).2.1 "<b".toList ['b'] none
      "link does not end with >" (by decide) (by decide)⟩

/-- C14, the code at strings that start with a character that is not a letter:
`parseToken` returns the empty token, the whole string as remainder, and no error;
so `Parse` accepts the parameter `="v"` with an empty key. -/
theorem parseToken_empty_token_example :
    parseToken asciiOnly "*=x".toList = some ([], "*=x".toList, none) ∧
    parseToken asciiOnly "9".toList = some ([], "9".toList, none) ∧
    parseToken asciiOnly "-a".toList = some ([], "-a".toList, none) ∧
    parseToken asciiOnly "=v".toList = some ([], "=v".toList, none) ∧
    parseParam asciiOnly "=\"v\"".toList = some (some { key := [], value := ['v'] }, [], none) ∧
    Parse idUrl asciiOnly "<u>; =\"v\"".toList = some ([], none) := by
  refine ⟨by decide, by decide, by decide, by decide, by decide, by decide⟩

/-- C15, the code at a parameter that ends after its key: `parseToken` finds no
character that is not a letter and returns `no token found`, so `parseParam` does
not reach its test for the end of the string. -/
theorem parseParam_key_only_example :
    parseToken asciiOnly "rel".toList = some ([], "rel".toList, some "no token found") ∧
    parseParam asciiOnly "rel".toList = some (none, "rel".toList, some "no token found") ∧
    Parse idUrl asciiOnly "<u>; rel".toList =
      some ([], some "params could not be parsed: no token found") := by
  refine ⟨by decide, by decide, by decide⟩

/-- C16: `parseParamValue` returns an error exactly on the strings that start
with a double quote and hold no other double quote, and the error is
`expected " but found none`; a header whose first entry has, after any number of
well-formed parameters, a parameter `k="v` with no double quote in `v` up to the
end of the header makes `Parse` fail with
`params could not be parsed: could not parse param value: expected " but found none`. -/
theorem parseParamValue_fails_iff (hL : ∀ x, L x = true → isSpace x = false) (v : Str)
    (hv : ∀ x ∈ v, x ≠ '"') :
    parseParamValue ('"' :: v) = some ([], [], some "expected \" but found none") ∧
    (∀ s, (∃ x r e, parseParamValue s = some (x, r, some e)) ↔
      ∃ t, s = '"' :: t ∧ ∀ x ∈ t, x ≠ '"') ∧
    (∀ (u : Str) (ps : List (Str × Str)) (k : Str) (uri : U),
      (∀ x ∈ u, x ≠ '>') → urlParse u = .ok uri →
      (∀ kv ∈ ps, ∀ x ∈ kv.1, isLetter L x = true) → (∀ kv ∈ ps, ∀ x ∈ kv.2, x ≠ '"') →
      (∀ x ∈ k, isLetter L x = true) →
      Parse urlParse L (unterminatedEntry u ps k v) =
        some ([], some ("params could not be parsed: could not parse param value: " ++
          "expected \" but found none"))) := by
  refine ⟨parseParamValue_unterminated hv, ?_, ?_⟩
  · intro s
    rcases parseParamValue_cases s with ⟨t, rfl, ht, h⟩ | ⟨t, r, rfl, ht, h⟩ | ⟨hq, _, h⟩ |
      ⟨a, d, b, rfl, hq, _, _, h⟩
    · exact ⟨fun _ => ⟨t, rfl, ht⟩, fun _ => ⟨_, _, _, h⟩⟩
    · constructor
      · rintro ⟨x, r', e, he⟩
        rw [h] at he
        simp at he
      · rintro ⟨t', ht', hno⟩
        have e : t' = t ++ '"' :: r := by simpa using ht'.symm
        exact absurd rfl (hno '"' (by rw [e]; simp))
    · constructor
      · rintro ⟨x, r', e, he⟩
        rw [h] at he
        simp at he
      · rintro ⟨t', ht', _⟩
        rw [ht'] at hq
        simp at hq
    · constructor
      · rintro ⟨x, r', e, he⟩
        rw [h] at he
        simp at he
      · rintro ⟨t', ht', _⟩
        rw [ht'] at hq
        simp at hq
  · intro u ps k uri hu hp hpk hpv hk
    obtain ⟨r, hr, hclean⟩ := @rdropWhile_keep '"' v (Or.inl (by decide))
    have hrv : ∀ x ∈ r, x ≠ '"' := by
      have hpre : ('"' :: v).rdropWhile isSpace <+: '"' :: v := List.rdropWhile_prefix _ _
      rw [hr] at hpre
      obtain ⟨t, ht⟩ := hpre
      have e : v = r ++ t := by simpa using ht.symm
      intro x hx
      exact hv x (by rw [e]; simp [hx])
    have hks : ∀ x ∈ k, isSpace x = false := fun x hx => isLetter_not_space hL (hk x hx)
    have hX : k ++ '=' :: '"' :: r ≠ [] := by simp
    have hXc : EndsClean (k ++ '=' :: '"' :: r) := by
      have : k ++ '=' :: '"' :: r = (k ++ ['=']) ++ '"' :: r := by simp
      rw [this]
      exact endsClean_append _ (by simp) hclean
    obtain ⟨hne, hc⟩ := paramsThen_clean ps hX hXc
    have htrim : TrimSpace (unterminatedEntry u ps k v) = unterminatedEntry u ps k r := by
      unfold TrimSpace unterminatedEntry
      rw [List.dropWhile_cons_of_neg (by decide)]
      have e1 : ∀ w : Str, '<' :: (u ++ ['>', ';', ' '] ++ paramsThen ps (k ++ '=' :: '"' :: w)) =
          ('<' :: (u ++ ['>', ';', ' '] ++ paramsThen ps (k ++ ['=']))) ++ '"' :: w := by
        intro w
        have : k ++ '=' :: '"' :: w = (k ++ ['=']) ++ '"' :: w := by simp
        rw [this, paramsThen_append]
        simp
      rw [e1 v, e1 r, rdropWhile_append_of_ne_nil _ _ _ (by rw [hr]; simp), hr]
    have hshape : unterminatedEntry u ps k r =
        '<' :: (u ++ '>' :: (';' :: ([' '] ++ paramsThen ps (k ++ '=' :: '"' :: r)))) := by
      simp [unterminatedEntry]
    have htail : TrimSpace (';' :: ([' '] ++ paramsThen ps (k ++ '=' :: '"' :: r))) =
        ';' :: ([' '] ++ paramsThen ps (k ++ '=' :: '"' :: r)) :=
      TrimSpace_clean (by decide) (endsClean_cons _ (by simp) (endsClean_append _ hne hc))
    have hparams : ∃ p' rest, parseParams L ([' '] ++ paramsThen ps (k ++ '=' :: '"' :: r)) =
        some (p', rest, some ("could not parse param value: " ++
          "expected \" but found none")) := by
      cases ps with
      | nil =>
        exact ⟨_, _, parseParams_of_loop L
          (parseParamsLoop_unterminated L 0 _ (by decide) hk hks hrv hclean)⟩
      | cons kv ps' =>
        have h1 := parseParamsLoop_lead_paramsThen L hL
          (show ∀ x ∈ [' '], isSpace x = true by decide) kv ps'
          { rels := [], attributes := [] } 1 hpk hpv hX hXc
        have h2 := @parseParamsLoop_unterminated L 0
          ((kv :: ps').foldl (fun acc a => addParam acc { key := a.1, value := a.2 })
            { rels := [], attributes := [] }) [] k r (by simp) hk hks hrv hclean
        rw [List.nil_append] at h2
        have h3 : TrimSpace (k ++ '=' :: '"' :: r) = k ++ '=' :: '"' :: r := by
          have := @TrimSpace_param [] k ('"' :: r) (by simp) hks hXc
          simpa using this
        rw [h3, h2] at h1
        exact ⟨_, _, parseParams_of_loop L h1⟩
    obtain ⟨p', rest, hps⟩ := hparams
    have hlink := parseLink_params_error urlParse L hu hp htail hps
    rw [← hshape, ← htrim] at hlink
    rw [Parse_first_error urlParse L (by rw [htrim, hshape]; simp) hlink]
    rfl

/-- The header of C16 with one well-formed parameter before the unterminated
one. -/
theorem unterminatedEntry_example :
    unterminatedEntry "/a".toList [("rel".toList, "next".toList)] "title".toList
        "x, y; z ".toList =
      "</a>; rel=\"next\"; title=\"x, y; z ".toList := by
  decide

/-- C16 at the header `</a>; rel="next"; title="x, y; z `. -/
theorem parseParamValue_fails_iff_witness :
    Parse idUrl asciiOnly (unterminatedEntry "/a".toList [("rel".toList, "next".toList)]
        "title".toList "x, y; z ".toList) =
      some ([], some ("params could not be parsed: could not parse param value: " ++
        "expected \" but found none")) :=
  (parseParamValue_fails_iff idUrl asciiOnly (by simp [asciiOnly]) "x, y; z ".toList
    (by decide)).2.2 "/a".toList [("rel".toList, "next".toList)] "title".toList "/a".toList
    (by decide) rfl (by decide) (by decide) (by decide)

/-- C20: for every entry `<u>; rel="a"; rel="b"` (no `>` in `u`, `u` accepted by
the URI parser, no double quote in `a` and `b`), `Parse` returns no error, the
relations of the entry are the segments of `b` split at single spaces, and the keys
of the collection are exactly these; when `b` has no space the only key is `b`, and
when also `a` differs from `b`, `a` is not a key. -/
theorem Parse_last_rel (u a b : Str) (uri : U) (hu : ∀ x ∈ u, x ≠ '>')
    (hp : urlParse u = .ok uri) (ha : ∀ x ∈ a, x ≠ '"') (hb : ∀ x ∈ b, x ≠ '"') :
    ∃ links link, Parse urlParse L (twoRelEntry u a b) = some (links, none) ∧
      link.URI = uri ∧ link.rels = Split b ∧
      (∀ k, k ∈ mapKeys links ↔ k ∈ Split b) ∧
      (∀ k ∈ Split b, mapGet links k = some link) ∧
      ((∀ x ∈ b, x ≠ ' ') → mapKeys links = [b] ∧ (a ≠ b → mapGet links a = none)) := by
  have hshape : twoRelEntry u a b =
      '<' :: (u ++ '>' :: (';' :: ([' '] ++ (['r', 'e', 'l'] ++ '=' :: '"' :: (a ++ '"' ::
        (';' :: ([' '] ++ (['r', 'e', 'l'] ++ '=' :: '"' :: (b ++ '"' :: []))))))))) := by
    simp [twoRelEntry, quotedParam]
  have hrel : ∀ x ∈ ['r', 'e', 'l'], isLetter L x = true := by simp [isLetter]
  have ht1 : EndsClean
      (';' :: ([' '] ++ (['r', 'e', 'l'] ++ '=' :: '"' :: (b ++ '"' :: [])))) := by
    have : ';' :: ([' '] ++ (['r', 'e', 'l'] ++ '=' :: '"' :: (b ++ '"' :: []))) =
        (';' :: ' ' :: 'r' :: 'e' :: 'l' :: '=' :: '"' :: b) ++ ['"'] := by simp
    rw [this]
    exact endsClean_append _ (by simp) (endsClean_singleton (by decide))
  have htrim : TrimSpace (';' :: ([' '] ++ (['r', 'e', 'l'] ++ '=' :: '"' :: (a ++ '"' ::
      (';' :: ([' '] ++ (['r', 'e', 'l'] ++ '=' :: '"' :: (b ++ '"' :: []))))))))  =
      ';' :: ([' '] ++ (['r', 'e', 'l'] ++ '=' :: '"' :: (a ++ '"' ::
      (';' :: ([' '] ++ (['r', 'e', 'l'] ++ '=' :: '"' :: (b ++ '"' :: []))))))) := by
    apply TrimSpace_clean (by decide)
    have : ';' :: ([' '] ++ (['r', 'e', 'l'] ++ '=' :: '"' :: (a ++ '"' ::
        (';' :: ([' '] ++ (['r', 'e', 'l'] ++ '=' :: '"' :: (b ++ '"' :: []))))))) =
        (';' :: ' ' :: 'r' :: 'e' :: 'l' :: '=' :: '"' :: a ++ ['"']) ++
        (';' :: ([' '] ++ (['r', 'e', 'l'] ++ '=' :: '"' :: (b ++ '"' :: [])))) := by
      simp
    rw [this]
    exact endsClean_append _ (by simp) ht1
  have hloop : parseParamsLoop L 4 { rels := [], attributes := [] }
      ([' '] ++ (['r', 'e', 'l'] ++ '=' :: '"' :: (a ++ '"' ::
        (';' :: ([' '] ++ (['r', 'e', 'l'] ++ '=' :: '"' :: (b ++ '"' :: []))))))) =
      some ({ rels := Split b, attributes := [] }, [], none) := by
    rw [parseParamsLoop_quoted L 3 _ (by decide) hrel (by decide) ha ht1]
    rw [TrimSpace_clean (by decide) ht1, parseParamsLoop_semi]
    rw [parseParamsLoop_trim_quoted L 1 _ (by decide) hrel (by decide) hb endsClean_nil]
    simp [TrimSpace_nil, parseParamsLoop_nil, addParam]
  have hlink := parseLink_params_ok urlParse L hu hp htrim (parseParams_of_loop L hloop)
  rw [← hshape] at hlink
  simp only [applyAnchor_nil] at hlink
  have hclean : EndsClean (twoRelEntry u a b) := by
    have : twoRelEntry u a b = ('<' :: (u ++ ['>', ';', ' '] ++
        (quotedParam ['r', 'e', 'l'] a ++ [';', ' '] ++
          (['r', 'e', 'l'] ++ '=' :: '"' :: b)))) ++ ['"'] := by
      simp [twoRelEntry, quotedParam]
    rw [this]
    exact endsClean_append _ (by simp) (endsClean_singleton (by decide))
  have hparse := Parse_single urlParse L (TrimSpace_clean (by decide) hclean)
    (by simp [twoRelEntry]) hlink TrimSpace_nil
  refine ⟨_, { URI := uri, Attributes := [], rels := Split b }, hparse, rfl, rfl, ?_, ?_, ?_⟩
  · intro k
    rw [mem_mapKeys_insertRels]
    simp [mapKeys]
  · intro k hk
    exact mapGet_insertRels_mem _ _ hk
  · intro hsp
    have hkeys : mapKeys (insertRels ([] : Links U)
        { URI := uri, Attributes := [], rels := Split b }) = [b] := by
      simp [insertRels, Split_no_space hsp, mapSet, mapKeys]
    refine ⟨hkeys, ?_⟩
    intro hab
    apply mapGet_eq_none
    rw [hkeys]
    simpa using hab

/-- The text of C20 for `a = prev`, `b = next`. -/
theorem twoRelEntry_example :
    twoRelEntry "/x".toList "prev".toList "next".toList =
      "</x>; rel=\"prev\"; rel=\"next\"".toList := by
  decide

/-- C20 at the entry `</x>; rel="prev"; rel="next"`. -/
theorem Parse_last_rel_witness :
    ∃ links link, Parse idUrl asciiOnly
        (twoRelEntry "/x".toList "prev".toList "next".toList) = some (links, none) ∧
      link.URI = "/x".toList ∧ link.rels = Split "next".toList ∧
      (∀ k, k ∈ mapKeys links ↔ k ∈ Split "next".toList) ∧
      (∀ k ∈ Split "next".toList, mapGet links k = some link) ∧
      ((∀ x ∈ "next".toList, x ≠ ' ') →
        mapKeys links = ["next".toList] ∧
          ("prev".toList ≠ "next".toList → mapGet links "prev".toList = none)) :=
  Parse_last_rel idUrl asciiOnly "/x".toList "prev".toList "next".toList "/x".toList
    (by decide) rfl (by decide) (by decide)

/-- C17: `Parse` returns on every input, and so does `parseParams`; the fuel
`len + 1` of the loop models is enough, more fuel gives the same result.  When
`parseLink` returns no error what it leaves is strictly shorter than its input,
and so for `parseParam`; every iteration of either loop returns whatever the fuel,
or goes on with a strictly shorter string. -/
theorem Parse_terminates :
    (∀ s, ∃ links err, Parse urlParse L s = some (links, err)) ∧
    (∀ s f, (TrimSpace s).length + 1 ≤ f →
      ParseLoop urlParse L f [] (TrimSpace s) = Parse urlParse L s) ∧
    (∀ s, ∃ p r e, parseParams L s = some (p, r, e)) ∧
    (∀ s f p, s.length + 1 ≤ f → ∃ r, parseParamsLoop L f p s = some r ∧
      parseParamsLoop L (s.length + 1) p s = some r) ∧
    (∀ s x rest, parseLink urlParse L s = some (x, rest, none) → rest.length < s.length) ∧
    (∀ s x rest, parseParam L s = some (x, rest, none) → rest.length < s.length) ∧
    (∀ (p : params) (s : Str),
      (∃ r, ∀ f, parseParamsLoop L (f + 1) p s = some r) ∨
      (∃ p' s', s'.length < s.length ∧
        ∀ f, parseParamsLoop L (f + 1) p s = parseParamsLoop L f p' s')) ∧
    (∀ (acc : Links U) (s : Str),
      (∃ r, ∀ f, ParseLoop urlParse L (f + 1) acc s = some r) ∨
      (∃ acc' s', s'.length < s.length ∧
        ∀ f, ParseLoop urlParse L (f + 1) acc s = ParseLoop urlParse L f acc' s')) := by
  refine ⟨?_, ?_, ?_, ?_, ?_, ?_, ?_, ?_⟩
  · intro s
    obtain ⟨⟨links, err⟩, h⟩ := ParseLoop_total urlParse L ((TrimSpace s).length + 1) []
      (TrimSpace s) (by omega)
    exact ⟨links, err, h⟩
  · intro s f hf
    obtain ⟨r, h⟩ := ParseLoop_total urlParse L ((TrimSpace s).length + 1) []
      (TrimSpace s) (by omega)
    rw [Parse_of_loop urlParse L h]
    exact ParseLoop_mono urlParse L hf h
  · intro s
    obtain ⟨p, r, e, h, _⟩ := parseParams_total L s
    exact ⟨p, r, e, h⟩
  · intro s f p hf
    obtain ⟨p', r, e, h, _⟩ := parseParamsLoop_total L (s.length + 1) p s (by omega)
    exact ⟨_, parseParamsLoop_mono L hf h, h⟩
  · intro s x rest h
    have hne : s ≠ [] := by
      rintro rfl
      rw [parseLink_nil] at h
      cases h
    rcases parseLink_cases urlParse L s hne with ⟨x', r', e, hp⟩ |
      ⟨_, _, _, _, _, rest', _, _, _, _, _, hp, hl, _⟩
    · rw [h] at hp
      simp at hp
    · rw [h] at hp
      have hr : rest = rest' := (Prod.mk.inj (Prod.mk.inj (Option.some.inj hp)).2).1
      rw [hr]
      exact hl
  · intro s x rest h
    rcases parseParam_cases L s with ⟨r', e, hp⟩ | ⟨q, r', hp, hl, _⟩
    · rw [h] at hp
      simp at hp
    · rw [h] at hp
      have hr : rest = r' := (Prod.mk.inj (Prod.mk.inj (Option.some.inj hp)).2).1
      rw [hr]
      exact hl
  · intro p s
    cases s with
    | nil => exact Or.inl ⟨_, fun f => parseParamsLoop_nil L f p⟩
    | cons c t =>
      have ht := TrimSpace_length_le t
      by_cases h1 : c = ','
      · subst h1
        exact Or.inl ⟨_, fun f => parseParamsLoop_comma L f p t⟩
      · by_cases h2 : c = ';'
        · subst h2
          exact Or.inr ⟨p, TrimSpace t, by simp; omega,
            fun f => parseParamsLoop_semi L f p t⟩
        · rcases parseParam_cases L (c :: t) with ⟨r', e, hp⟩ | ⟨q, r', hp, hl, _⟩
          · exact Or.inl ⟨_, fun f => parseParamsLoop_error L f p h1 h2 hp⟩
          · have hr := TrimSpace_length_le r'
            exact Or.inr ⟨addParam p q, TrimSpace r', by omega,
              fun f => parseParamsLoop_param L f p h1 h2 hp⟩
  · intro acc s
    by_cases hs : s = []
    · subst hs
      exact Or.inl ⟨_, fun f => ParseLoop_nil urlParse L f acc⟩
    · rcases parseLink_cases urlParse L s hs with ⟨x, r', e, hp⟩ |
        ⟨_, _, _, _, _, rest, _, _, _, _, _, hp, hl, _⟩
      · exact Or.inl ⟨_, fun f => ParseLoop_error urlParse L f acc hs hp⟩
      · have hr := TrimSpace_length_le rest
        exact Or.inr ⟨_, TrimSpace rest, by omega,
          fun f => ParseLoop_ok urlParse L f acc hs hp⟩

/-- C17 at the header of the test "parses nonquoted params" and at a truncated
header. -/
theorem Parse_terminates_witness :
    (∃ links err, Parse idUrl asciiOnly
      "<http://example.com/c31>; rel=\"last\"; type=text/html; media=screen ; hreflang=en/us".toList
        = some (links, err)) ∧
    (∃ links err, Parse idUrl asciiOnly "<a>; rel=\"x\", <b>; rel=\"".toList =
      some (links, err)) :=
  ⟨(Parse_terminates idUrl asciiOnly).1 _, (Parse_terminates idUrl asciiOnly).1 _⟩

/-- C18: `Parse` returns a collection and an error value on every input: no index
or slice is out of range.  `parseLink` fails to return only on the empty string,
on which the top-level loop returns without calling it; `parseToken`,
`parseParamValue`, `parseParam` and `parseParams` return on every string; and the
slice `rest[1:]` after a quoted value is taken of a string that starts with the
closing quote. -/
theorem Parse_total :
    (∀ s, ∃ links err, Parse urlParse L s = some (links, err)) ∧
    (∀ s, parseLink urlParse L s = none ↔ s = []) ∧
    (∀ s, byteAt0 s = none ↔ s = []) ∧
    (∀ f (acc : Links U), ParseLoop urlParse L (f + 1) acc [] = some (acc, none)) ∧
    (∀ s, ∃ t r e, parseToken L s = some (t, r, e)) ∧
    (∀ s, ∃ v r e, parseParamValue s = some (v, r, e)) ∧
    (∀ s, ∃ x r e, parseParam L s = some (x, r, e)) ∧
    (∀ s, ∃ p r e, parseParams L s = some (p, r, e)) ∧
    (∀ s s1 i, HasPrefix s ['"'] = true → sliceFrom s 1 = some s1 → Index s1 '"' = some i →
      ∃ r, sliceFrom s (i + 1) = some ('"' :: r) ∧ sliceFrom ('"' :: r) 1 = some r) := by
  refine ⟨?_, ?_, ?_, ?_, ?_, ?_, ?_, ?_, ?_⟩
  · intro s
    obtain ⟨⟨links, err⟩, h⟩ := ParseLoop_total urlParse L ((TrimSpace s).length + 1) []
      (TrimSpace s) (by omega)
    exact ⟨links, err, h⟩
  · intro s
    constructor
    · intro h
      by_contra hne
      rcases parseLink_cases urlParse L s hne with ⟨x, r, e, hp⟩ |
        ⟨_, _, _, _, _, _, _, _, _, _, _, hp, _⟩
      · rw [h] at hp; cases hp
      · rw [h] at hp; cases hp
    · rintro rfl
      exact parseLink_nil urlParse L
  · intro s
    cases s <;> simp [byteAt0]
  · intro f acc
    exact ParseLoop_nil urlParse L f acc
  · intro s
    rcases parseToken_cases L s with ⟨_, h⟩ | ⟨_, _, _, _, _, _, h⟩
    · exact ⟨_, _, _, h⟩
    · exact ⟨_, _, _, h⟩
  · intro s
    obtain ⟨v, r, e, h, _⟩ := parseParamValue_total s
    exact ⟨v, r, e, h⟩
  · intro s
    rcases parseParam_cases L s with ⟨r, e, h⟩ | ⟨q, r, h, _⟩
    · exact ⟨_, _, _, h⟩
    · exact ⟨_, _, _, h⟩
  · intro s
    obtain ⟨p, r, e, h, _⟩ := parseParams_total L s
    exact ⟨p, r, e, h⟩
  · intro s s1 i hpre hs1 hi
    cases s with
    | nil => simp [HasPrefix, List.isPrefixOf] at hpre
    | cons c t =>
      rw [HasPrefix_quote_cons] at hpre
      have hc : c = '"' := by simpa using hpre
      subst hc
      rw [sliceFrom_one] at hs1
      have hs1' : t = s1 := Option.some.inj hs1
      subst hs1'
      rcases IndexFunc_cases (fun c => c == '"') t with ⟨h, _⟩ | ⟨a, d, b, rfl, _, hd, h⟩
      · have : Index t '"' = none := h
        rw [this] at hi
        cases hi
      · have hd' : d = '"' := by simpa using hd
        subst hd'
        have h' : Index (a ++ '"' :: b) '"' = some a.length := h
        rw [h'] at hi
        cases hi
        refine ⟨b, ?_, sliceFrom_one _ _⟩
        have := sliceFrom_append ('"' :: a) ('"' :: b)
        simpa using this

/-- C18 at the empty string, at white space, at a lone `<`, at a truncated quoted
value and at a header with characters above ASCII. -/
theorem Parse_total_witness :
    Parse idUrl asciiOnly [] = some ([], none) ∧
    Parse idUrl asciiOnly "  ".toList = some ([], none) ∧
    Parse idUrl asciiOnly "<".toList = some ([], some "link does not end with >") ∧
    Parse idUrl asciiOnly "<a>;k=\"".toList =
      some ([], some ("params could not be parsed: could not parse param value: " ++
        "expected \" but found none")) ∧
    Parse idUrl asciiOnly "é<a>".toList = some ([], some "link does not begin with <") ∧
    (∃ links err, Parse idUrl asciiOnly "<é>; rel=\"ü\"; é".toList = some (links, err)) := by
  refine ⟨by decide, by decide, by decide, by decide, by decide,
    (Parse_total idUrl asciiOnly).1 _⟩

/-- C19: for every input and every key `k` of the collection that `Parse` returns,
with or without an error, the entry stored under `k` has `k` among its relations
and its attributes have no key `rel`. -/
theorem Parse_keys_in_rels (s : Str) (links : Links U) (err : Option String) (k : Str)
    (link : Link U) (h : Parse urlParse L s = some (links, err))
    (hk : mapGet links k = some link) :
    k ∈ link.rels ∧ ['r', 'e', 'l'] ∉ mapKeys link.Attributes ∧
      mapGet link.Attributes ['r', 'e', 'l'] = none := by
  obtain ⟨hrel, e, rest, hne, _, hp⟩ := Parse_entries urlParse L h hk
  have hattr : ['r', 'e', 'l'] ∉ mapKeys link.Attributes := by
    rcases parseLink_cases urlParse L e hne with ⟨x, r', e', hp'⟩ |
      ⟨_, _, t, uri, ps, rest', _, _, _, _, hps, hp', _⟩
    · rw [hp] at hp'
      simp at hp'
    · rw [hp] at hp'
      have hl : link = applyAnchor urlParse
          { URI := uri, Attributes := ps.attributes, rels := ps.rels } :=
        Option.some.inj (Prod.mk.inj (Option.some.inj hp')).1
      rw [hl, applyAnchor_Attributes]
      exact parseParams_no_rel L hps
  exact ⟨hrel, hattr, mapGet_eq_none hattr⟩

/-- C19 at a header with two relations, a `rel` repeated and an error at the end. -/
theorem Parse_keys_in_rels_witness :
    Parse idUrl asciiOnly "<a>; rel=\"x y\"; rel=\"z w\"; t=\"1\", <b".toList =
      some ([(['w'], { URI := ['a'], Attributes := [(['t'], ['1'])], rels := [['z'], ['w']] }),
             (['z'], { URI := ['a'], Attributes := [(['t'], ['1'])], rels := [['z'], ['w']] })],
        some "link does not end with >") ∧
    (['w'] ∈ [['z'], ['w']] ∧ ['r', 'e', 'l'] ∉ mapKeys [((['t'] : Str), (['1'] : Str))] ∧
      mapGet [((['t'] : Str), (['1'] : Str))] ['r', 'e', 'l'] = none) :=
  ⟨by decide,
    Parse_keys_in_rels idUrl asciiOnly "<a>; rel=\"x y\"; rel=\"z w\"; t=\"1\", <b".toList
      [(['w'], { URI := ['a'], Attributes := [(['t'], ['1'])], rels := [['z'], ['w']] }),
       (['z'], { URI := ['a'], Attributes := [(['t'], ['1'])], rels := [['z'], ['w']] })]
      (some "link does not end with >") ['w']
      { URI := ['a'], Attributes := [(['t'], ['1'])], rels := [['z'], ['w']] }
      (by decide) (by decide)⟩

end claims

end Weblinks
